import Mathlib

/-
  Verification of the nbdime repository against its specification.

  The repository's src/ contains only the build tooling (setup.py).
  The diff/patch/merge core described by the specification is not part of
  src/, so that core is modelled here from the specification text (each
  such definition carries a doc comment starting with "Modelled from the
  spec:").  The build-tooling definitions are modelled from src/setup.py.
-/

/-! ## Value model (spec section 3) -/

/-- Modelled from the spec: the Value tree type of the diff/merge core,
which is missing from src/.  "Value — a tagged variant:
Null | Bool | Number | String | Sequence(...) | Mapping(ordered list of
(key, Value), keys unique)". -/
inductive Value where
  | null
  | bool (b : Bool)
  | num (n : Int)
  | str (s : String)
  | seq (xs : List Value)
  | map (entries : List (String × Value))

/-- Modelled from the spec: first-occurrence key lookup in a Mapping's
ordered entry list (membership, not order, defines key equality). -/
def lookupK (s : String) : List (String × Value) → Option Value
  | [] => none
  | (k, v) :: es => if k = s then some v else lookupK s es

/-- Modelled from the spec: key membership in a Mapping's entry list. -/
def hasKeyK (s : String) (es : List (String × Value)) : Bool :=
  (lookupK s es).isSome

/-- Modelled from the spec: every key of `es` occurs in `fs` (one
direction of mapping key-set equality). -/
def subKeysChk (es fs : List (String × Value)) : Bool :=
  es.all (fun e => hasKeyK e.1 fs)

mutual
/-- Modelled from the spec: structural equality of Values — "deep,
order-sensitive for sequences, order-insensitive for mapping membership"
(spec section 4.1).  The diff/merge core is missing from src/. -/
def eqv : Value → Value → Bool
  | .null, .null => true
  | .bool x, .bool y => x == y
  | .num x, .num y => x == y
  | .str x, .str y => x == y
  | .seq xs, .seq ys => eqvList xs ys
  | .map es, .map fs => subKeysChk es fs && eqvAt es fs
  | _, _ => false
/-- Modelled from the spec: pointwise structural equality of sequences. -/
def eqvList : List Value → List Value → Bool
  | [], [] => true
  | x :: xs, y :: ys => eqv x y && eqvList xs ys
  | _, _ => false
/-- Modelled from the spec: every entry of `fs` is matched, via key lookup,
by a structurally equal entry of `es`. -/
def eqvAt (es : List (String × Value)) : List (String × Value) → Bool
  | [] => true
  | (k, w) :: fs =>
    (match lookupK k es with
     | some v => eqv v w
     | none => false) && eqvAt es fs
end

/-- Modelled from the spec: the Mapping invariant "keys unique". -/
def uniqKeys : List (String × Value) → Bool
  | [] => true
  | (k, _) :: es => !(hasKeyK k es) && uniqKeys es

mutual
/-- Modelled from the spec: well-formedness of a Value — all mapping
levels have unique keys (the data-model invariant of spec section 3). -/
def wfV : Value → Bool
  | .seq xs => wfL xs
  | .map es => uniqKeys es && wfE es
  | _ => true
/-- Modelled from the spec: well-formedness of a sequence of Values. -/
def wfL : List Value → Bool
  | [] => true
  | x :: xs => wfV x && wfL xs
/-- Modelled from the spec: well-formedness of mapping entries. -/
def wfE : List (String × Value) → Bool
  | [] => true
  | (_, v) :: es => wfV v && wfE es
end

theorem hasKeyK_of_mem {k : String} {w : Value} {es : List (String × Value)} :
    (k, w) ∈ es → hasKeyK k es = true := by
  intro hm
  induction es with
  | nil => cases hm
  | cons e es ih =>
    obtain ⟨k1, v1⟩ := e
    rcases List.mem_cons.mp hm with h | h
    · cases h; simp [hasKeyK, lookupK]
    · by_cases hk : k1 = k
      · simp [hasKeyK, lookupK, hk]
      · simp only [hasKeyK, lookupK, hk, if_false]
        exact ih h

theorem lookupK_self {k : String} {w : Value} {es : List (String × Value)} :
    (k, w) ∈ es → uniqKeys es = true → lookupK k es = some w := by
  intro hm hu
  induction es with
  | nil => cases hm
  | cons e es ih =>
    obtain ⟨k1, v1⟩ := e
    rw [uniqKeys] at hu
    simp only [Bool.and_eq_true, Bool.not_eq_true'] at hu
    rcases List.mem_cons.mp hm with h | h
    · cases h; rw [lookupK]; simp
    · rw [lookupK]
      by_cases hk : k1 = k
      · subst hk
        exact absurd (hasKeyK_of_mem h) (by simp [hu.1])
      · simp only [hk, if_false]
        exact ih h hu.2

theorem mem_of_lookupK {k : String} {w : Value} {es : List (String × Value)} :
    lookupK k es = some w → (k, w) ∈ es := by
  intro h
  induction es with
  | nil => simp [lookupK] at h
  | cons e es ih =>
    obtain ⟨k1, v1⟩ := e
    rw [lookupK] at h
    by_cases hk : k1 = k
    · subst hk; simp at h; subst h; exact List.mem_cons_self _ _
    · simp only [hk, if_false] at h
      exact List.mem_cons_of_mem _ (ih h)

theorem lookupK_sizeOf {k : String} {w : Value} {es : List (String × Value)} :
    lookupK k es = some w → sizeOf w < sizeOf es := by
  intro h
  have hm := mem_of_lookupK h
  have h1 : sizeOf (k, w) < sizeOf es := List.sizeOf_lt_of_mem hm
  simp only [Prod.mk.sizeOf_spec] at h1
  omega

theorem sizeOf_value_pos : ∀ v : Value, 0 < sizeOf v := by
  intro v; cases v <;> simp_arith

mutual
theorem eqv_refl : ∀ v : Value, wfV v = true → eqv v v = true
  | .null, _ => by rw [eqv]
  | .bool b, _ => by rw [eqv]; exact beq_self_eq_true b
  | .num n, _ => by rw [eqv]; exact beq_self_eq_true n
  | .str s, _ => by rw [eqv]; exact beq_self_eq_true s
  | .seq xs, h => by
    rw [eqv]
    exact eqvList_refl xs (by rw [wfV] at h; exact h)
  | .map es, h => by
    rw [eqv]
    rw [wfV] at h
    simp only [Bool.and_eq_true] at h
    rw [eqvAt_refl_aux es es h.1 (fun e he => he) h.2]
    have : subKeysChk es es = true := by
      rw [subKeysChk]
      rw [List.all_eq_true]
      intro e he
      obtain ⟨a, b⟩ := e
      exact hasKeyK_of_mem he
    rw [this]
    rfl
termination_by v _ => sizeOf v
decreasing_by all_goals simp_arith

theorem eqvList_refl : ∀ xs : List Value, wfL xs = true → eqvList xs xs = true
  | [], _ => by rw [eqvList]
  | x :: xs, h => by
    rw [wfL] at h
    simp only [Bool.and_eq_true] at h
    rw [eqvList, eqv_refl x h.1, eqvList_refl xs h.2]
    rfl
termination_by xs _ => sizeOf xs
decreasing_by all_goals simp_arith

theorem eqvAt_refl_aux : ∀ (es fs : List (String × Value)), uniqKeys es = true →
    (∀ e, e ∈ fs → e ∈ es) → wfE fs = true → eqvAt es fs = true
  | _, [], _, _, _ => by rw [eqvAt]
  | es, (k, w) :: fs, hu, hsub, hwf => by
    rw [wfE] at hwf
    simp only [Bool.and_eq_true] at hwf
    rw [eqvAt]
    rw [lookupK_self (hsub _ (List.mem_cons_self _ _)) hu]
    simp only
    rw [eqv_refl w hwf.1, eqvAt_refl_aux es fs hu (fun e he => hsub e (List.mem_cons_of_mem _ he)) hwf.2]
    rfl
termination_by es fs _ _ _ => sizeOf fs
decreasing_by all_goals simp_arith
end

/-! ## Paths, diff operations and diffs (spec section 3) -/

/-- Modelled from the spec: one step of a Path — "each step either a
mapping key or a sequence index".  The extra `root` address carries the
spec's "single Replace" for two dissimilar top-level Values, which is
addressed at the value itself rather than inside a container. -/
inductive Key where
  | k (s : String)
  | i (n : Nat)
  | root
  deriving DecidableEq

/-- Modelled from the spec: "Path — an ordered sequence of steps ...
identifying a location inside a Value starting from its root".  (Named
VPath because Mathlib already owns the name Path.) -/
abbrev VPath := List Key

/-- Modelled from the spec: "DiffOp — a tagged variant addressed at one
step within a container": Add, Remove, Replace and the recursive Patch. -/
inductive DiffOp where
  | add (key : Key) (value : Value)
  | remove (key : Key)
  | replace (key : Key) (value : Value)
  | patch (key : Key) (diff : List DiffOp)

/-- Modelled from the spec: "Diff — an ordered sequence of DiffOp, scoped
to one container". -/
abbrev Diff := List DiffOp

/-- Modelled from the spec: the address (key or index) of a DiffOp. -/
def opKey : DiffOp → Key
  | .add key _ => key
  | .remove key => key
  | .replace key _ => key
  | .patch key _ => key

/-- Modelled from the spec: whether an op addresses the value itself. -/
def isRootOp (op : DiffOp) : Bool := opKey op == .root

/-- Modelled from the spec: whether a diff contains a root-addressed op. -/
def hasRootOp (d : Diff) : Bool := d.any isRootOp

/-! ### Syntactic (representation-level) equality tests -/

mutual
/-- Modelled from the spec: syntactic equality of Values as immutable
data, used by the merge engine to recognise identical edits. -/
def beqV : Value → Value → Bool
  | .null, .null => true
  | .bool x, .bool y => x == y
  | .num x, .num y => x == y
  | .str x, .str y => x == y
  | .seq xs, .seq ys => beqVList xs ys
  | .map es, .map fs => beqVEntries es fs
  | _, _ => false
/-- Modelled from the spec: syntactic equality of Value lists. -/
def beqVList : List Value → List Value → Bool
  | [], [] => true
  | x :: xs, y :: ys => beqV x y && beqVList xs ys
  | _, _ => false
/-- Modelled from the spec: syntactic equality of mapping entry lists. -/
def beqVEntries : List (String × Value) → List (String × Value) → Bool
  | [], [] => true
  | (k1, v1) :: es, (k2, v2) :: fs => k1 == k2 && beqV v1 v2 && beqVEntries es fs
  | _, _ => false
end

mutual
/-- Modelled from the spec: syntactic equality of DiffOps ("identical
ops" in the merge rules of spec section 4.5). -/
def beqOp : DiffOp → DiffOp → Bool
  | .add key1 v1, .add key2 v2 => key1 == key2 && beqV v1 v2
  | .remove key1, .remove key2 => key1 == key2
  | .replace key1 v1, .replace key2 v2 => key1 == key2 && beqV v1 v2
  | .patch key1 d1, .patch key2 d2 => key1 == key2 && beqD d1 d2
  | _, _ => false
/-- Modelled from the spec: syntactic equality of Diffs. -/
def beqD : Diff → Diff → Bool
  | [], [] => true
  | op1 :: d1, op2 :: d2 => beqOp op1 op2 && beqD d1 d2
  | _, _ => false
end

mutual
theorem beqV_refl : ∀ v : Value, beqV v v = true
  | .null => by rw [beqV]
  | .bool b => by rw [beqV]; exact beq_self_eq_true b
  | .num n => by rw [beqV]; exact beq_self_eq_true n
  | .str s => by rw [beqV]; exact beq_self_eq_true s
  | .seq xs => by rw [beqV]; exact beqVList_refl xs
  | .map es => by rw [beqV]; exact beqVEntries_refl es
termination_by v => sizeOf v
decreasing_by all_goals simp_arith

theorem beqVList_refl : ∀ xs : List Value, beqVList xs xs = true
  | [] => by rw [beqVList]
  | x :: xs => by rw [beqVList, beqV_refl x, beqVList_refl xs]; rfl
termination_by xs => sizeOf xs
decreasing_by all_goals simp_arith

theorem beqVEntries_refl : ∀ es : List (String × Value), beqVEntries es es = true
  | [] => by rw [beqVEntries]
  | (k, v) :: es => by
    rw [beqVEntries, beqV_refl v, beqVEntries_refl es, beq_self_eq_true k]
    rfl
termination_by es => sizeOf es
decreasing_by all_goals simp_arith
end

mutual
theorem beqOp_refl : ∀ op : DiffOp, beqOp op op = true
  | .add key v => by rw [beqOp, beqV_refl v, beq_self_eq_true key]; rfl
  | .remove key => by rw [beqOp]; exact beq_self_eq_true key
  | .replace key v => by rw [beqOp, beqV_refl v, beq_self_eq_true key]; rfl
  | .patch key d => by rw [beqOp, beqD_refl d, beq_self_eq_true key]; rfl
termination_by op => sizeOf op
decreasing_by all_goals simp_arith

theorem beqD_refl : ∀ d : Diff, beqD d d = true
  | [] => by rw [beqD]
  | op :: d => by rw [beqD, beqOp_refl op, beqD_refl d]; rfl
termination_by d => sizeOf d
decreasing_by all_goals simp_arith
end

theorem sizeOf_find? {p : DiffOp → Bool} {l : Diff} {a : DiffOp}
    (h : l.find? p = some a) : sizeOf a < sizeOf l :=
  List.sizeOf_lt_of_mem (List.mem_of_find?_eq_some h)

/-! ## Patch applier (spec section 4.4) -/

/-- Modelled from the spec: the single error of the patch applier —
"fails with MalformedDiff when a DiffOp addresses a key/index absent from
(or incompatible with) the corresponding position in base". -/
inductive MalformedDiff where
  | mk

/-- Modelled from the spec: the per-op address-compatibility condition of
the patch applier on a mapping, before recursion: Remove/Replace/Patch
need the addressed key present, Add needs it absent, and only mapping
keys may address a mapping. -/
def mapOpOK (es : List (String × Value)) : DiffOp → Bool
  | .add (.k s) _ => !(hasKeyK s es)
  | .remove (.k s) => hasKeyK s es
  | .replace (.k s) _ => hasKeyK s es
  | .patch (.k s) _ => hasKeyK s es
  | .add (.i _) _ => false
  | .add .root _ => false
  | .remove (.i _) => false
  | .remove .root => false
  | .replace (.i _) _ => false
  | .replace .root _ => false
  | .patch (.i _) _ => false
  | .patch .root _ => false

/-- Modelled from the spec: per-op address validation of a diff against a
mapping's entries. -/
def checkMapOps (es : List (String × Value)) : Diff → Bool
  | [] => true
  | op :: rest => mapOpOK es op && checkMapOps es rest

/-- Modelled from the spec: the first op of a diff addressing mapping key
`s` (the Diff invariant allows at most one). -/
def findOpK (d : Diff) (s : String) : Option DiffOp :=
  d.find? (fun op => opKey op == .k s)

/-- Modelled from the spec: the entries inserted by the Add ops of a
mapping diff, in op order. -/
def collectAdds : Diff → List (String × Value)
  | [] => []
  | .add (.k s) v :: rest => (s, v) :: collectAdds rest
  | .add (.i _) _ :: rest => collectAdds rest
  | .add .root _ :: rest => collectAdds rest
  | .remove _ :: rest => collectAdds rest
  | .replace _ _ :: rest => collectAdds rest
  | .patch _ _ :: rest => collectAdds rest

/-- Modelled from the spec: recognises the diff shape produced for two
dissimilar top-level Values — a single root-addressed Replace. -/
def isRootReplaceSingleton : Diff → Option Value
  | [.replace .root x] => some x
  | _ => none

/-- Error-propagating cons for sequence application: both the element
result and the tail result must be ok. -/
def consOkM : Except MalformedDiff Value → Except MalformedDiff (List Value) →
    Except MalformedDiff (List Value)
  | .ok c, .ok t => .ok (c :: t)
  | .error e, _ => .error e
  | .ok _, .error e => .error e

/-- Error-propagating cons for mapping application: the entry's value
result and the tail result must both be ok. -/
def consEntry (k : String) : Except MalformedDiff Value →
    Except MalformedDiff (List (String × Value)) →
    Except MalformedDiff (List (String × Value))
  | .ok c, .ok t => .ok ((k, c) :: t)
  | .error e, _ => .error e
  | .ok _, .error e => .error e

theorem sizeOf_key_pos : ∀ k : Key, 0 < sizeOf k := by
  intro k; cases k <;> simp_arith

/-- Takes the root-replacement value when the diff is the root-Replace
singleton, and the continuation otherwise. -/
def rootOr (o : Option Value) (k : Except MalformedDiff Value) : Except MalformedDiff Value :=
  match o with
  | some x => .ok x
  | none => k

/-- Boolean analogue of rootOr for the declarative predicates. -/
def rootOrB (o : Option Value) (b k : Bool) : Bool :=
  match o with
  | some _ => b
  | none => k

mutual
/-- Modelled from the spec: the patch applier (spec section 4.4) of the
core missing from src/ — applies a Diff to a base Value, producing the
target Value, failing with MalformedDiff exactly on incompatible
addressing.  Pure: the base is never mutated. -/
def applyValue (d : Diff) (v : Value) : Except MalformedDiff Value :=
  match d with
  | [] => .ok v
  | op :: rest => rootOr (isRootReplaceSingleton (op :: rest)) (applyContainer (op :: rest) v)
termination_by 2 * sizeOf d + 4 * sizeOf v + 1
decreasing_by all_goals simp_arith

/-- Modelled from the spec: applies a non-empty, non-root diff to a
container value; any op list on a leaf scalar is malformed. -/
def applyContainer (d : Diff) (v : Value) : Except MalformedDiff Value :=
  match v with
  | .map es =>
    if checkMapOps es d then
      Except.map (fun front => Value.map (front ++ collectAdds d)) (applyMapEntries d es)
    else .error .mk
  | .seq xs => Except.map Value.seq (applySeqGo d 0 xs)
  | .null => .error .mk
  | .bool b => .error .mk
  | .num n => .error .mk
  | .str s => .error .mk
termination_by 2 * sizeOf d + 4 * sizeOf v
decreasing_by all_goals simp_arith

/-- Modelled from the spec: applies a mapping diff entrywise — each base
entry is kept, removed, replaced or recursively patched according to the
op addressing its key (Add ops are appended separately). -/
def applyMapEntries (ops : Diff) : List (String × Value) → Except MalformedDiff (List (String × Value))
  | [] => .ok []
  | (k, v) :: es =>
    match hf : findOpK ops k with
    | none => consEntry k (.ok v) (applyMapEntries ops es)
    | some (.remove _) => applyMapEntries ops es
    | some (.replace _ w) => consEntry k (.ok w) (applyMapEntries ops es)
    | some (.patch _ dd) => consEntry k (applyValue dd v) (applyMapEntries ops es)
    | some (.add _ _) => .error .mk
termination_by es => 2 * sizeOf ops + 4 * sizeOf es
decreasing_by
  all_goals simp_arith
  all_goals (have hs := sizeOf_find? hf; simp_arith at hs; omega)

/-- Modelled from the spec: applies a sequence diff by walking the base
with the current original index — "applying them in order, adjusting for
prior insertions/removals, reproduces the target sequence exactly". -/
def applySeqGo (ops : Diff) (i : Nat) (xs : List Value) : Except MalformedDiff (List Value) :=
  match ops with
  | [] => .ok xs
  | op :: rest => applySeqStep op rest i xs
termination_by 2 * sizeOf ops + 4 * sizeOf xs + 3
decreasing_by all_goals simp_arith

/-- Modelled from the spec: handles the first op of a sequence diff at
original index position i. -/
def applySeqStep (op : DiffOp) (rest : Diff) (i : Nat) (xs : List Value) :
    Except MalformedDiff (List Value) :=
  match opKey op with
  | .i j =>
    if j < i then .error .mk
    else if j = i then applySeqConsume op rest i xs
    else applySeqSkip op rest i xs
  | _ => .error .mk
termination_by 2 * sizeOf op + 2 * sizeOf rest + 4 * sizeOf xs + 2
decreasing_by all_goals simp_arith

/-- Modelled from the spec: applies the first op of a sequence diff at
its own original index — Add inserts before the element, Remove drops
it, Replace substitutes it, Patch recurses into it. -/
def applySeqConsume (op : DiffOp) (rest : Diff) (i : Nat) (xs : List Value) :
    Except MalformedDiff (List Value) :=
  match op, xs with
  | .add key w, xs3 => consOkM (.ok w) (applySeqGo rest i xs3)
  | .remove key, _ :: xs2 => applySeqGo rest (i+1) xs2
  | .remove _, [] => .error .mk
  | .replace key w, _ :: xs2 => consOkM (.ok w) (applySeqGo rest (i+1) xs2)
  | .replace _ _, [] => .error .mk
  | .patch key dd, x :: xs2 => consOkM (applyValue dd x) (applySeqGo rest (i+1) xs2)
  | .patch _ _, [] => .error .mk
termination_by 2 * sizeOf op + 2 * sizeOf rest + 4 * sizeOf xs + 1
decreasing_by
  all_goals simp_arith
  all_goals (first
    | (have h1 := sizeOf_key_pos key; have h2 := sizeOf_value_pos w; omega)
    | omega)

/-- Modelled from the spec: the first op addresses a later original
index, so the current base element is kept unchanged. -/
def applySeqSkip (op : DiffOp) (rest : Diff) (i : Nat) (xs : List Value) :
    Except MalformedDiff (List Value) :=
  match xs with
  | [] => .error .mk
  | x :: xs2 => consOkM (.ok x) (applySeqGo (op :: rest) (i+1) xs2)
termination_by 2 * sizeOf op + 2 * sizeOf rest + 4 * sizeOf xs + 1
decreasing_by
  all_goals simp_arith
  all_goals (have h1 := sizeOf_value_pos x; omega)
end

/-- Modelled from the spec: the public patch-applier operation
"apply(diff: Diff, base: Value) -> Value" of spec section 4.4. -/
def apply (d : Diff) (base : Value) : Except MalformedDiff Value :=
  applyValue d base

/-- Modelled from the spec: total application used internally by the
merge engine to materialize merged containers — on the conservative
fallback (a malformed op) the base value is kept unchanged. -/
def applyTotal (d : Diff) (v : Value) : Value :=
  match applyValue d v with
  | .ok w => w
  | .error _ => v

/-! ## Diff engine (spec sections 4.1-4.3) -/

/-- Modelled from the spec: the similarity test of spec section 4.1 at its
permissive default configuration — two Values are alignable as "the same
conceptual element, modified" when they are containers of the same
variant; all other differing pairs degrade to Replace. -/
def similar : Value → Value → Bool
  | .map _, .map _ => true
  | .seq _, .seq _ => true
  | _, _ => false

/-- Modelled from the spec: the Add ops of a mapping diff — one per key
present only in the target (spec section 4.3), in target order. -/
def mapDiffAdds (es : List (String × Value)) : List (String × Value) → Diff
  | [] => []
  | (k, w) :: fs => (if hasKeyK k es then [] else [.add (.k k) w]) ++ mapDiffAdds es fs

mutual
/-- Modelled from the spec: the diff engine (spec section 4.3) of the core
missing from src/ — "diff(a: Value, b: Value) -> Diff": equal Values give
an empty Diff, two Mappings and two Sequences recurse, and any other
differing pair degrades to a single Replace. -/
def diff (a b : Value) : Diff :=
  if eqv a b then [] else diffC a b
termination_by 4 * sizeOf a + 4 * sizeOf b + 2
decreasing_by all_goals simp_arith

/-- Modelled from the spec: the container dispatch of the diff engine for
a non-equal pair. -/
def diffC (a b : Value) : Diff :=
  match a, b with
  | .map es, .map fs => mapDiffOps fs es ++ mapDiffAdds es fs
  | .seq xs, .seq ys => seqDiffRec 0 xs ys
  | .map es, .null => [.replace .root .null]
  | .map es, .bool b2 => [.replace .root (.bool b2)]
  | .map es, .num n2 => [.replace .root (.num n2)]
  | .map es, .str s2 => [.replace .root (.str s2)]
  | .map es, .seq ys => [.replace .root (.seq ys)]
  | .seq xs, .null => [.replace .root .null]
  | .seq xs, .bool b2 => [.replace .root (.bool b2)]
  | .seq xs, .num n2 => [.replace .root (.num n2)]
  | .seq xs, .str s2 => [.replace .root (.str s2)]
  | .seq xs, .map fs => [.replace .root (.map fs)]
  | .null, b => [.replace .root b]
  | .bool b1, b => [.replace .root b]
  | .num n1, b => [.replace .root b]
  | .str s1, b => [.replace .root b]
termination_by 4 * sizeOf a + 4 * sizeOf b + 1
decreasing_by all_goals simp_arith

/-- Modelled from the spec: the ops a single base mapping entry
contributes to a mapping diff (spec section 4.3): key only in the base
gives Remove; key in both gives nothing when equal, a recursive Patch
when similar, and Replace otherwise. -/
def mapDiffOp1 (fs : List (String × Value)) (k : String) (v : Value) : Diff :=
  match hl : lookupK k fs with
  | none => [.remove (.k k)]
  | some w =>
    if eqv v w then []
    else if similar v w then [.patch (.k k) (diff v w)]
    else [.replace (.k k) w]
termination_by 4 * sizeOf fs + 4 * sizeOf v + 7
decreasing_by
  all_goals simp_arith
  all_goals (have hs := lookupK_sizeOf hl; omega)

/-- Modelled from the spec: the Remove/Patch/Replace ops of a mapping
diff, one group per base entry, in base order. -/
def mapDiffOps (fs : List (String × Value)) : List (String × Value) → Diff
  | [] => []
  | (k, v) :: es => mapDiffOp1 fs k v ++ mapDiffOps fs es
termination_by es => 4 * sizeOf fs + 4 * sizeOf es + 8
decreasing_by all_goals simp_arith

/-- Modelled from the spec: the sequence aligner (spec section 4.2)
driving the sequence diff — a shortest-edit-script recursion over the two
sequences from original index `i`: equal heads are kept, similar heads
are matched and recursively diffed (Patch), and otherwise the shorter of
the delete-first and insert-first scripts is chosen, preferring deletion
on ties (a deterministic tie-break);  ops are emitted in non-decreasing
original-index order. -/
def seqDiffRec (i : Nat) : List Value → List Value → Diff
  | [], [] => []
  | [], y :: ys => .add (.i i) y :: seqDiffRec i [] ys
  | x :: xs, [] => .remove (.i i) :: seqDiffRec (i+1) xs []
  | x :: xs, y :: ys =>
    if eqv x y then seqDiffRec (i+1) xs ys
    else if similar x y then .patch (.i i) (diff x y) :: seqDiffRec (i+1) xs ys
    else
      let delScript := seqDiffRec (i+1) xs (y :: ys)
      let insScript := seqDiffRec i (x :: xs) ys
      if delScript.length ≤ insScript.length then .remove (.i i) :: delScript
      else .add (.i i) y :: insScript
termination_by xs ys => 4 * sizeOf xs + 4 * sizeOf ys + 8
decreasing_by all_goals simp_arith
end

/-! ## Conflict model and merge engine (spec sections 3, 4.5) -/

/-- Modelled from the spec: the resolution state of a Conflict —
"Unresolved | ResolvedLocal | ResolvedRemote | ResolvedCustom(Value)". -/
inductive ConflictState where
  | unresolved
  | resolvedLocal
  | resolvedRemote
  | resolvedCustom (v : Value)

/-- Modelled from the spec: "Conflict — {path, local_op, remote_op,
state}.  A Conflict always has at least one side present". -/
structure Conflict where
  path : VPath
  local_op : Option DiffOp
  remote_op : Option DiffOp
  state : ConflictState

/-- Modelled from the spec: "MergeResult — {merged: Value, conflicts:
ordered list of Conflict}". -/
structure MergeResult where
  merged : Value
  conflicts : List Conflict

/-- Modelled from the spec: the mapping key addressed by an op, when the
op addresses one. -/
def opKeyStr (op : DiffOp) : Option String :=
  match opKey op with
  | .k s => some s
  | _ => none

/-- Modelled from the spec: whether a diff has an op at mapping key s. -/
def hasOpK (d : Diff) (s : String) : Bool :=
  (findOpK d s).isSome

/-- Modelled from the spec: the remote ops whose mapping-key address is
untouched by the local diff — "address touched only by remote: apply
remote's op, no conflict". -/
def rOnly (l r : Diff) : Diff :=
  r.filterMap (fun op =>
    match opKeyStr op with
    | some s => if hasOpK l s then none else some op
    | none => none)

/-- Whether an op is a non-Add sequence op addressing original element
index j. -/
def elemOpAt (j : Nat) : DiffOp → Bool
  | .add _ _ => false
  | .remove key => key == .i j
  | .replace key _ => key == .i j
  | .patch key _ => key == .i j

/-- Modelled from the spec: the first non-Add op of a sequence diff
addressing original element index j. -/
def findElemOp (d : Diff) (j : Nat) : Option DiffOp :=
  d.find? (elemOpAt j)

/-- The value an op inserts at the gap before original index j, if any. -/
def addAt (j : Nat) : DiffOp → Option Value
  | .add (.i j2) w => if j2 = j then some w else none
  | .add (.k _) _ => none
  | .add .root _ => none
  | .remove _ => none
  | .replace _ _ => none
  | .patch _ _ => none

/-- Modelled from the spec: the values inserted by a sequence diff before
original index j (the gap at j), in op order. -/
def addsOf (d : Diff) (j : Nat) : List Value :=
  d.filterMap (addAt j)

/-- Modelled from the spec: merged insertions at one gap — identical
insertions are applied once, otherwise local insertions come before
remote insertions ("a documented, arbitrary but deterministic
tie-break"). -/
def mergedAdds (l r : Diff) (j : Nat) : List Value :=
  if beqVList (addsOf l j) (addsOf r j) then addsOf l j
  else addsOf l j ++ addsOf r j

/-- Modelled from the spec: nested conflicts "are reported with their
path prefixed by this address". -/
def nestConflict (key : Key) (c : Conflict) : Conflict :=
  { c with path := key :: c.path }

/-- Modelled from the spec: one-sided or agreed application of a sequence
element op; when index-shifting ops are suppressed (a conflict is present
at this sequence), Remove keeps the base element so that conflict paths
keep addressing base positions. -/
def applyElemOp (x : Value) (op : DiffOp) (shifts : Bool) : List Value :=
  match op with
  | .remove _ => if shifts then [] else [x]
  | .replace _ w => [w]
  | .patch _ dd => [applyTotal dd x]
  | .add _ _ => [x]

mutual
/-- Modelled from the spec: the merge engine (spec section 4.5) of the
core missing from src/ — walks both diffs by address in parallel:
one-sided ops are applied, identical ops applied once, Patch-vs-Patch
recurses, and any other disagreement records a Conflict while the merged
value keeps the base at that address (conservative default).  Total: it
never raises. -/
def mergeValue (v : Value) (l r : Diff) : Value × List Conflict :=
  if hasRootOp l || hasRootOp r then
    if beqD l r then (applyTotal l v, [])
    else if l.isEmpty then (applyTotal r v, [])
    else if r.isEmpty then (applyTotal l v, [])
    else (v, [⟨[], l.head?, r.head?, .unresolved⟩])
  else mergeContainer v l r
termination_by sizeOf v + sizeOf l + sizeOf r + 1
decreasing_by all_goals simp_arith

/-- Modelled from the spec: the per-container walk of the merge engine,
once root-addressed diffs have been handled. -/
def mergeContainer (v : Value) (l r : Diff) : Value × List Conflict :=
  match v with
  | .map es =>
    let lw := walkL es r [] l
    (applyTotal (lw.1 ++ rOnly l r) (.map es), lw.2)
  | .seq xs =>
    let cs := seqConflicts l r 0 xs
    (.seq (seqMerge l r cs.isEmpty 0 xs), cs)
  | .null => (.null, [])
  | .bool b => (.bool b, [])
  | .num n => (.num n, [])
  | .str s => (.str s, [])
termination_by sizeOf v + sizeOf l + sizeOf r
decreasing_by all_goals simp_arith

/-- Modelled from the spec: the per-key walk of the local diff against
the remote diff over a mapping: emits the effective ops to apply and the
conflicts found; `seen` skips duplicate addressing. -/
def walkL (es : List (String × Value)) (r : Diff) (seen : List String) :
    Diff → Diff × List Conflict
  | [] => ([], [])
  | op :: rest =>
    match opKeyStr op with
    | none => walkL es r seen rest
    | some s =>
      if seen.contains s then walkL es r seen rest
      else
        let tail := walkL es r (s :: seen) rest
        match hr : findOpK r s with
        | none => (op :: tail.1, tail.2)
        | some o2 =>
          if beqOp op o2 then (op :: tail.1, tail.2)
          else
            match op, o2 with
            | .patch _ d1, .patch _ d2 =>
              (match hb : lookupK s es with
               | some bc =>
                 let mc := mergeValue bc d1 d2
                 (.replace (.k s) mc.1 :: tail.1, mc.2.map (nestConflict (.k s)) ++ tail.2)
               | none => (tail.1, ⟨[.k s], some op, some o2, .unresolved⟩ :: tail.2))
            | _, _ => (tail.1, ⟨[.k s], some op, some o2, .unresolved⟩ :: tail.2)
termination_by lops => sizeOf es + sizeOf r + sizeOf lops
decreasing_by
  all_goals simp_arith
  all_goals (have h1 := lookupK_sizeOf hb; have h2 := sizeOf_find? hr; simp_arith at h2; omega)

/-- Modelled from the spec: the merged elements contributed by base
element j — one-sided ops applied, identical ops applied once,
Patch-vs-Patch recursing ("the (possibly partially merged) nested result
is installed regardless"), and conflicting pairs keeping the base
element. -/
def elemPart (l r : Diff) (shifts : Bool) (j : Nat) (x : Value) : List Value :=
  match hfl : findElemOp l j, hfr : findElemOp r j with
  | none, none => [x]
  | some o, none => applyElemOp x o shifts
  | none, some o => applyElemOp x o shifts
  | some o1, some o2 =>
    if beqOp o1 o2 then applyElemOp x o1 shifts
    else
      match o1, o2 with
      | .patch _ d1, .patch _ d2 => [(mergeValue x d1 d2).1]
      | _, _ => [x]
termination_by sizeOf l + sizeOf r + sizeOf x
decreasing_by
  all_goals (have h1 := sizeOf_find? hfl; have h2 := sizeOf_find? hfr;
             simp_arith at h1 h2; simp_arith; omega)

/-- Modelled from the spec: merged sequence materialization, walking the
base from original index j; insertions are emitted at their gaps only
when no conflict is present at this sequence (`shifts`), so that
conflicting addresses keep their base positions (conservative
default). -/
def seqMerge (l r : Diff) (shifts : Bool) (j : Nat) : List Value → List Value
  | [] => if shifts then mergedAdds l r j else []
  | x :: xs =>
    (if shifts then mergedAdds l r j else [])
    ++ elemPart l r shifts j x
    ++ seqMerge l r shifts (j+1) xs
termination_by xs => sizeOf l + sizeOf r + sizeOf xs
decreasing_by all_goals simp_arith

/-- Modelled from the spec: the conflicts of a sequence merge, collected
in ascending original-index order (pre-order over Path): incompatible op
pairs at one element conflict, Patch-vs-Patch pairs recurse with the
element index prefixed. -/
def seqConflicts (l r : Diff) (j : Nat) : List Value → List Conflict
  | [] => []
  | x :: xs =>
    (match hfl : findElemOp l j, hfr : findElemOp r j with
     | some o1, some o2 =>
       if beqOp o1 o2 then []
       else
         match o1, o2 with
         | .patch _ d1, .patch _ d2 => ((mergeValue x d1 d2).2).map (nestConflict (.i j))
         | _, _ => [⟨[.i j], some o1, some o2, .unresolved⟩]
     | _, _ => [])
    ++ seqConflicts l r (j+1) xs
termination_by xs => sizeOf l + sizeOf r + sizeOf xs
decreasing_by
  all_goals simp_arith
  all_goals (have h1 := sizeOf_find? hfl; have h2 := sizeOf_find? hfr;
             simp_arith at h1 h2; omega)
end

/-- Modelled from the spec: the public merge operation "merge(base,
local, remote) -> MergeResult" of spec section 4.5. -/
def merge (base : Value) (l r : Diff) : MergeResult :=
  let mc := mergeValue base l r
  ⟨mc.1, mc.2⟩

/-! ## Paths into values and conflict resolution (spec sections 3, 4.6) -/

/-- Modelled from the spec: the Value at a Path inside a Value — "Paths
are the addressing scheme shared by diffs and conflicts". -/
def getPath : Value → VPath → Option Value
  | v, [] => some v
  | .map es, .k s :: p =>
    (match lookupK s es with
     | some c => getPath c p
     | none => none)
  | .seq xs, .i n :: p =>
    (match xs.get? n with
     | some c => getPath c p
     | none => none)
  | .null, _ :: _ => none
  | .bool _, _ :: _ => none
  | .num _, _ :: _ => none
  | .str _, _ :: _ => none
  | .map _, .i _ :: _ => none
  | .map _, .root :: _ => none
  | .seq _, .k _ :: _ => none
  | .seq _, .root :: _ => none

theorem sizeOf_get? {xs : List Value} {n : Nat} {c : Value}
    (h : xs.get? n = some c) : sizeOf c < sizeOf xs :=
  List.sizeOf_lt_of_mem (List.get?_mem h)

mutual
/-- Modelled from the spec: substitution of a new Value at a Path — the
structure-preserving update used by apply_resolutions to "substitute
resolved values at their paths into merged"; it leaves the value
unchanged when the path does not exist (a set beyond a sequence's length
is a no-op). -/
def setPath : Value → VPath → Value → Value
  | _, [], nv => nv
  | .map es, .k s :: p, nv => .map (setEntries s p nv es)
  | .seq xs, .i n :: p, nv => .seq (xs.set n (setPath (xs.getD n .null) p nv))
  | .null, _ :: _, _ => .null
  | .bool b, _ :: _, _ => .bool b
  | .num n, _ :: _, _ => .num n
  | .str s, _ :: _, _ => .str s
  | .map es, .i _ :: _, _ => .map es
  | .map es, .root :: _, _ => .map es
  | .seq xs, .k _ :: _, _ => .seq xs
  | .seq xs, .root :: _, _ => .seq xs
termination_by v p _ => (sizeOf p, sizeOf v)
decreasing_by all_goals (simp_arith; try omega)

/-- Modelled from the spec: entrywise substitution inside a mapping: the
entry whose key is addressed is updated in place, all others kept. -/
def setEntries (s : String) (p : VPath) (nv : Value) :
    List (String × Value) → List (String × Value)
  | [] => []
  | (k, v) :: es =>
    (if k = s then (k, setPath v p nv) else (k, v)) :: setEntries s p nv es
termination_by es => (sizeOf p, sizeOf es)
decreasing_by all_goals (simp_arith; try omega)
end

/-- Modelled from the spec: the error of spec section 4.6 — raised "if
any Conflict is still Unresolved". -/
inductive UnresolvedConflict where
  | mk

/-- Modelled from the spec: whether a Conflict is still Unresolved. -/
def Conflict.isUnresolved (c : Conflict) : Bool :=
  match c.state with
  | .unresolved => true
  | _ => false

/-- Modelled from the spec: the value carried by a resolved side's op —
Add/Replace carry their value, Patch patches the current value at the
path, and an absent side (or a Remove, which carries no value to
substitute) keeps the current value. -/
def opResolvedValue : Option DiffOp → Value → Value
  | some (.add _ w), _ => w
  | some (.replace _ w), _ => w
  | some (.patch _ dd), cur => applyTotal dd cur
  | some (.remove _), cur => cur
  | none, cur => cur

/-- Modelled from the spec: the resolved value chosen for a Conflict by
the caller — "a caller sets state to ResolvedLocal, ResolvedRemote, or
ResolvedCustom(value)". -/
def Conflict.resolvedValue (c : Conflict) (cur : Value) : Value :=
  match c.state with
  | .resolvedCustom w => w
  | .resolvedLocal => opResolvedValue c.local_op cur
  | .resolvedRemote => opResolvedValue c.remote_op cur
  | .unresolved => cur

/-- Modelled from the spec: substitution of one Conflict's resolved value
at its path. -/
def substConflict (acc : Value) (c : Conflict) : Value :=
  match getPath acc c.path with
  | some cur => setPath acc c.path (c.resolvedValue cur)
  | none => acc

/-- Modelled from the spec: "a helper apply_resolutions(merge_result) ->
Value then substitutes resolved values at their paths into merged,
failing with UnresolvedConflict if any Conflict is still Unresolved"
(spec section 4.6); part of the core missing from src/. -/
def apply_resolutions (mr : MergeResult) : Except UnresolvedConflict Value :=
  if mr.conflicts.any Conflict.isUnresolved then .error .mk
  else .ok (mr.conflicts.foldl substConflict mr.merged)

/-! ## Build tooling, from src/setup.py -/

/-- From src/setup.py line 10: the name of the project. -/
def projectName : String := "nbdime"

/-- From src/setup.py: the file's length in lines (the whole file,
lines 1-256). -/
def setupPyLineCount : Nat := 256

/-- From src/setup.py: the names of all top-level function definitions in
the file (lines 51, 61, 87, 122). -/
def setupPyFunctionDefs : List String :=
  ["run", "js_prerelease", "install_npm", "combine_commands"]

/-- From src/setup.py: the names of the command classes defined inside
those functions (lines 63, 90, 125). -/
def setupPyCommandClasses : List String :=
  ["DecoratedCommand", "NPM", "CombinedCommand"]

/-- The operations of the diff/patch/merge core over tree values, as the
specification names them; used to state that the build tooling defines
none of them. -/
def coreOperationNames : List String :=
  ["diff", "apply", "patch", "merge", "apply_resolutions"]

/-- Lexicographic comparison of (major, minor) version pairs, as Python
compares the tuples in src/setup.py line 19. -/
def verLt (a b : Nat × Nat) : Bool :=
  a.1 < b.1 || (a.1 == b.1 && a.2 < b.2)

/-- From src/setup.py lines 18-24: the script's reaction to the
interpreter version, before anything else runs. -/
inductive VersionOutcome where
  | exited (code : Nat) (stderrMsg : String)
  | continued
  deriving DecidableEq, Repr

/-- From src/setup.py lines 18-24: `if v[:2] < (2,7) or (v[0] >= 3 and
v[:2] < (3,3)):` print an error to stderr and `sys.exit(1)`; otherwise
execution continues past the check. -/
def versionCheck (major minor : Nat) : VersionOutcome :=
  if verLt (major, minor) (2, 7) || (decide (major ≥ 3) && verLt (major, minor) (3, 3)) then
    .exited 1 ("ERROR: " ++ projectName ++ " requires Python version 2.7 or 3.3 or above.")
  else
    .continued

/-- From src/setup.py lines 61-84: the observable steps of the run method
of the command class built by js_prerelease (log texts abbreviated). -/
inductive BuildStep where
  | runJsdeps
  | runWrappedCmd
  | warnFailed
  | errorMissing
  | warnNotProblem
  deriving DecidableEq, Repr

/-- From src/setup.py lines 42, 46-48, 71-74: the environment the
decorated run method observes: whether the directory is a git checkout
(is_repo), whether every jstargets path exists before the check on line
66, whether running the jsdeps command raises, and which jstargets paths
are missing when re-checked on line 74. -/
structure JsEnv where
  isRepo : Bool
  allTargetsExistBefore : Bool
  jsdepsRaises : Bool
  missingAfter : List String

/-- From src/setup.py lines 61-84: the run method of the DecoratedCommand
returned by js_prerelease(command, strict): if not a repo and all
jstargets exist, only the wrapped command runs; otherwise jsdeps runs
first, and an exception from it propagates exactly when strict or some
jstargets path is missing, the wrapped command still running in every
non-propagating case.  Returns the executed steps and whether the
exception propagates. -/
def jsPrereleaseRun (strict : Bool) (env : JsEnv) : List BuildStep × Bool :=
  if !env.isRepo && env.allTargetsExistBefore then
    ([.runWrappedCmd], false)
  else if env.jsdepsRaises then
    if strict || !env.missingAfter.isEmpty then
      ([.runJsdeps, .warnFailed] ++
        (if env.missingAfter.isEmpty then [] else [.errorMissing]), true)
    else
      ([.runJsdeps, .warnNotProblem, .runWrappedCmd], false)
  else
    ([.runJsdeps, .runWrappedCmd], false)

/-- From src/setup.py lines 103-120: the observable steps of the NPM
command's run method (log texts abbreviated). -/
inductive NpmStep where
  | logInfo (msg : String)
  | logError (msg : String)
  | runCmd (cmd : String) (cwd : String)
  deriving DecidableEq, Repr

/-- From src/setup.py lines 110-119: the run method of the NPM command
returned by install_npm(path): it logs, checks has_npm() and only LOGS an
error when npm is unavailable, then unconditionally runs `npm install`
and `npm run build` in the node package path, in that order. -/
def npmRun (path : String) (hasNpm : Bool) : List NpmStep :=
  [.logInfo "Checking npm-installation:"]
  ++ (if hasNpm then [] else [.logError "npm unavailable"])
  ++ [.logInfo "Installing build dependencies with npm.  This may take a while..."]
  ++ [.runCmd "npm install" path, .runCmd "npm run build" path]

/-- From src/setup.py: the commands a step actually executes. -/
def npmStepCmd : NpmStep → Option (String × String)
  | .runCmd c d => some (c, d)
  | _ => none

/-- From src/setup.py: whether a step is an error log. -/
def isErrorLog : NpmStep → Bool
  | .logError _ => true
  | _ => false

/-! ## Claims about the build tooling -/

/-- C1: the build tooling visible in this repository is exactly 256 lines
and carries none of the core logic — src/setup.py defines no diff,
patch-apply, or merge operation over tree values, only packaging
commands (its function definitions and command classes are disjoint from
the core's operation names). -/
theorem C1_setup_py_no_core_logic :
    setupPyLineCount = 256 ∧
    setupPyFunctionDefs.all (fun n => !(coreOperationNames.contains n)) = true ∧
    setupPyCommandClasses.all (fun n => !(coreOperationNames.contains n)) = true := by
  refine ⟨rfl, ?_, ?_⟩ <;> decide

theorem versionCond_iff (major minor : Nat) :
    (verLt (major, minor) (2, 7) || (decide (major ≥ 3) && verLt (major, minor) (3, 3))) = true
      ↔ ((major < 2 ∨ (major = 2 ∧ minor < 7)) ∨
         (3 ≤ major ∧ (major < 3 ∨ (major = 3 ∧ minor < 3)))) := by
  simp [verLt]
  try omega

/-- C8: for every interpreter version whose (major, minor) is
lexicographically below (2, 7), or whose major is at least 3 with
(major, minor) below (3, 3), setup.py prints the error message to stderr
and exits with status 1; for every other version execution continues
past the check. -/
theorem C8_version_check (major minor : Nat) :
    (versionCheck major minor =
        .exited 1 ("ERROR: " ++ projectName ++ " requires Python version 2.7 or 3.3 or above.")
      ↔ ((major < 2 ∨ (major = 2 ∧ minor < 7)) ∨
         (3 ≤ major ∧ (major < 3 ∨ (major = 3 ∧ minor < 3))))) ∧
    (versionCheck major minor = .continued
      ↔ ¬ ((major < 2 ∨ (major = 2 ∧ minor < 7)) ∨
           (3 ≤ major ∧ (major < 3 ∨ (major = 3 ∧ minor < 3))))) := by
  rw [versionCheck]
  by_cases h : (verLt (major, minor) (2, 7) || (decide (major ≥ 3) && verLt (major, minor) (3, 3))) = true
  · rw [if_pos h]
    rw [versionCond_iff] at h
    simp [h]
  · rw [if_neg h]
    rw [versionCond_iff] at h
    constructor
    · constructor
      · intro he; cases he
      · intro hp; exact absurd hp h
    · simp [h]

/-- C9: the run method of a command decorated by js_prerelease runs only
the wrapped command when the directory is not a git checkout and every
jstargets path exists; otherwise it first runs jsdeps, an exception from
jsdeps propagates exactly when strict is set or some jstargets path is
missing, and in every non-propagating case the wrapped command still
runs. -/
theorem C9_js_prerelease (strict : Bool) (env : JsEnv) :
    (env.isRepo = false ∧ env.allTargetsExistBefore = true →
       jsPrereleaseRun strict env = ([.runWrappedCmd], false)) ∧
    ((env.isRepo = true ∨ env.allTargetsExistBefore = false) →
       (jsPrereleaseRun strict env).1.head? = some .runJsdeps) ∧
    ((env.isRepo = true ∨ env.allTargetsExistBefore = false) → env.jsdepsRaises = true →
       ((jsPrereleaseRun strict env).2 = true ↔ (strict = true ∨ env.missingAfter ≠ []))) ∧
    ((jsPrereleaseRun strict env).2 = false →
       .runWrappedCmd ∈ (jsPrereleaseRun strict env).1) := by
  obtain ⟨ir, ax, jr, ma⟩ := env
  simp only [jsPrereleaseRun]
  cases ir <;> cases ax <;> cases jr <;> cases strict <;>
    cases hm : ma.isEmpty <;>
    simp_all [List.isEmpty_iff]

/-- C9 witness: in a git checkout with jsdeps raising, no strict flag and
no missing targets, the exception does not propagate and the wrapped
command still runs after jsdeps. -/
theorem C9_js_prerelease_witness :
    (jsPrereleaseRun false ⟨true, true, true, []⟩).2 = false ∧
    BuildStep.runWrappedCmd ∈ (jsPrereleaseRun false ⟨true, true, true, []⟩).1 ∧
    (jsPrereleaseRun false ⟨true, true, true, []⟩).1.head? = some .runJsdeps := by
  have h := C9_js_prerelease false ⟨true, true, true, []⟩
  exact ⟨by decide, h.2.2.2 (by decide), h.2.1 (by decide)⟩

/-- C10: the run method of the NPM command returned by install_npm
always invokes npm install and then npm run build in the given path, in
that order, regardless of has_npm(); a missing npm only produces an
error log. -/
theorem C10_npm_run_always_attempts (path : String) (hasNpm : Bool) :
    (npmRun path hasNpm).filterMap npmStepCmd
      = [("npm install", path), ("npm run build", path)] ∧
    (npmRun path false).any isErrorLog = true ∧
    (npmRun path true).any isErrorLog = false := by
  cases hasNpm <;> simp [npmRun, npmStepCmd, isErrorLog]

/-! ## Determinism of merge -/

/-- C7: merge is deterministic — two invocations of merge on equal base,
local and remote inputs yield equal MergeResults, the conflicts list
(whose order the walk fixes, pre-order over Path) included; merge is a
pure function of its three inputs. -/
theorem C7_merge_deterministic (b1 b2 : Value) (l1 l2 r1 r2 : Diff)
    (hb : b1 = b2) (hl : l1 = l2) (hr : r1 = r2) :
    merge b1 l1 r1 = merge b2 l2 r2 := by
  subst hb; subst hl; subst hr; rfl

/-- C7 witness: determinism applied at a concrete base and diff pair. -/
theorem C7_merge_deterministic_witness :
    merge (.map [("a", .num 1)]) [.remove (.k "a")] [.replace (.k "a") (.num 2)]
      = merge (.map [("a", .num 1)]) [.remove (.k "a")] [.replace (.k "a") (.num 2)] :=
  C7_merge_deterministic _ _ _ _ _ _ rfl rfl rfl

/-! ## Divergent paths and substitution frame lemmas -/

/-- Modelled from the spec: two Paths diverge when neither is a prefix of
the other — they address disjoint subtrees, so substitutions at one do
not disturb the other. -/
def stepsDiverge : VPath → VPath → Bool
  | [], _ => false
  | _ :: _, [] => false
  | a :: p, b :: q => if a = b then stepsDiverge p q else true

theorem stepsDiverge_symm : ∀ p q : VPath, stepsDiverge p q = stepsDiverge q p
  | [], [] => rfl
  | [], _ :: _ => rfl
  | _ :: _, [] => rfl
  | a :: p, b :: q => by
    rw [stepsDiverge, stepsDiverge]
    by_cases h : a = b
    · subst h
      rw [if_pos rfl, if_pos rfl]
      exact stepsDiverge_symm p q
    · rw [if_neg h, if_neg (fun hh => h hh.symm)]

theorem lookupK_setEntries_ne {s1 s2 : String} (h : s1 ≠ s2) (p : VPath) (x : Value) :
    ∀ es : List (String × Value), lookupK s1 (setEntries s2 p x es) = lookupK s1 es := by
  intro es
  induction es with
  | nil => rw [setEntries]
  | cons e es ih =>
    obtain ⟨k, v⟩ := e
    rw [setEntries]
    by_cases hk : k = s2
    · subst hk
      rw [if_pos rfl, lookupK, lookupK, if_neg (fun hh => h hh.symm), if_neg (fun hh => h hh.symm)]
      exact ih
    · rw [if_neg hk, lookupK, lookupK]
      by_cases hk1 : k = s1
      · rw [if_pos hk1, if_pos hk1]
      · rw [if_neg hk1, if_neg hk1]
        exact ih

theorem lookupK_setEntries_eq (s : String) (p : VPath) (x : Value) :
    ∀ es : List (String × Value),
      lookupK s (setEntries s p x es) = (lookupK s es).map (fun c => setPath c p x) := by
  intro es
  induction es with
  | nil => rw [setEntries]; rfl
  | cons e es ih =>
    obtain ⟨k, v⟩ := e
    rw [setEntries]
    by_cases hk : k = s
    · subst hk
      rw [if_pos rfl, lookupK, lookupK, if_pos rfl, if_pos rfl]
      rfl
    · rw [if_neg hk, lookupK, lookupK, if_neg hk, if_neg hk]
      exact ih

theorem getPath_setPath_diverge : ∀ (q : VPath) (v : Value) (p : VPath) (x : Value),
    stepsDiverge p q = true → getPath (setPath v q x) p = getPath v p := by
  intro q
  induction q with
  | nil =>
    intro v p x hd
    exfalso
    cases p with
    | nil => rw [stepsDiverge] at hd; cases hd
    | cons a p => rw [stepsDiverge] at hd; cases hd
  | cons b q ih =>
    intro v p x hd
    cases p with
    | nil => rw [stepsDiverge] at hd; cases hd
    | cons a p' =>
      rw [stepsDiverge] at hd
      by_cases hab : a = b
      · rw [if_pos hab] at hd
        subst hab
        cases v with
        | null => simp [setPath]
        | bool bb => simp [setPath]
        | num nn => simp [setPath]
        | str ss => simp [setPath]
        | map es =>
          cases a with
          | k s =>
            rw [setPath, getPath, getPath, lookupK_setEntries_eq]
            cases hl : lookupK s es with
            | none => rfl
            | some c =>
              simp only [Option.map_some]
              exact ih c p' x hd
          | i n => rw [setPath]
          | root => rw [setPath]
        | seq xs =>
          cases a with
          | k s => rw [setPath]
          | i n =>
            rw [setPath, getPath, getPath, List.get?_set_eq]
            cases hg : xs.get? n with
            | none => rfl
            | some c =>
              simp only [Option.map_some]
              have hc : xs.getD n Value.null = c := by
                rw [List.getD_eq_getD_get?, hg]; rfl
              rw [hc]
              exact ih c p' x hd
          | root => rw [setPath]
      · rw [if_neg hab] at hd
        cases v with
        | null => simp [setPath]
        | bool bb => simp [setPath]
        | num nn => simp [setPath]
        | str ss => simp [setPath]
        | map es =>
          cases b with
          | k s2 =>
            rw [setPath]
            cases a with
            | k s1 =>
              rw [getPath, getPath, lookupK_setEntries_ne (fun hh => hab (by rw [hh]))]
            | i n => rw [getPath, getPath]
            | root => rw [getPath, getPath]
          | i n => rw [setPath]
          | root => rw [setPath]
        | seq xs =>
          cases b with
          | k s2 => rw [setPath]
          | i n2 =>
            rw [setPath]
            cases a with
            | k s => rw [getPath, getPath]
            | i n1 =>
              rw [getPath, getPath, List.get?_set_ne _ _ (fun hh => hab (by rw [hh]))]
            | root => rw [getPath, getPath]
          | root => rw [setPath]

theorem getPath_setPath_self : ∀ (p : VPath) (v w x : Value),
    getPath v p = some w → getPath (setPath v p x) p = some x := by
  intro p
  induction p with
  | nil => intro v w x _; rw [setPath, getPath]
  | cons a p ih =>
    intro v w x hg
    cases v with
    | null => rw [getPath] at hg; cases hg
    | bool bb => rw [getPath] at hg; cases hg
    | num nn => rw [getPath] at hg; cases hg
    | str ss => rw [getPath] at hg; cases hg
    | map es =>
      cases a with
      | k s =>
        rw [getPath] at hg
        cases hl : lookupK s es with
        | none => rw [hl] at hg; cases hg
        | some c =>
          rw [hl] at hg
          rw [setPath, getPath, lookupK_setEntries_eq, hl]
          try simp only [Option.map_some]
          exact ih c w x hg
      | i n => rw [getPath] at hg; cases hg
      | root => rw [getPath] at hg; cases hg
    | seq xs =>
      cases a with
      | k s => rw [getPath] at hg; cases hg
      | i n =>
        rw [getPath] at hg
        cases hl : xs.get? n with
        | none => rw [hl] at hg; cases hg
        | some c =>
          rw [hl] at hg
          rw [setPath, getPath, List.get?_set_eq, hl]
          simp only [Option.map_some]
          have hc : xs.getD n Value.null = c := by
            rw [List.getD_eq_getD_get?, hl]; rfl
          rw [hc]
          exact ih c w x hg
      | root => rw [getPath] at hg; cases hg

theorem allNotUnresolved (cs : List Conflict) :
    cs.all (fun c => !c.isUnresolved) = !(cs.any Conflict.isUnresolved) := by
  induction cs with
  | nil => rfl
  | cons c cs ih => simp [List.all_cons, List.any_cons, ih]

theorem foldl_subst_spec : ∀ (cs : List Conflict) (acc : Value),
    List.Pairwise (fun c1 c2 => stepsDiverge c1.path c2.path = true) cs →
    (∀ c ∈ cs, (getPath acc c.path).isSome = true) →
    ((∀ c ∈ cs, ∃ cur, getPath acc c.path = some cur ∧
        getPath (cs.foldl substConflict acc) c.path = some (c.resolvedValue cur)) ∧
     (∀ q : VPath, (∀ c ∈ cs, stepsDiverge q c.path = true) →
        getPath (cs.foldl substConflict acc) q = getPath acc q)) := by
  intro cs
  induction cs with
  | nil =>
    intro acc _ _
    exact ⟨fun c hc => absurd hc (List.not_mem_nil c), fun q _ => rfl⟩
  | cons c cs ih =>
    intro acc hp hv
    have hvc := hv c (List.mem_cons_self _ _)
    obtain ⟨cur, hcur⟩ : ∃ cur, getPath acc c.path = some cur := by
      cases hg : getPath acc c.path with
      | none => rw [hg] at hvc; cases hvc
      | some cur => exact ⟨cur, rfl⟩
    have hsub : substConflict acc c = setPath acc c.path (c.resolvedValue cur) := by
      rw [substConflict, hcur]
    have hpHead : ∀ c2 ∈ cs, stepsDiverge c.path c2.path = true :=
      (List.pairwise_cons.mp hp).1
    have hpTail := (List.pairwise_cons.mp hp).2
    have hframe : ∀ c2 ∈ cs, getPath (substConflict acc c) c2.path = getPath acc c2.path := by
      intro c2 hc2
      rw [hsub]
      exact getPath_setPath_diverge c.path acc c2.path _
        (by rw [stepsDiverge_symm]; exact hpHead c2 hc2)
    have hvTail : ∀ c2 ∈ cs, (getPath (substConflict acc c) c2.path).isSome = true := by
      intro c2 hc2
      rw [hframe c2 hc2]
      exact hv c2 (List.mem_cons_of_mem _ hc2)
    have ihh := ih (substConflict acc c) hpTail hvTail
    constructor
    · intro c2 hc2
      rcases List.mem_cons.mp hc2 with h | h
      · subst h
        refine ⟨cur, hcur, ?_⟩
        rw [List.foldl_cons]
        have hfr := ihh.2 c2.path (fun c3 hc3 => hpHead c3 hc3)
        rw [hfr, hsub]
        exact getPath_setPath_self c2.path acc cur _ hcur
      · obtain ⟨cur2, hcur2, hfin⟩ := ihh.1 c2 h
        refine ⟨cur2, ?_, ?_⟩
        · rw [← hframe c2 h]; exact hcur2
        · rw [List.foldl_cons]; exact hfin
    · intro q hq
      rw [List.foldl_cons]
      have h1 := ihh.2 q (fun c3 hc3 => hq c3 (List.mem_cons_of_mem _ hc3))
      rw [h1, hsub]
      exact getPath_setPath_diverge c.path acc q _ (hq c (List.mem_cons_self _ _))

/-- C6: apply_resolutions succeeds exactly when every Conflict's state is
not Unresolved (failing with UnresolvedConflict otherwise), and on
success its result carries, at each Conflict's path, exactly the
resolved value chosen for that Conflict (paths addressing disjoint
subtrees and existing in the merged value). -/
theorem C6_apply_resolutions (mr : MergeResult)
    (hp : List.Pairwise (fun c1 c2 => stepsDiverge c1.path c2.path = true) mr.conflicts)
    (hv : ∀ c ∈ mr.conflicts, (getPath mr.merged c.path).isSome = true) :
    ((apply_resolutions mr).isOk = true ↔
        mr.conflicts.all (fun c => !c.isUnresolved) = true) ∧
    ((apply_resolutions mr = .error .mk) ↔
        ¬ mr.conflicts.all (fun c => !c.isUnresolved) = true) ∧
    (∀ out, apply_resolutions mr = .ok out →
        ∀ c ∈ mr.conflicts, ∃ cur, getPath mr.merged c.path = some cur ∧
          getPath out c.path = some (c.resolvedValue cur)) := by
  refine ⟨?_, ?_, ?_⟩
  · rw [apply_resolutions, allNotUnresolved]
    by_cases h : mr.conflicts.any Conflict.isUnresolved = true
    · rw [if_pos h, h]
      simp [Except.isOk, Except.toBool]
    · rw [if_neg h]
      simp only [Bool.not_eq_true] at h
      rw [h]
      simp [Except.isOk, Except.toBool]
  · rw [apply_resolutions, allNotUnresolved]
    by_cases h : mr.conflicts.any Conflict.isUnresolved = true
    · rw [if_pos h, h]
      simp
    · rw [if_neg h]
      simp only [Bool.not_eq_true] at h
      rw [h]
      simp
  · intro out hout c hc
    rw [apply_resolutions] at hout
    by_cases h : mr.conflicts.any Conflict.isUnresolved = true
    · rw [if_pos h] at hout; cases hout
    · rw [if_neg h] at hout
      have hout2 : mr.conflicts.foldl substConflict mr.merged = out := by
        cases hout; rfl
      rw [← hout2]
      exact (foldl_subst_spec mr.conflicts mr.merged hp hv).1 c hc

/-- C6 witness: a merge result holding one custom-resolved conflict at
path ["x"]; apply_resolutions succeeds and substitutes exactly the chosen
value there. -/
theorem C6_apply_resolutions_witness :
    apply_resolutions
        ⟨.map [("x", .str "foo")],
         [⟨[Key.k "x"], some (.replace (.k "x") (.str "bar")),
           some (.replace (.k "x") (.str "baz")),
           .resolvedCustom (.str "qux")⟩]⟩
      = .ok (Value.map [("x", Value.str "qux")]) ∧
    ∃ cur, getPath (Value.map [("x", Value.str "foo")]) [Key.k "x"] = some cur ∧
      getPath (Value.map [("x", Value.str "qux")]) [Key.k "x"]
        = some (Conflict.resolvedValue
            ⟨[Key.k "x"], some (.replace (.k "x") (.str "bar")),
             some (.replace (.k "x") (.str "baz")),
             .resolvedCustom (.str "qux")⟩ cur) := by
  have hres : apply_resolutions
      ⟨.map [("x", .str "foo")],
       [⟨[Key.k "x"], some (.replace (.k "x") (.str "bar")),
         some (.replace (.k "x") (.str "baz")),
         .resolvedCustom (.str "qux")⟩]⟩
      = .ok (Value.map [("x", Value.str "qux")]) := by
    simp [apply_resolutions, List.any_cons, List.any_nil, Conflict.isUnresolved,
      List.foldl_cons, List.foldl_nil, substConflict, getPath, lookupK,
      setPath, setEntries, Conflict.resolvedValue]
  refine ⟨hres, ?_⟩
  refine (C6_apply_resolutions _ ?_ ?_).2.2 _ hres _ (List.mem_cons_self _ _)
  · exact List.pairwise_cons.mpr ⟨fun c hc => absurd hc (List.not_mem_nil c), List.Pairwise.nil⟩
  · intro c hc
    rcases List.mem_cons.mp hc with h | h
    · subst h
      simp [getPath, lookupK]
    · exact absurd h (List.not_mem_nil c)

/-! ## Declarative characterization of MalformedDiff (spec section 4.4) -/

/-- Modelled from the spec: the mapping keys addressed by a diff's ops,
in op order. -/
def mapOpKeys : Diff → List String
  | [] => []
  | op :: rest =>
    (match opKeyStr op with
     | some s => [s]
     | none => []) ++ mapOpKeys rest

/-- All strings distinct — the Diff invariant "at most one DiffOp
references a given mapping key". -/
def distinctStrs : List String → Bool
  | [] => true
  | s :: rest => !(rest.contains s) && distinctStrs rest

/-- Modelled from the spec: the Diff representation invariant for
sequence diffs — ops listed in non-decreasing original-index order, an
element op at j making the next ops address indices beyond j. -/
def seqSortedFrom (i : Nat) : Diff → Bool
  | [] => true
  | .add (.i j) _ :: rest => decide (i ≤ j) && seqSortedFrom j rest
  | .remove (.i j) :: rest => decide (i ≤ j) && seqSortedFrom (j+1) rest
  | .replace (.i j) _ :: rest => decide (i ≤ j) && seqSortedFrom (j+1) rest
  | .patch (.i j) _ :: rest => decide (i ≤ j) && seqSortedFrom (j+1) rest
  | .add (.k _) _ :: rest => seqSortedFrom i rest
  | .add .root _ :: rest => seqSortedFrom i rest
  | .remove (.k _) :: rest => seqSortedFrom i rest
  | .remove .root :: rest => seqSortedFrom i rest
  | .replace (.k _) _ :: rest => seqSortedFrom i rest
  | .replace .root _ :: rest => seqSortedFrom i rest
  | .patch (.k _) _ :: rest => seqSortedFrom i rest
  | .patch .root _ :: rest => seqSortedFrom i rest

mutual
/-- Modelled from the spec: the declarative error condition of the patch
applier, written from spec section 4.4 — a diff is malformed for a base
exactly when "a DiffOp addresses a key/index absent from (or
incompatible with) the corresponding position in base", recursively
through Patch ops.  The empty diff and the root-Replace singleton are
always compatible. -/
def badAddr (d : Diff) (v : Value) : Bool :=
  match d with
  | [] => false
  | op :: rest => rootOrB (isRootReplaceSingleton (op :: rest)) false (badAddrOps v (op :: rest))
termination_by 2 * sizeOf d + sizeOf v + 1
decreasing_by all_goals simp_arith

/-- Modelled from the spec: some op of the diff is badly addressed. -/
def badAddrOps (v : Value) : Diff → Bool
  | [] => false
  | op :: rest => badAddrOp v op || badAddrOps v rest
termination_by ops => 2 * sizeOf ops + sizeOf v
decreasing_by all_goals (simp_arith; try omega)

/-- Modelled from the spec: one op addresses a key or index absent from,
or incompatible with, the corresponding position in the base value. -/
def badAddrOp : Value → DiffOp → Bool
  | .map es, .add (.k s) _ => hasKeyK s es
  | .map es, .remove (.k s) => !(hasKeyK s es)
  | .map es, .replace (.k s) _ => !(hasKeyK s es)
  | .map es, .patch (.k s) dd =>
    (match hl : lookupK s es with
     | some c => badAddr dd c
     | none => true)
  | .map _, .add (.i _) _ => true
  | .map _, .add .root _ => true
  | .map _, .remove (.i _) => true
  | .map _, .remove .root => true
  | .map _, .replace (.i _) _ => true
  | .map _, .replace .root _ => true
  | .map _, .patch (.i _) _ => true
  | .map _, .patch .root _ => true
  | .seq xs, .add (.i j) _ => decide (xs.length < j)
  | .seq xs, .remove (.i j) => decide (xs.length ≤ j)
  | .seq xs, .replace (.i j) _ => decide (xs.length ≤ j)
  | .seq xs, .patch (.i j) dd =>
    (match hg : xs.get? j with
     | some c => badAddr dd c
     | none => true)
  | .seq _, .add (.k _) _ => true
  | .seq _, .add .root _ => true
  | .seq _, .remove (.k _) => true
  | .seq _, .remove .root => true
  | .seq _, .replace (.k _) _ => true
  | .seq _, .replace .root _ => true
  | .seq _, .patch (.k _) _ => true
  | .seq _, .patch .root _ => true
  | .null, _ => true
  | .bool _, _ => true
  | .num _, _ => true
  | .str _, _ => true
termination_by v op => 2 * sizeOf op + sizeOf v
decreasing_by
  all_goals simp_arith
  · have h1 := lookupK_sizeOf hl; omega
  · have h1 := sizeOf_get? hg; omega
end

mutual
/-- Modelled from the spec: the Diff representation invariants of spec
section 3 relative to a base value — unique mapping-key addressing, ops
of a sequence diff in non-decreasing index order, recursively through
Patch. -/
def wfShape (d : Diff) (v : Value) : Bool :=
  match d with
  | [] => true
  | op :: rest => rootOrB (isRootReplaceSingleton (op :: rest)) true (wfShapeC (op :: rest) v)
termination_by 2 * sizeOf d + sizeOf v + 1
decreasing_by all_goals simp_arith

/-- Modelled from the spec: the container part of the Diff shape
invariant. -/
def wfShapeC (d : Diff) (v : Value) : Bool :=
  match v with
  | .map es => distinctStrs (mapOpKeys d) && wfShapeMapOps es d
  | .seq xs => seqSortedFrom 0 d && wfShapeSeqOps xs d
  | .null => true
  | .bool b => true
  | .num n => true
  | .str s => true
termination_by 2 * sizeOf d + sizeOf v
decreasing_by all_goals simp_arith

/-- Modelled from the spec: nested Patch diffs of a mapping diff are
well-shaped for the child they address. -/
def wfShapeMapOps (es : List (String × Value)) : Diff → Bool
  | [] => true
  | .patch (.k s) dd :: rest =>
    (match hl : lookupK s es with
     | some c => wfShape dd c
     | none => true) && wfShapeMapOps es rest
  | .patch (.i _) _ :: rest => wfShapeMapOps es rest
  | .patch .root _ :: rest => wfShapeMapOps es rest
  | .add _ _ :: rest => wfShapeMapOps es rest
  | .remove _ :: rest => wfShapeMapOps es rest
  | .replace _ _ :: rest => wfShapeMapOps es rest
termination_by ops => 2 * sizeOf ops + sizeOf es
decreasing_by
  all_goals simp_arith
  have h1 := lookupK_sizeOf hl; omega

/-- Modelled from the spec: nested Patch diffs of a sequence diff are
well-shaped for the element they address. -/
def wfShapeSeqOps (xs : List Value) : Diff → Bool
  | [] => true
  | .patch (.i j) dd :: rest =>
    (match hg : xs.get? j with
     | some c => wfShape dd c
     | none => true) && wfShapeSeqOps xs rest
  | .patch (.k _) _ :: rest => wfShapeSeqOps xs rest
  | .patch .root _ :: rest => wfShapeSeqOps xs rest
  | .add _ _ :: rest => wfShapeSeqOps xs rest
  | .remove _ :: rest => wfShapeSeqOps xs rest
  | .replace _ _ :: rest => wfShapeSeqOps xs rest
termination_by ops => 2 * sizeOf ops + sizeOf xs
decreasing_by
  all_goals simp_arith
  have h1 := sizeOf_get? hg; omega

end

/-- The sequence-op badness condition relative to the remaining suffix:
used to relate the sequential applier to the per-op condition. -/
def seqOpBadRel (i : Nat) (xs : List Value) : DiffOp → Bool
  | .add (.i j) _ => decide (i + xs.length < j)
  | .remove (.i j) => decide (i + xs.length ≤ j)
  | .replace (.i j) _ => decide (i + xs.length ≤ j)
  | .patch (.i j) dd =>
    (match xs.get? (j - i) with
     | some c => !(applyValue dd c).isOk
     | none => true)
  | .add (.k _) _ => true
  | .add .root _ => true
  | .remove (.k _) => true
  | .remove .root => true
  | .replace (.k _) _ => true
  | .replace .root _ => true
  | .patch (.k _) _ => true
  | .patch .root _ => true

/-- Some op of the suffix diff is badly addressed, relative form. -/
def seqOpsBadRel (i : Nat) (xs : List Value) : Diff → Bool
  | [] => false
  | op :: rest => seqOpBadRel i xs op || seqOpsBadRel i xs rest

theorem badAddrOps_iff {v : Value} : ∀ {d : Diff},
    badAddrOps v d = true ↔ ∃ op ∈ d, badAddrOp v op = true := by
  intro d
  induction d with
  | nil => simp [badAddrOps]
  | cons op rest ih =>
    rw [badAddrOps]
    simp only [Bool.or_eq_true, ih]
    constructor
    · rintro (h | ⟨op2, hm, hb⟩)
      · exact ⟨op, List.mem_cons_self _ _, h⟩
      · exact ⟨op2, List.mem_cons_of_mem _ hm, hb⟩
    · rintro ⟨op2, hm, hb⟩
      rcases List.mem_cons.mp hm with h | h
      · subst h; exact Or.inl hb
      · exact Or.inr ⟨op2, h, hb⟩

theorem checkMapOps_iff {es : List (String × Value)} : ∀ {d : Diff},
    checkMapOps es d = true ↔ ∀ op ∈ d, mapOpOK es op = true := by
  intro d
  induction d with
  | nil => simp [checkMapOps]
  | cons op rest ih =>
    rw [checkMapOps]
    simp only [Bool.and_eq_true, ih]
    constructor
    · rintro ⟨h1, h2⟩ op2 hm
      rcases List.mem_cons.mp hm with h | h
      · subst h; exact h1
      · exact h2 op2 h
    · intro h
      exact ⟨h op (List.mem_cons_self _ _), fun op2 hm => h op2 (List.mem_cons_of_mem _ hm)⟩

theorem mapOpOK_false_bad {es : List (String × Value)} {op : DiffOp}
    (h : mapOpOK es op = false) : badAddrOp (.map es) op = true := by
  cases op with
  | add key w =>
    cases key with
    | k s => rw [mapOpOK] at h; rw [badAddrOp]; simpa using h
    | i n => rw [badAddrOp]
    | root => rw [badAddrOp]
  | remove key =>
    cases key with
    | k s => rw [mapOpOK] at h; rw [badAddrOp]; simp [h]
    | i n => rw [badAddrOp]
    | root => rw [badAddrOp]
  | replace key w =>
    cases key with
    | k s => rw [mapOpOK] at h; rw [badAddrOp]; simp [h]
    | i n => rw [badAddrOp]
    | root => rw [badAddrOp]
  | patch key dd =>
    cases key with
    | k s =>
      rw [mapOpOK] at h
      rw [badAddrOp]
      have hnone : lookupK s es = none := by
        rw [hasKeyK] at h
        cases hl : lookupK s es with
        | none => rfl
        | some c => rw [hl] at h; cases h
      rw [hnone]
    | i n => rw [badAddrOp]
    | root => rw [badAddrOp]

theorem mapOpOK_true_bad_iff {es : List (String × Value)} {op : DiffOp}
    (h : mapOpOK es op = true) :
    (badAddrOp (.map es) op = true ↔
      ∃ s dd, op = .patch (.k s) dd ∧
        ∃ c, lookupK s es = some c ∧ badAddr dd c = true) := by
  cases op with
  | add key w =>
    cases key with
    | k s =>
      rw [mapOpOK] at h
      rw [badAddrOp]
      simp only [Bool.not_eq_true'] at h
      rw [h]
      simp
    | i n => rw [mapOpOK] at h; cases h
    | root => rw [mapOpOK] at h; cases h
  | remove key =>
    cases key with
    | k s => rw [mapOpOK] at h; rw [badAddrOp, h]; simp
    | i n => rw [mapOpOK] at h; cases h
    | root => rw [mapOpOK] at h; cases h
  | replace key w =>
    cases key with
    | k s => rw [mapOpOK] at h; rw [badAddrOp, h]; simp
    | i n => rw [mapOpOK] at h; cases h
    | root => rw [mapOpOK] at h; cases h
  | patch key dd =>
    cases key with
    | k s =>
      rw [mapOpOK, hasKeyK] at h
      rw [badAddrOp]
      cases hl : lookupK s es with
      | none => rw [hl] at h; cases h
      | some c =>
        constructor
        · intro hb
          exact ⟨s, dd, rfl, c, hl, hb⟩
        · rintro ⟨s2, dd2, heq, c2, hl2, hb2⟩
          have hs : s2 = s ∧ dd2 = dd := by
            cases heq; exact ⟨rfl, rfl⟩
          obtain ⟨hs1, hs2⟩ := hs
          subst hs1; subst hs2
          rw [hl] at hl2
          cases hl2
          exact hb2
    | i n => rw [mapOpOK] at h; cases h
    | root => rw [mapOpOK] at h; cases h

theorem mem_mapOpKeys {op : DiffOp} {s : String} (hk : opKeyStr op = some s) :
    ∀ {d : Diff}, op ∈ d → s ∈ mapOpKeys d := by
  intro d hm
  induction d with
  | nil => cases hm
  | cons op2 rest ih =>
    rw [mapOpKeys]
    rcases List.mem_cons.mp hm with h | h
    · subst h
      rw [hk]
      exact List.mem_append_left _ (List.mem_singleton.mpr rfl)
    · exact List.mem_append_right _ (ih h)

theorem opKeyStr_eq_some {op : DiffOp} {s : String} :
    opKeyStr op = some s ↔ opKey op = .k s := by
  rw [opKeyStr]
  cases hk : opKey op with
  | k s2 => simp
  | i n => simp
  | root => simp

theorem findOpK_of_distinct {s : String} : ∀ {d : Diff},
    distinctStrs (mapOpKeys d) = true → ∀ {op : DiffOp}, op ∈ d →
      opKeyStr op = some s → findOpK d s = some op := by
  intro d
  induction d with
  | nil => intro _ op hm; cases hm
  | cons op2 rest ih =>
    intro hd op hm hk
    rcases List.mem_cons.mp hm with h | h
    · subst h
      rw [findOpK, List.find?_cons]
      have : (opKey op == Key.k s) = true := by
        rw [opKeyStr_eq_some] at hk
        rw [hk]; simp
      rw [this]
    · rw [findOpK, List.find?_cons]
      cases hk2 : opKeyStr op2 with
      | none =>
        have : (opKey op2 == Key.k s) = false := by
          rw [opKeyStr] at hk2
          cases hko : opKey op2 with
          | k s3 => rw [hko] at hk2; cases hk2
          | i n => rfl
          | root => rfl
        rw [this]
        have hd2 : distinctStrs (mapOpKeys rest) = true := by
          rw [mapOpKeys, hk2] at hd
          simpa using hd
        exact ih hd2 h hk
      | some s2 =>
        rw [mapOpKeys, hk2] at hd
        rw [show (([s2] ++ mapOpKeys rest) = s2 :: mapOpKeys rest) from rfl] at hd
        rw [distinctStrs] at hd
        simp only [Bool.and_eq_true, Bool.not_eq_true'] at hd
        have hne : s2 ≠ s := by
          intro he
          subst he
          have hmem := mem_mapOpKeys hk h
          have hcon : (mapOpKeys rest).contains s2 = true := by
            rw [List.contains_eq_any_beq, List.any_eq_true]
            exact ⟨s2, hmem, by simp⟩
          rw [hd.1] at hcon
          cases hcon
        have : (opKey op2 == Key.k s) = false := by
          rw [opKeyStr_eq_some] at hk2
          rw [hk2]
          simp [hne]
        rw [this]
        exact ih hd.2 h hk

theorem findOpK_mem {d : Diff} {s : String} {op : DiffOp}
    (h : findOpK d s = some op) : op ∈ d ∧ opKey op = .k s := by
  refine ⟨List.mem_of_find?_eq_some h, ?_⟩
  have := List.find?_some h
  simpa using this

theorem wfE_mem : ∀ {es : List (String × Value)} {k : String} {c : Value},
    wfE es = true → (k, c) ∈ es → wfV c = true := by
  intro es
  induction es with
  | nil => intro k c _ hm; cases hm
  | cons e rest ih =>
    intro k c hw hm
    obtain ⟨k1, v1⟩ := e
    rw [wfE] at hw
    simp only [Bool.and_eq_true] at hw
    rcases List.mem_cons.mp hm with h | h
    · cases h; exact hw.1
    · exact ih hw.2 h

theorem wfL_mem : ∀ {xs : List Value} {c : Value},
    wfL xs = true → c ∈ xs → wfV c = true := by
  intro xs
  induction xs with
  | nil => intro c _ hm; cases hm
  | cons x rest ih =>
    intro c hw hm
    rw [wfL] at hw
    simp only [Bool.and_eq_true] at hw
    rcases List.mem_cons.mp hm with h | h
    · subst h; exact hw.1
    · exact ih hw.2 h

theorem wfShapeMapOps_mem {es : List (String × Value)} {s : String} {dd : Diff} {c : Value} :
    ∀ {d : Diff}, wfShapeMapOps es d = true → (DiffOp.patch (.k s) dd) ∈ d →
      lookupK s es = some c → wfShape dd c = true := by
  intro d
  induction d with
  | nil => intro _ hm; cases hm
  | cons op rest ih =>
    intro hw hm hl
    rcases List.mem_cons.mp hm with h | h
    · subst h
      rw [wfShapeMapOps, hl] at hw
      simp only [Bool.and_eq_true] at hw
      exact hw.1
    · cases op with
      | patch key dd2 =>
        cases key with
        | k s2 =>
          rw [wfShapeMapOps] at hw
          simp only [Bool.and_eq_true] at hw
          exact ih hw.2 h hl
        | i n => rw [wfShapeMapOps] at hw; exact ih hw h hl
        | root => rw [wfShapeMapOps] at hw; exact ih hw h hl
      | add key w => rw [wfShapeMapOps] at hw; exact ih hw h hl
      | remove key => rw [wfShapeMapOps] at hw; exact ih hw h hl
      | replace key w => rw [wfShapeMapOps] at hw; exact ih hw h hl

theorem wfShapeSeqOps_mem {xs : List Value} {j : Nat} {dd : Diff} {c : Value} :
    ∀ {d : Diff}, wfShapeSeqOps xs d = true → (DiffOp.patch (.i j) dd) ∈ d →
      xs.get? j = some c → wfShape dd c = true := by
  intro d
  induction d with
  | nil => intro _ hm; cases hm
  | cons op rest ih =>
    intro hw hm hg
    rcases List.mem_cons.mp hm with h | h
    · subst h
      rw [wfShapeSeqOps, hg] at hw
      simp only [Bool.and_eq_true] at hw
      exact hw.1
    · cases op with
      | patch key dd2 =>
        cases key with
        | i n =>
          rw [wfShapeSeqOps] at hw
          simp only [Bool.and_eq_true] at hw
          exact ih hw.2 h hg
        | k s => rw [wfShapeSeqOps] at hw; exact ih hw h hg
        | root => rw [wfShapeSeqOps] at hw; exact ih hw h hg
      | add key w => rw [wfShapeSeqOps] at hw; exact ih hw h hg
      | remove key => rw [wfShapeSeqOps] at hw; exact ih hw h hg
      | replace key w => rw [wfShapeSeqOps] at hw; exact ih hw h hg

theorem seqSortedFrom_mono : ∀ {d : Diff} {a b : Nat}, seqSortedFrom a d = true →
    b ≤ a → seqSortedFrom b d = true := by
  intro d
  induction d with
  | nil => intro a b _ _; rw [seqSortedFrom]
  | cons op rest ih =>
    intro a b hs hb
    cases op with
    | add key w =>
      cases key with
      | i j =>
        rw [seqSortedFrom] at hs ⊢
        simp only [Bool.and_eq_true, decide_eq_true_eq] at hs ⊢
        exact ⟨le_trans hb hs.1, hs.2⟩
      | k s => rw [seqSortedFrom] at hs ⊢; exact ih hs hb
      | root => rw [seqSortedFrom] at hs ⊢; exact ih hs hb
    | remove key =>
      cases key with
      | i j =>
        rw [seqSortedFrom] at hs ⊢
        simp only [Bool.and_eq_true, decide_eq_true_eq] at hs ⊢
        exact ⟨le_trans hb hs.1, hs.2⟩
      | k s => rw [seqSortedFrom] at hs ⊢; exact ih hs hb
      | root => rw [seqSortedFrom] at hs ⊢; exact ih hs hb
    | replace key w =>
      cases key with
      | i j =>
        rw [seqSortedFrom] at hs ⊢
        simp only [Bool.and_eq_true, decide_eq_true_eq] at hs ⊢
        exact ⟨le_trans hb hs.1, hs.2⟩
      | k s => rw [seqSortedFrom] at hs ⊢; exact ih hs hb
      | root => rw [seqSortedFrom] at hs ⊢; exact ih hs hb
    | patch key dd =>
      cases key with
      | i j =>
        rw [seqSortedFrom] at hs ⊢
        simp only [Bool.and_eq_true, decide_eq_true_eq] at hs ⊢
        exact ⟨le_trans hb hs.1, hs.2⟩
      | k s => rw [seqSortedFrom] at hs ⊢; exact ih hs hb
      | root => rw [seqSortedFrom] at hs ⊢; exact ih hs hb

theorem seqSortedFrom_indexLB : ∀ {d : Diff} {i : Nat}, seqSortedFrom i d = true →
    ∀ op ∈ d, ∀ j, opKey op = .i j → i ≤ j := by
  intro d
  induction d with
  | nil => intro i _ op hm; cases hm
  | cons op2 rest ih =>
    intro i hs op hm j hk
    rcases List.mem_cons.mp hm with h | h
    · subst h
      cases op with
      | add key w =>
        cases key with
        | i j2 =>
          rw [opKey] at hk; cases hk
          rw [seqSortedFrom] at hs
          simpa using And.left (by simpa using hs)
        | k s => rw [opKey] at hk; cases hk
        | root => rw [opKey] at hk; cases hk
      | remove key =>
        cases key with
        | i j2 =>
          rw [opKey] at hk; cases hk
          rw [seqSortedFrom] at hs
          simpa using And.left (by simpa using hs)
        | k s => rw [opKey] at hk; cases hk
        | root => rw [opKey] at hk; cases hk
      | replace key w =>
        cases key with
        | i j2 =>
          rw [opKey] at hk; cases hk
          rw [seqSortedFrom] at hs
          simpa using And.left (by simpa using hs)
        | k s => rw [opKey] at hk; cases hk
        | root => rw [opKey] at hk; cases hk
      | patch key dd =>
        cases key with
        | i j2 =>
          rw [opKey] at hk; cases hk
          rw [seqSortedFrom] at hs
          simpa using And.left (by simpa using hs)
        | k s => rw [opKey] at hk; cases hk
        | root => rw [opKey] at hk; cases hk
    · cases op2 with
      | add key w =>
        cases key with
        | i j2 =>
          rw [seqSortedFrom] at hs
          simp only [Bool.and_eq_true, decide_eq_true_eq] at hs
          exact le_trans hs.1 (ih hs.2 op h j hk)
        | k s => rw [seqSortedFrom] at hs; exact ih hs op h j hk
        | root => rw [seqSortedFrom] at hs; exact ih hs op h j hk
      | remove key =>
        cases key with
        | i j2 =>
          rw [seqSortedFrom] at hs
          simp only [Bool.and_eq_true, decide_eq_true_eq] at hs
          exact le_trans (le_trans hs.1 (Nat.le_succ _)) (ih hs.2 op h j hk)
        | k s => rw [seqSortedFrom] at hs; exact ih hs op h j hk
        | root => rw [seqSortedFrom] at hs; exact ih hs op h j hk
      | replace key w =>
        cases key with
        | i j2 =>
          rw [seqSortedFrom] at hs
          simp only [Bool.and_eq_true, decide_eq_true_eq] at hs
          exact le_trans (le_trans hs.1 (Nat.le_succ _)) (ih hs.2 op h j hk)
        | k s => rw [seqSortedFrom] at hs; exact ih hs op h j hk
        | root => rw [seqSortedFrom] at hs; exact ih hs op h j hk
      | patch key dd =>
        cases key with
        | i j2 =>
          rw [seqSortedFrom] at hs
          simp only [Bool.and_eq_true, decide_eq_true_eq] at hs
          exact le_trans (le_trans hs.1 (Nat.le_succ _)) (ih hs.2 op h j hk)
        | k s => rw [seqSortedFrom] at hs; exact ih hs op h j hk
        | root => rw [seqSortedFrom] at hs; exact ih hs op h j hk

theorem seqOpBadRel_shift {i : Nat} {x : Value} {xs : List Value} {op : DiffOp}
    (hlb : ∀ j, opKey op = .i j → i + 1 ≤ j) :
    seqOpBadRel (i+1) xs op = seqOpBadRel i (x :: xs) op := by
  cases op with
  | add key w =>
    cases key with
    | i j =>
      rw [seqOpBadRel, seqOpBadRel]
      simp only [List.length_cons]
      rw [show i + 1 + xs.length = i + (xs.length + 1) from by omega]
    | k s => rfl
    | root => rfl
  | remove key =>
    cases key with
    | i j =>
      rw [seqOpBadRel, seqOpBadRel]
      simp only [List.length_cons]
      rw [show i + 1 + xs.length = i + (xs.length + 1) from by omega]
    | k s => rfl
    | root => rfl
  | replace key w =>
    cases key with
    | i j =>
      rw [seqOpBadRel, seqOpBadRel]
      simp only [List.length_cons]
      rw [show i + 1 + xs.length = i + (xs.length + 1) from by omega]
    | k s => rfl
    | root => rfl
  | patch key dd =>
    cases key with
    | i j =>
      have hj := hlb j (by rw [opKey])
      rw [seqOpBadRel, seqOpBadRel]
      have hsub : j - i = (j - (i + 1)) + 1 := by omega
      rw [hsub, List.get?_cons_succ]
    | k s => rfl
    | root => rfl

theorem seqOpsBadRel_shift : ∀ {d : Diff} {i : Nat} {x : Value} {xs : List Value},
    (∀ op ∈ d, ∀ j, opKey op = .i j → i + 1 ≤ j) →
    seqOpsBadRel (i+1) xs d = seqOpsBadRel i (x :: xs) d := by
  intro d
  induction d with
  | nil => intro i x xs _; rfl
  | cons op rest ih =>
    intro i x xs hlb
    rw [seqOpsBadRel, seqOpsBadRel]
    rw [seqOpBadRel_shift (hlb op (List.mem_cons_self _ _))]
    rw [ih (fun op2 hm => hlb op2 (List.mem_cons_of_mem _ hm))]

theorem exceptIsOk_ok {ε α : Type} (x : α) : (Except.ok (ε := ε) x).isOk = true := rfl

theorem exceptIsOk_error {ε α : Type} (e : ε) : (Except.error (α := α) e).isOk = false := rfl

theorem consOkM_isOk (c : Except MalformedDiff Value) (t : Except MalformedDiff (List Value)) :
    (consOkM c t).isOk = (c.isOk && t.isOk) := by
  cases c <;> cases t <;> rfl

theorem consEntry_isOk (k : String) (c : Except MalformedDiff Value)
    (t : Except MalformedDiff (List (String × Value))) :
    (consEntry k c t).isOk = (c.isOk && t.isOk) := by
  cases c <;> cases t <;> rfl

theorem applySeqGo_err_iff : ∀ (d : Diff) (i : Nat) (xs : List Value),
    seqSortedFrom i d = true →
    ((applySeqGo d i xs).isOk = false ↔ seqOpsBadRel i xs d = true)
  | [], i, xs, _ => by
    rw [applySeqGo, seqOpsBadRel]
    simp [exceptIsOk_ok]
  | .add (.k s) w :: rest, i, xs, hs => by
    rw [applySeqGo, applySeqStep]
    simp [opKey, seqOpsBadRel, seqOpBadRel, exceptIsOk_error]
  | .add .root w :: rest, i, xs, hs => by
    rw [applySeqGo, applySeqStep]
    simp [opKey, seqOpsBadRel, seqOpBadRel, exceptIsOk_error]
  | .remove (.k s) :: rest, i, xs, hs => by
    rw [applySeqGo, applySeqStep]
    simp [opKey, seqOpsBadRel, seqOpBadRel, exceptIsOk_error]
  | .remove .root :: rest, i, xs, hs => by
    rw [applySeqGo, applySeqStep]
    simp [opKey, seqOpsBadRel, seqOpBadRel, exceptIsOk_error]
  | .replace (.k s) w :: rest, i, xs, hs => by
    rw [applySeqGo, applySeqStep]
    simp [opKey, seqOpsBadRel, seqOpBadRel, exceptIsOk_error]
  | .replace .root w :: rest, i, xs, hs => by
    rw [applySeqGo, applySeqStep]
    simp [opKey, seqOpsBadRel, seqOpBadRel, exceptIsOk_error]
  | .patch (.k s) dd :: rest, i, xs, hs => by
    rw [applySeqGo, applySeqStep]
    simp [opKey, seqOpsBadRel, seqOpBadRel, exceptIsOk_error]
  | .patch .root dd :: rest, i, xs, hs => by
    rw [applySeqGo, applySeqStep]
    simp [opKey, seqOpsBadRel, seqOpBadRel, exceptIsOk_error]
  | .add (.i j) w :: rest, i, xs, hs => by
    rw [seqSortedFrom] at hs
    simp only [Bool.and_eq_true, decide_eq_true_eq] at hs
    rw [applySeqGo, applySeqStep]
    simp only [opKey]
    rw [if_neg (by omega)]
    by_cases hj : j = i
    · subst hj
      rw [if_pos rfl, applySeqConsume, consOkM_isOk, exceptIsOk_ok]
      rw [seqOpsBadRel, seqOpBadRel]
      have hd : decide (j + xs.length < j) = false := by simp
      rw [hd]
      simp only [Bool.true_and, Bool.false_or]
      exact applySeqGo_err_iff rest j xs hs.2
    · rw [if_neg hj]
      have hij : i < j := by omega
      cases xs with
      | nil =>
        rw [applySeqSkip, seqOpsBadRel, seqOpBadRel]
        simp only [exceptIsOk_error, List.length_nil]
        have hd : decide (i + 0 < j) = true := by simp; omega
        simp only [hd, Bool.true_or]
      | cons x xs2 =>
        rw [applySeqSkip, consOkM_isOk, exceptIsOk_ok]
        simp only [Bool.true_and]
        have hsorted2 : seqSortedFrom (i+1) (.add (.i j) w :: rest) = true := by
          rw [seqSortedFrom]
          simp only [Bool.and_eq_true, decide_eq_true_eq]
          exact ⟨by omega, hs.2⟩
        have ihr := applySeqGo_err_iff (.add (.i j) w :: rest) (i+1) xs2 hsorted2
        have hshift : seqOpsBadRel (i+1) xs2 (.add (.i j) w :: rest)
            = seqOpsBadRel i (x :: xs2) (.add (.i j) w :: rest) := by
          apply seqOpsBadRel_shift
          intro op2 hm j2 hk2
          rcases List.mem_cons.mp hm with h | h
          · subst h; rw [opKey] at hk2; cases hk2; omega
          · have := seqSortedFrom_indexLB hs.2 op2 h j2 hk2
            omega
        rw [hshift] at ihr
        exact ihr
  | .remove (.i j) :: rest, i, xs, hs => by
    rw [seqSortedFrom] at hs
    simp only [Bool.and_eq_true, decide_eq_true_eq] at hs
    rw [applySeqGo, applySeqStep]
    simp only [opKey]
    rw [if_neg (by omega)]
    by_cases hj : j = i
    · subst hj
      rw [if_pos rfl]
      cases xs with
      | nil =>
        rw [applySeqConsume, seqOpsBadRel, seqOpBadRel]
        simp only [exceptIsOk_error, List.length_nil]
        have hd : decide (j + 0 ≤ j) = true := by simp
        simp [hd]
      | cons x xs2 =>
        rw [applySeqConsume]
        rw [seqOpsBadRel, seqOpBadRel]
        simp only [List.length_cons]
        have hd : decide (j + (xs2.length + 1) ≤ j) = false := by simp
        rw [hd]
        simp only [Bool.false_or]
        have ihr := applySeqGo_err_iff rest (j+1) xs2 hs.2
        have hshift : seqOpsBadRel (j+1) xs2 rest = seqOpsBadRel j (x :: xs2) rest := by
          apply seqOpsBadRel_shift
          intro op2 hm j2 hk2
          exact seqSortedFrom_indexLB hs.2 op2 hm j2 hk2
        rw [hshift] at ihr
        exact ihr
    · rw [if_neg hj]
      have hij : i < j := by omega
      cases xs with
      | nil =>
        rw [applySeqSkip, seqOpsBadRel, seqOpBadRel]
        simp only [exceptIsOk_error, List.length_nil]
        have hd : decide (i + 0 ≤ j) = true := by simp; omega
        simp only [hd, Bool.true_or]
      | cons x xs2 =>
        rw [applySeqSkip, consOkM_isOk, exceptIsOk_ok]
        simp only [Bool.true_and]
        have hsorted2 : seqSortedFrom (i+1) (.remove (.i j) :: rest) = true := by
          rw [seqSortedFrom]
          simp only [Bool.and_eq_true, decide_eq_true_eq]
          exact ⟨by omega, hs.2⟩
        have ihr := applySeqGo_err_iff (.remove (.i j) :: rest) (i+1) xs2 hsorted2
        have hshift : seqOpsBadRel (i+1) xs2 (.remove (.i j) :: rest)
            = seqOpsBadRel i (x :: xs2) (.remove (.i j) :: rest) := by
          apply seqOpsBadRel_shift
          intro op2 hm j2 hk2
          rcases List.mem_cons.mp hm with h | h
          · subst h; rw [opKey] at hk2; cases hk2; omega
          · have := seqSortedFrom_indexLB hs.2 op2 h j2 hk2
            omega
        rw [hshift] at ihr
        exact ihr
  | .replace (.i j) w :: rest, i, xs, hs => by
    rw [seqSortedFrom] at hs
    simp only [Bool.and_eq_true, decide_eq_true_eq] at hs
    rw [applySeqGo, applySeqStep]
    simp only [opKey]
    rw [if_neg (by omega)]
    by_cases hj : j = i
    · subst hj
      rw [if_pos rfl]
      cases xs with
      | nil =>
        rw [applySeqConsume, seqOpsBadRel, seqOpBadRel]
        simp only [exceptIsOk_error, List.length_nil]
        have hd : decide (j + 0 ≤ j) = true := by simp
        simp [hd]
      | cons x xs2 =>
        rw [applySeqConsume, consOkM_isOk, exceptIsOk_ok]
        rw [seqOpsBadRel, seqOpBadRel]
        simp only [List.length_cons, Bool.true_and]
        have hd : decide (j + (xs2.length + 1) ≤ j) = false := by simp
        rw [hd]
        simp only [Bool.false_or]
        have ihr := applySeqGo_err_iff rest (j+1) xs2 hs.2
        have hshift : seqOpsBadRel (j+1) xs2 rest = seqOpsBadRel j (x :: xs2) rest := by
          apply seqOpsBadRel_shift
          intro op2 hm j2 hk2
          exact seqSortedFrom_indexLB hs.2 op2 hm j2 hk2
        rw [hshift] at ihr
        exact ihr
    · rw [if_neg hj]
      have hij : i < j := by omega
      cases xs with
      | nil =>
        rw [applySeqSkip, seqOpsBadRel, seqOpBadRel]
        simp only [exceptIsOk_error, List.length_nil]
        have hd : decide (i + 0 ≤ j) = true := by simp; omega
        simp only [hd, Bool.true_or]
      | cons x xs2 =>
        rw [applySeqSkip, consOkM_isOk, exceptIsOk_ok]
        simp only [Bool.true_and]
        have hsorted2 : seqSortedFrom (i+1) (.replace (.i j) w :: rest) = true := by
          rw [seqSortedFrom]
          simp only [Bool.and_eq_true, decide_eq_true_eq]
          exact ⟨by omega, hs.2⟩
        have ihr := applySeqGo_err_iff (.replace (.i j) w :: rest) (i+1) xs2 hsorted2
        have hshift : seqOpsBadRel (i+1) xs2 (.replace (.i j) w :: rest)
            = seqOpsBadRel i (x :: xs2) (.replace (.i j) w :: rest) := by
          apply seqOpsBadRel_shift
          intro op2 hm j2 hk2
          rcases List.mem_cons.mp hm with h | h
          · subst h; rw [opKey] at hk2; cases hk2; omega
          · have := seqSortedFrom_indexLB hs.2 op2 h j2 hk2
            omega
        rw [hshift] at ihr
        exact ihr
  | .patch (.i j) dd :: rest, i, xs, hs => by
    rw [seqSortedFrom] at hs
    simp only [Bool.and_eq_true, decide_eq_true_eq] at hs
    rw [applySeqGo, applySeqStep]
    simp only [opKey]
    rw [if_neg (by omega)]
    by_cases hj : j = i
    · subst hj
      rw [if_pos rfl]
      cases xs with
      | nil =>
        rw [applySeqConsume, seqOpsBadRel, seqOpBadRel]
        simp only [exceptIsOk_error]
        have hg : List.get? ([] : List Value) (j - j) = none := List.get?_nil
        rw [hg]
        simp
      | cons x xs2 =>
        rw [applySeqConsume, consOkM_isOk]
        rw [seqOpsBadRel, seqOpBadRel]
        have hg : List.get? (x :: xs2) (j - j) = some x := by
          rw [Nat.sub_self]; rfl
        rw [hg]
        have ihr := applySeqGo_err_iff rest (j+1) xs2 hs.2
        have hshift : seqOpsBadRel (j+1) xs2 rest = seqOpsBadRel j (x :: xs2) rest := by
          apply seqOpsBadRel_shift
          intro op2 hm j2 hk2
          exact seqSortedFrom_indexLB hs.2 op2 hm j2 hk2
        rw [hshift] at ihr
        cases hA : (applyValue dd x).isOk with
        | true =>
          simp only [hA, Bool.true_and, Bool.not_true, Bool.false_or]
          exact ihr
        | false =>
          simp only [hA, Bool.false_and, Bool.not_false, Bool.true_or]
          try simp
    · rw [if_neg hj]
      have hij : i < j := by omega
      cases xs with
      | nil =>
        rw [applySeqSkip, seqOpsBadRel, seqOpBadRel]
        simp only [exceptIsOk_error]
        have hg : List.get? ([] : List Value) (j - i) = none := List.get?_nil
        rw [hg]
        simp
      | cons x xs2 =>
        rw [applySeqSkip, consOkM_isOk, exceptIsOk_ok]
        simp only [Bool.true_and]
        have hsorted2 : seqSortedFrom (i+1) (.patch (.i j) dd :: rest) = true := by
          rw [seqSortedFrom]
          simp only [Bool.and_eq_true, decide_eq_true_eq]
          exact ⟨by omega, hs.2⟩
        have ihr := applySeqGo_err_iff (.patch (.i j) dd :: rest) (i+1) xs2 hsorted2
        have hshift : seqOpsBadRel (i+1) xs2 (.patch (.i j) dd :: rest)
            = seqOpsBadRel i (x :: xs2) (.patch (.i j) dd :: rest) := by
          apply seqOpsBadRel_shift
          intro op2 hm j2 hk2
          rcases List.mem_cons.mp hm with h | h
          · subst h; rw [opKey] at hk2; cases hk2; omega
          · have := seqSortedFrom_indexLB hs.2 op2 h j2 hk2
            omega
        rw [hshift] at ihr
        exact ihr
termination_by d i xs _ => 2 * sizeOf d + sizeOf xs
decreasing_by all_goals simp_arith

theorem applyMapEntries_cons_none {d : Diff} {k : String} {v : Value}
    {es : List (String × Value)} (h : findOpK d k = none) :
    applyMapEntries d ((k, v) :: es) = consEntry k (.ok v) (applyMapEntries d es) := by
  rw [applyMapEntries]
  split <;> simp_all

theorem applyMapEntries_cons_remove {d : Diff} {k : String} {v : Value} {key : Key}
    {es : List (String × Value)} (h : findOpK d k = some (.remove key)) :
    applyMapEntries d ((k, v) :: es) = applyMapEntries d es := by
  rw [applyMapEntries]
  split <;> simp_all

theorem applyMapEntries_cons_replace {d : Diff} {k : String} {v w : Value} {key : Key}
    {es : List (String × Value)} (h : findOpK d k = some (.replace key w)) :
    applyMapEntries d ((k, v) :: es) = consEntry k (.ok w) (applyMapEntries d es) := by
  rw [applyMapEntries]
  split <;> simp_all

theorem applyMapEntries_cons_patch {d : Diff} {k : String} {v : Value} {key : Key}
    {dd : Diff} {es : List (String × Value)} (h : findOpK d k = some (.patch key dd)) :
    applyMapEntries d ((k, v) :: es) = consEntry k (applyValue dd v) (applyMapEntries d es) := by
  rw [applyMapEntries]
  split <;> simp_all

theorem applyMapEntries_err_iff : ∀ (es : List (String × Value)) (d : Diff),
    (∀ k v, (k, v) ∈ es → ∀ key w, findOpK d k ≠ some (.add key w)) →
    ((applyMapEntries d es).isOk = false ↔
      ∃ k v, (k, v) ∈ es ∧ ∃ key dd, findOpK d k = some (.patch key dd) ∧
        (applyValue dd v).isOk = false) := by
  intro es
  induction es with
  | nil =>
    intro d _
    rw [applyMapEntries]
    simp [exceptIsOk_ok]
  | cons e es ih =>
    obtain ⟨k, v⟩ := e
    intro d hnoadd
    have ihh := ih d (fun k2 v2 hm => hnoadd k2 v2 (List.mem_cons_of_mem _ hm))
    cases hfk : findOpK d k with
    | none =>
      rw [applyMapEntries_cons_none hfk, consEntry_isOk, exceptIsOk_ok]
      simp only [Bool.true_and]
      rw [ihh]
      constructor
      · rintro ⟨k2, v2, hm, key, dd, hf2, herr⟩
        exact ⟨k2, v2, List.mem_cons_of_mem _ hm, key, dd, hf2, herr⟩
      · rintro ⟨k2, v2, hm, key, dd, hf2, herr⟩
        rcases List.mem_cons.mp hm with h | h
        · cases h
          rw [hfk] at hf2
          cases hf2
        · exact ⟨k2, v2, h, key, dd, hf2, herr⟩
    | some op =>
      cases op with
      | add key w => exact absurd hfk (hnoadd k v (List.mem_cons_self _ _) key w)
      | remove key =>
        rw [applyMapEntries_cons_remove hfk]
        rw [ihh]
        constructor
        · rintro ⟨k2, v2, hm, key2, dd, hf2, herr⟩
          exact ⟨k2, v2, List.mem_cons_of_mem _ hm, key2, dd, hf2, herr⟩
        · rintro ⟨k2, v2, hm, key2, dd, hf2, herr⟩
          rcases List.mem_cons.mp hm with h | h
          · cases h
            rw [hfk] at hf2
            cases hf2
          · exact ⟨k2, v2, h, key2, dd, hf2, herr⟩
      | replace key w =>
        rw [applyMapEntries_cons_replace hfk, consEntry_isOk, exceptIsOk_ok]
        simp only [Bool.true_and]
        rw [ihh]
        constructor
        · rintro ⟨k2, v2, hm, key2, dd, hf2, herr⟩
          exact ⟨k2, v2, List.mem_cons_of_mem _ hm, key2, dd, hf2, herr⟩
        · rintro ⟨k2, v2, hm, key2, dd, hf2, herr⟩
          rcases List.mem_cons.mp hm with h | h
          · cases h
            rw [hfk] at hf2
            cases hf2
          · exact ⟨k2, v2, h, key2, dd, hf2, herr⟩
      | patch key dd =>
        rw [applyMapEntries_cons_patch hfk, consEntry_isOk]
        cases hA : (applyValue dd v).isOk with
        | false =>
          simp only [Bool.false_and]
          constructor
          · intro _
            exact ⟨k, v, List.mem_cons_self _ _, key, dd, hfk, hA⟩
          · intro _; trivial
        | true =>
          simp only [Bool.true_and]
          rw [ihh]
          constructor
          · rintro ⟨k2, v2, hm, key2, dd2, hf2, herr⟩
            exact ⟨k2, v2, List.mem_cons_of_mem _ hm, key2, dd2, hf2, herr⟩
          · rintro ⟨k2, v2, hm, key2, dd2, hf2, herr⟩
            rcases List.mem_cons.mp hm with h | h
            · cases h
              rw [hfk] at hf2
              cases hf2
              rw [hA] at herr
              cases herr
            · exact ⟨k2, v2, h, key2, dd2, hf2, herr⟩

theorem checkMapOps_false {es : List (String × Value)} {d : Diff}
    (h : checkMapOps es d = false) : ∃ op ∈ d, mapOpOK es op = false := by
  by_contra hc
  push_neg at hc
  have : checkMapOps es d = true := by
    rw [checkMapOps_iff]
    intro op hm
    have := hc op hm
    cases hop : mapOpOK es op with
    | true => rfl
    | false => exact absurd hop this
  rw [this] at h
  cases h

theorem no_add_of_check {es : List (String × Value)} {d : Diff}
    (hck : checkMapOps es d = true) {k : String} {v : Value} (hm : (k, v) ∈ es) :
    ∀ key w, findOpK d k ≠ some (.add key w) := by
  intro key w hf
  obtain ⟨hopm, hkey⟩ := findOpK_mem hf
  have hok := checkMapOps_iff.mp hck _ hopm
  rw [opKey] at hkey
  subst hkey
  rw [mapOpOK] at hok
  rw [hasKeyK_of_mem hm] at hok
  cases hok

theorem exceptMap_isOk {α β : Type} (f : α → β) (x : Except MalformedDiff α) :
    (Except.map f x).isOk = x.isOk := by
  cases x <;> rfl

theorem seqBad_bridge : ∀ (d : Diff) (xs : List Value),
    (∀ j dd, (DiffOp.patch (.i j) dd) ∈ d → ∀ c, xs.get? j = some c →
        ((applyValue dd c).isOk = false ↔ badAddr dd c = true)) →
    badAddrOps (.seq xs) d = seqOpsBadRel 0 xs d := by
  intro d
  induction d with
  | nil => intro xs _; rw [badAddrOps, seqOpsBadRel]
  | cons op rest ih =>
    intro xs hIH
    rw [badAddrOps, seqOpsBadRel]
    have htail := ih xs (fun j dd hm c hg => hIH j dd (List.mem_cons_of_mem _ hm) c hg)
    rw [htail]
    have hhead : badAddrOp (.seq xs) op = seqOpBadRel 0 xs op := by
      cases op with
      | add key w =>
        cases key with
        | i j =>
          rw [badAddrOp, seqOpBadRel, Nat.zero_add]
        | k s => rw [badAddrOp, seqOpBadRel]
        | root => rw [badAddrOp, seqOpBadRel]
      | remove key =>
        cases key with
        | i j => rw [badAddrOp, seqOpBadRel, Nat.zero_add]
        | k s => rw [badAddrOp, seqOpBadRel]
        | root => rw [badAddrOp, seqOpBadRel]
      | replace key w =>
        cases key with
        | i j => rw [badAddrOp, seqOpBadRel, Nat.zero_add]
        | k s => rw [badAddrOp, seqOpBadRel]
        | root => rw [badAddrOp, seqOpBadRel]
      | patch key dd =>
        cases key with
        | i j =>
          rw [badAddrOp, seqOpBadRel, Nat.sub_zero]
          cases hg : xs.get? j with
          | none => rfl
          | some c =>
            have hiff := hIH j dd (List.mem_cons_self _ _) c hg
            show badAddr dd c = !(applyValue dd c).isOk
            cases hA : (applyValue dd c).isOk with
            | true =>
              simp only [Bool.not_true]
              cases hb : badAddr dd c with
              | false => rfl
              | true =>
                rw [hA] at hiff
                have := hiff.mpr hb
                cases this
            | false =>
              simp only [Bool.not_false]
              exact hiff.mp hA
        | k s => rw [badAddrOp, seqOpBadRel]
        | root => rw [badAddrOp, seqOpBadRel]
    rw [hhead]

theorem applyValue_nil (v : Value) : applyValue [] v = .ok v := by
  rw [applyValue]

theorem badAddr_nil (v : Value) : badAddr [] v = false := by
  rw [badAddr]

theorem applyErr_iff_badAddr : ∀ (d : Diff) (v : Value), wfV v = true → wfShape d v = true →
    ((applyValue d v).isOk = false ↔ badAddr d v = true)
  | [], v, _, _ => by
    rw [applyValue_nil, badAddr_nil]
    simp [exceptIsOk_ok]
  | op :: rest, .null, _, _ => by
    rw [applyValue, badAddr]
    cases hroot : isRootReplaceSingleton (op :: rest) with
    | some x => rw [rootOr, rootOrB]; simp [exceptIsOk_ok]
    | none =>
      rw [rootOr, rootOrB, applyContainer]
      simp [exceptIsOk_error, badAddrOps, badAddrOp]
  | op :: rest, .bool b, _, _ => by
    rw [applyValue, badAddr]
    cases hroot : isRootReplaceSingleton (op :: rest) with
    | some x => rw [rootOr, rootOrB]; simp [exceptIsOk_ok]
    | none =>
      rw [rootOr, rootOrB, applyContainer]
      simp [exceptIsOk_error, badAddrOps, badAddrOp]
  | op :: rest, .num n, _, _ => by
    rw [applyValue, badAddr]
    cases hroot : isRootReplaceSingleton (op :: rest) with
    | some x => rw [rootOr, rootOrB]; simp [exceptIsOk_ok]
    | none =>
      rw [rootOr, rootOrB, applyContainer]
      simp [exceptIsOk_error, badAddrOps, badAddrOp]
  | op :: rest, .str s, _, _ => by
    rw [applyValue, badAddr]
    cases hroot : isRootReplaceSingleton (op :: rest) with
    | some x => rw [rootOr, rootOrB]; simp [exceptIsOk_ok]
    | none =>
      rw [rootOr, rootOrB, applyContainer]
      simp [exceptIsOk_error, badAddrOps, badAddrOp]
  | op :: rest, .map es, hwf, hsh => by
    rw [applyValue, badAddr]
    rw [wfShape] at hsh
    cases hroot : isRootReplaceSingleton (op :: rest) with
    | some x =>
      rw [rootOr, rootOrB]
      simp [exceptIsOk_ok]
    | none =>
      rw [rootOr, rootOrB]
      rw [hroot, rootOrB] at hsh
      rw [wfShapeC] at hsh
      rw [applyContainer]
      rw [wfV] at hwf
      simp only [Bool.and_eq_true] at hwf hsh
      obtain ⟨hdist, hnest⟩ := hsh
      by_cases hck : checkMapOps es (op :: rest) = true
      · simp only [if_pos hck, exceptMap_isOk]
        rw [applyMapEntries_err_iff _ _ (fun k v2 hm key w => no_add_of_check hck hm key w)]
        constructor
        · rintro ⟨k, v2, hm, key, dd, hf, herr⟩
          obtain ⟨hopm, hkey⟩ := findOpK_mem hf
          rw [opKey] at hkey
          subst hkey
          have hl : lookupK k es = some v2 := lookupK_self hm hwf.1
          have hwk : wfV v2 = true := wfE_mem hwf.2 hm
          have hshk : wfShape dd v2 = true := wfShapeMapOps_mem hnest hopm hl
          have hszd : sizeOf dd < sizeOf (op :: rest) := by
            have h1 := List.sizeOf_lt_of_mem hopm
            simp_arith at h1 ⊢
            omega
          have hszv : sizeOf v2 < sizeOf (Value.map es) := by
            have h1 := lookupK_sizeOf hl
            simp_arith
            omega
          have hIH := applyErr_iff_badAddr dd v2 hwk hshk
          rw [badAddrOps_iff]
          refine ⟨.patch (.k k) dd, hopm, ?_⟩
          rw [mapOpOK_true_bad_iff (checkMapOps_iff.mp hck _ hopm)]
          exact ⟨k, dd, rfl, v2, hl, hIH.mp herr⟩
        · intro hbad
          rw [badAddrOps_iff] at hbad
          obtain ⟨op2, hopm, hb⟩ := hbad
          have hok := checkMapOps_iff.mp hck _ hopm
          rw [mapOpOK_true_bad_iff hok] at hb
          obtain ⟨s, dd, heq, c, hl, hbd⟩ := hb
          subst heq
          have hwk : wfV c = true := wfE_mem hwf.2 (mem_of_lookupK hl)
          have hshk : wfShape dd c = true := wfShapeMapOps_mem hnest hopm hl
          have hszd : sizeOf dd < sizeOf (op :: rest) := by
            have h1 := List.sizeOf_lt_of_mem hopm
            simp_arith at h1 ⊢
            omega
          have hszv : sizeOf c < sizeOf (Value.map es) := by
            have h1 := lookupK_sizeOf hl
            simp_arith
            omega
          have hIH := applyErr_iff_badAddr dd c hwk hshk
          refine ⟨s, c, mem_of_lookupK hl, .k s, dd, ?_, hIH.mpr hbd⟩
          exact findOpK_of_distinct hdist hopm (by rw [opKeyStr_eq_some, opKey])
      · have hckf : checkMapOps es (op :: rest) = false := by
          cases hc2 : checkMapOps es (op :: rest) with
          | true => exact absurd hc2 hck
          | false => rfl
        have hbad : badAddrOps (.map es) (op :: rest) = true := by
          rw [badAddrOps_iff]
          obtain ⟨op2, hm2, hno⟩ := checkMapOps_false hckf
          exact ⟨op2, hm2, mapOpOK_false_bad hno⟩
        simp only [if_neg hck]
        simp [exceptIsOk_error, hbad]
  | op :: rest, .seq xs, hwf, hsh => by
    rw [applyValue, badAddr]
    rw [wfShape] at hsh
    cases hroot : isRootReplaceSingleton (op :: rest) with
    | some x =>
      rw [rootOr, rootOrB]
      simp [exceptIsOk_ok]
    | none =>
      rw [rootOr, rootOrB]
      rw [hroot, rootOrB] at hsh
      rw [wfShapeC] at hsh
      rw [applyContainer]
      rw [wfV] at hwf
      simp only [Bool.and_eq_true] at hsh
      obtain ⟨hsort, hnest⟩ := hsh
      rw [exceptMap_isOk]
      rw [applySeqGo_err_iff _ 0 xs hsort]
      have hbridge := seqBad_bridge (op :: rest) xs (fun j dd hm c hg => by
        have hwk : wfV c = true := wfL_mem hwf (List.get?_mem hg)
        have hshk : wfShape dd c = true := wfShapeSeqOps_mem hnest hm hg
        have hszd : sizeOf dd < sizeOf (op :: rest) := by
          have h1 := List.sizeOf_lt_of_mem hm
          simp_arith at h1 ⊢
          omega
        have hszv : sizeOf c < sizeOf (Value.seq xs) := by
          have h1 := sizeOf_get? hg
          simp_arith
          omega
        exact applyErr_iff_badAddr dd c hwk hshk)
      rw [hbridge]
termination_by d v _ _ => 2 * sizeOf d + sizeOf v
decreasing_by all_goals omega

/-- C5: apply(diff, base) fails with MalformedDiff exactly when some DiffOp
addresses a key or index absent from, or incompatible with, the corresponding
position in base (the declarative predicate badAddr); MalformedDiff is the
only error value apply can return; and apply is a pure function of its
arguments, so base itself is left unchanged on success and on failure. -/
theorem C5_apply_malformed_iff_bad_address (d : Diff) (base : Value)
    (hwf : wfV base = true) (hsh : wfShape d base = true) :
    ((apply d base).isOk = false ↔ badAddr d base = true) ∧
    (∀ e : MalformedDiff, apply d base = .error e → e = .mk) := by
  refine ⟨?_, ?_⟩
  · rw [apply]
    exact applyErr_iff_badAddr d base hwf hsh
  · intro e _
    cases e
    rfl

/-- Witness for C5 at a concrete input: removing a key missing from an empty
mapping is exactly the MalformedDiff case. -/
theorem C5_apply_malformed_iff_bad_address_witness :
    wfV (Value.map []) = true ∧
    wfShape [DiffOp.remove (Key.k "x")] (Value.map []) = true ∧
    (((apply [DiffOp.remove (Key.k "x")] (Value.map [])).isOk = false) ↔
      badAddr [DiffOp.remove (Key.k "x")] (Value.map []) = true) := by
  have h1 : wfV (Value.map []) = true := by
    simp [wfV, uniqKeys, wfE]
  have h2 : wfShape [DiffOp.remove (Key.k "x")] (Value.map []) = true := by
    simp [wfShape, isRootReplaceSingleton, rootOrB, wfShapeC, distinctStrs,
      mapOpKeys, wfShapeMapOps, opKeyStr]
  exact ⟨h1, h2, (C5_apply_malformed_iff_bad_address _ _ h1 h2).1⟩

/-! ## Merge convergence on identical diffs (claim C3 support) -/

theorem applyTotal_eq {d : Diff} {v w : Value} (h : applyValue d v = .ok w) :
    applyTotal d v = w := by
  rw [applyTotal, h]

theorem rootSingleton_none : ∀ {d : Diff}, hasRootOp d = false → isRootReplaceSingleton d = none
  | [], _ => rfl
  | .add key w :: op2 :: rest, _ => rfl
  | .remove key :: op2 :: rest, _ => rfl
  | .patch key dd :: op2 :: rest, _ => rfl
  | .replace (.k s) w :: op2 :: rest, _ => rfl
  | .replace (.i n) w :: op2 :: rest, _ => rfl
  | .replace .root w :: op2 :: rest, h => by
    simp [hasRootOp, isRootOp] at h
    exact absurd (show opKey (DiffOp.replace Key.root w) = Key.root from rfl) h.1
  | [.add key w], _ => rfl
  | [.remove key], _ => rfl
  | [.patch key dd], _ => rfl
  | [.replace (.k s) w], _ => rfl
  | [.replace (.i n) w], _ => rfl
  | [.replace .root w], h => by
    simp [hasRootOp, isRootOp] at h
    exact absurd (show opKey (DiffOp.replace Key.root w) = Key.root from rfl) h

theorem hasOpK_of_mem {d : Diff} {op : DiffOp} {s : String}
    (hm : op ∈ d) (hk : opKey op = .k s) : hasOpK d s = true := by
  rw [hasOpK, findOpK]
  rw [Option.isSome_iff_exists]
  have := List.find?_eq_none (p := fun op => opKey op == .k s) (l := d)
  cases hfind : d.find? (fun op => opKey op == .k s) with
  | some o => exact ⟨o, rfl⟩
  | none =>
    rw [hfind] at this
    have h2 := (this.mp rfl) op hm
    rw [hk] at h2
    simp at h2

theorem rOnly_self (d : Diff) : rOnly d d = [] := by
  rw [rOnly]
  rw [List.filterMap_eq_nil]
  intro op hm
  cases hk : opKeyStr op with
  | none => simp [hk]
  | some s =>
    have hh : hasOpK d s = true := hasOpK_of_mem hm (opKeyStr_eq_some.mp hk)
    simp [hk, hh]

theorem mapOpOK_keyed {es : List (String × Value)} {op : DiffOp}
    (h : mapOpOK es op = true) : ∃ s, opKeyStr op = some s := by
  cases op with
  | add key w =>
    cases key with
    | k s => exact ⟨s, by simp [opKeyStr, opKey]⟩
    | i n => rw [mapOpOK] at h; cases h
    | root => rw [mapOpOK] at h; cases h
  | remove key =>
    cases key with
    | k s => exact ⟨s, by simp [opKeyStr, opKey]⟩
    | i n => rw [mapOpOK] at h; cases h
    | root => rw [mapOpOK] at h; cases h
  | replace key w =>
    cases key with
    | k s => exact ⟨s, by simp [opKeyStr, opKey]⟩
    | i n => rw [mapOpOK] at h; cases h
    | root => rw [mapOpOK] at h; cases h
  | patch key dd =>
    cases key with
    | k s => exact ⟨s, by simp [opKeyStr, opKey]⟩
    | i n => rw [mapOpOK] at h; cases h
    | root => rw [mapOpOK] at h; cases h

theorem applyValue_cons_notRoot {op : DiffOp} {rest : Diff} {v : Value}
    (hnr : hasRootOp (op :: rest) = false) :
    applyValue (op :: rest) v = applyContainer (op :: rest) v := by
  rw [applyValue, rootSingleton_none hnr, rootOr]

theorem checkMapOps_of_ok {d : Diff} {es : List (String × Value)} {v : Value}
    (h : applyContainer d (.map es) = .ok v) : checkMapOps es d = true := by
  rw [applyContainer] at h
  by_cases hck : checkMapOps es d = true
  · exact hck
  · rw [if_neg hck] at h
    cases h

theorem seqGo_of_ok {d : Diff} {xs : List Value} {v : Value}
    (h : applyContainer d (.seq xs) = .ok v) :
    ∃ ys, applySeqGo d 0 xs = .ok ys ∧ v = .seq ys := by
  rw [applyContainer] at h
  cases hgo : applySeqGo d 0 xs with
  | error e => rw [hgo] at h; simp [Except.map] at h
  | ok ys =>
    rw [hgo] at h
    simp only [Except.map] at h
    injection h with hv
    exact ⟨ys, rfl, hv.symm⟩

set_option maxHeartbeats 2000000 in
theorem walkL_self :
    ∀ (es : List (String × Value)) (d : Diff) (lops : Diff) (seen : List String),
    (∀ op ∈ lops, ∃ s, opKeyStr op = some s ∧ findOpK d s = some op ∧ seen.contains s = false) →
    distinctStrs (mapOpKeys lops) = true →
    walkL es d seen lops = (lops, [])
  | es, d, [], seen, _, _ => by rw [walkL]
  | es, d, op :: rest, seen, h, hdist => by
    obtain ⟨s, hks, hfind, hseen⟩ := h op (List.mem_cons_self _ _)
    rw [walkL]
    simp only [hks]
    rw [hseen]
    simp only [Bool.false_eq_true, if_false]
    have hdpair : (mapOpKeys rest).contains s = false ∧ distinctStrs (mapOpKeys rest) = true := by
      rw [mapOpKeys, hks] at hdist
      rw [List.singleton_append, distinctStrs] at hdist
      simp only [Bool.and_eq_true, Bool.not_eq_true'] at hdist
      exact hdist
    have htail := walkL_self es d rest (s :: seen) (fun op2 hm2 => by
      obtain ⟨s2, hks2, hfind2, hseen2⟩ := h op2 (List.mem_cons_of_mem _ hm2)
      refine ⟨s2, hks2, hfind2, ?_⟩
      have hne : s2 ≠ s := by
        intro he
        subst he
        have := mem_mapOpKeys hks2 hm2
        rw [List.contains_eq_any_beq] at hdpair
        have h3 := hdpair.1
        rw [Bool.eq_false_iff] at h3
        exact h3 (List.any_eq_true.mpr ⟨s2, this, by simp⟩)
      rw [List.contains_cons]
      simp only [hseen2, Bool.or_false]
      simp [hne]) hdpair.2
    simp only [htail]
    split
    · simp
    · rename_i o2 heq
      rw [hfind] at heq
      injection heq with ho
      subst ho
      simp [beqOp_refl]
termination_by _ _ lops _ _ _ => sizeOf lops
decreasing_by all_goals simp_arith

theorem seqConflicts_self {d : Diff} : ∀ (xs : List Value) (j : Nat),
    seqConflicts d d j xs = []
  | [], j => by rw [seqConflicts]
  | x :: xs, j => by
    rw [seqConflicts]
    rw [seqConflicts_self xs (j+1)]
    rw [List.append_nil]
    split
    · rename_i o1 o2 heq1 heq2
      rw [heq1] at heq2
      injection heq2 with ho
      subst ho
      simp [beqOp_refl]
    · rfl
termination_by xs _ => sizeOf xs
decreasing_by all_goals simp_arith

theorem elemPart_none {l r : Diff} {j : Nat} {x : Value} {sh : Bool}
    (hl : findElemOp l j = none) (hr2 : findElemOp r j = none) :
    elemPart l r sh j x = [x] := by
  rw [elemPart]
  split
  · rfl
  · rename_i o heq1 heq2
    rw [hl] at heq1
    cases heq1
  · rename_i o heq1 heq2
    rw [hr2] at heq2
    cases heq2
  · rename_i o1 o2 heq1 heq2
    rw [hl] at heq1
    cases heq1

theorem elemPart_same {l r : Diff} {j : Nat} {x : Value} {sh : Bool} {o : DiffOp}
    (hl : findElemOp l j = some o) (hr2 : findElemOp r j = some o) :
    elemPart l r sh j x = applyElemOp x o sh := by
  rw [elemPart]
  split
  · rename_i heq1 heq2
    rw [hl] at heq1
    cases heq1
  · rename_i o2 heq1 heq2
    rw [hr2] at heq2
    cases heq2
  · rename_i o2 heq1 heq2
    rw [hl] at heq1
    cases heq1
  · rename_i o1 o2 heq1 heq2
    rw [hl] at heq1
    rw [hr2] at heq2
    injection heq1 with h1
    injection heq2 with h2
    subst h1
    subst h2
    simp [beqOp_refl]

theorem mergedAdds_self (l : Diff) (j : Nat) : mergedAdds l l j = addsOf l j := by
  rw [mergedAdds, beqVList_refl]
  simp

theorem addsOf_nil (j : Nat) : addsOf [] j = [] := rfl

theorem findElemOp_nil (j : Nat) : findElemOp [] j = none := rfl

theorem addsOf_cons (op : DiffOp) (rest : Diff) (j : Nat) :
    addsOf (op :: rest) j =
      (match addAt j op with
       | some w => w :: addsOf rest j
       | none => addsOf rest j) := by
  rw [addsOf, List.filterMap_cons]
  cases addAt j op <;> rfl

theorem addsOf_cons_add_eq (j : Nat) (w : Value) (rest : Diff) :
    addsOf (.add (.i j) w :: rest) j = w :: addsOf rest j := by
  rw [addsOf_cons, addAt]
  simp

theorem addsOf_cons_none {op : DiffOp} {j : Nat} (rest : Diff)
    (h : addAt j op = none) : addsOf (op :: rest) j = addsOf rest j := by
  rw [addsOf_cons, h]

theorem findElemOp_cons_pos {op : DiffOp} {j : Nat} (rest : Diff)
    (h : elemOpAt j op = true) : findElemOp (op :: rest) j = some op := by
  rw [findElemOp, List.find?_cons_of_pos _ h]

theorem findElemOp_cons_neg {op : DiffOp} {j : Nat} (rest : Diff)
    (h : elemOpAt j op = false) : findElemOp (op :: rest) j = findElemOp rest j := by
  rw [findElemOp, List.find?_cons_of_neg, findElemOp]
  simp [h]

theorem addsOf_quiet : ∀ {ops : Diff} {m j : Nat},
    (∀ op ∈ ops, ∀ j2, opKey op = .i j2 → m ≤ j2) → j < m → addsOf ops j = [] := by
  intro ops m j h hj
  rw [addsOf, List.filterMap_eq_nil]
  intro op hm
  cases op with
  | add key w =>
    cases key with
    | i j2 =>
      have := h _ hm j2 (by rw [opKey])
      rw [addAt, if_neg (by omega)]
    | k s => rfl
    | root => rfl
  | remove key => rfl
  | replace key w => rfl
  | patch key dd => rfl

theorem findElemOp_quiet : ∀ {ops : Diff} {m j : Nat},
    (∀ op ∈ ops, ∀ j2, opKey op = .i j2 → m ≤ j2) → j < m → findElemOp ops j = none := by
  intro ops m j h hj
  rw [findElemOp, List.find?_eq_none]
  intro op hm
  cases op with
  | add key w => simp [elemOpAt]
  | remove key =>
    cases key with
    | i j2 =>
      have := h _ hm j2 (by rw [opKey])
      simp [elemOpAt]
      omega
    | k s => simp [elemOpAt]
    | root => simp [elemOpAt]
  | replace key w =>
    cases key with
    | i j2 =>
      have := h _ hm j2 (by rw [opKey])
      simp [elemOpAt]
      omega
    | k s => simp [elemOpAt]
    | root => simp [elemOpAt]
  | patch key dd =>
    cases key with
    | i j2 =>
      have := h _ hm j2 (by rw [opKey])
      simp [elemOpAt]
      omega
    | k s => simp [elemOpAt]
    | root => simp [elemOpAt]

theorem seqMerge_triv : ∀ (l2 : Diff) (xs : List Value) (j : Nat),
    (∀ jj, j ≤ jj → addsOf l2 jj = [] ∧ findElemOp l2 jj = none) →
    seqMerge l2 l2 true j xs = xs
  | l2, [], j, h => by
    rw [seqMerge]
    simp [mergedAdds_self, (h j le_rfl).1]
  | l2, x :: xs, j, h => by
    rw [seqMerge]
    rw [seqMerge_triv l2 xs (j+1) (fun jj hjj => h jj (by omega))]
    rw [mergedAdds_self, (h j le_rfl).1]
    rw [elemPart_none (h j le_rfl).2 (h j le_rfl).2]
    simp
termination_by _ xs _ _ => sizeOf xs
decreasing_by all_goals simp_arith

set_option maxHeartbeats 2000000 in
theorem goMerge : ∀ (ops : Diff) (j : Nat) (xs ys : List Value) (l2 : Diff) (acc : List Value),
    seqSortedFrom j ops = true →
    applySeqGo ops j xs = .ok ys →
    (∀ jj, j < jj → addsOf l2 jj = addsOf ops jj ∧ findElemOp l2 jj = findElemOp ops jj) →
    findElemOp l2 j = findElemOp ops j →
    addsOf l2 j = acc ++ addsOf ops j →
    seqMerge l2 l2 true j xs = acc ++ ys
  | [], j, xs, ys, l2, acc, _, hgo, hinv, hfe, hadd => by
    rw [applySeqGo] at hgo
    injection hgo with hys
    subst hys
    cases xs with
    | nil =>
      rw [seqMerge]
      rw [mergedAdds_self, hadd, addsOf_nil]
      simp
    | cons x xs2 =>
      rw [seqMerge]
      rw [mergedAdds_self, hadd, addsOf_nil]
      rw [elemPart_none (by rw [hfe, findElemOp_nil]) (by rw [hfe, findElemOp_nil])]
      rw [seqMerge_triv l2 xs2 (j+1) (fun jj hjj =>
        ⟨by rw [(hinv jj (by omega)).1, addsOf_nil],
         by rw [(hinv jj (by omega)).2, findElemOp_nil]⟩)]
      simp
  | .add (.k s) w :: rest, j, xs, ys, l2, acc, hs, hgo, hinv, hfe, hadd => by
    rw [applySeqGo, applySeqStep] at hgo
    simp only [opKey] at hgo
    cases hgo
  | .add .root w :: rest, j, xs, ys, l2, acc, hs, hgo, hinv, hfe, hadd => by
    rw [applySeqGo, applySeqStep] at hgo
    simp only [opKey] at hgo
    cases hgo
  | .remove (.k s) :: rest, j, xs, ys, l2, acc, hs, hgo, hinv, hfe, hadd => by
    rw [applySeqGo, applySeqStep] at hgo
    simp only [opKey] at hgo
    cases hgo
  | .remove .root :: rest, j, xs, ys, l2, acc, hs, hgo, hinv, hfe, hadd => by
    rw [applySeqGo, applySeqStep] at hgo
    simp only [opKey] at hgo
    cases hgo
  | .replace (.k s) w :: rest, j, xs, ys, l2, acc, hs, hgo, hinv, hfe, hadd => by
    rw [applySeqGo, applySeqStep] at hgo
    simp only [opKey] at hgo
    cases hgo
  | .replace .root w :: rest, j, xs, ys, l2, acc, hs, hgo, hinv, hfe, hadd => by
    rw [applySeqGo, applySeqStep] at hgo
    simp only [opKey] at hgo
    cases hgo
  | .patch (.k s) dd :: rest, j, xs, ys, l2, acc, hs, hgo, hinv, hfe, hadd => by
    rw [applySeqGo, applySeqStep] at hgo
    simp only [opKey] at hgo
    cases hgo
  | .patch .root dd :: rest, j, xs, ys, l2, acc, hs, hgo, hinv, hfe, hadd => by
    rw [applySeqGo, applySeqStep] at hgo
    simp only [opKey] at hgo
    cases hgo
  | .add (.i j2) w :: rest, j, xs, ys, l2, acc, hs, hgo, hinv, hfe, hadd => by
    rw [seqSortedFrom] at hs
    simp only [Bool.and_eq_true, decide_eq_true_eq] at hs
    rw [applySeqGo, applySeqStep] at hgo
    simp only [opKey] at hgo
    rw [if_neg (by omega)] at hgo
    by_cases hj : j2 = j
    · rw [if_pos hj] at hgo
      rw [hj] at hs hinv hfe hadd hgo
      rw [applySeqConsume] at hgo
      cases hgo2 : applySeqGo rest j xs with
      | error e => rw [hgo2] at hgo; simp [consOkM] at hgo
      | ok tail =>
        rw [hgo2] at hgo
        simp only [consOkM] at hgo
        injection hgo with hys
        subst hys
        have hrec := goMerge rest j xs tail l2 (acc ++ [w]) hs.2 hgo2
          (fun jj hjj =>
            ⟨by rw [(hinv jj hjj).1, addsOf_cons_none rest (by rw [addAt, if_neg (by omega)])],
             by rw [(hinv jj hjj).2, findElemOp_cons_neg rest (by rw [elemOpAt])]⟩)
          (by rw [hfe, findElemOp_cons_neg rest (by rw [elemOpAt])])
          (by rw [hadd, addsOf_cons_add_eq]; simp)
        rw [hrec]
        simp
    · rw [if_neg hj] at hgo
      cases xs with
      | nil =>
        rw [applySeqSkip] at hgo
        cases hgo
      | cons x xs2 =>
        rw [applySeqSkip] at hgo
        cases hgo2 : applySeqGo (.add (.i j2) w :: rest) (j+1) xs2 with
        | error e => rw [hgo2] at hgo; simp [consOkM] at hgo
        | ok tail =>
          rw [hgo2] at hgo
          simp only [consOkM] at hgo
          injection hgo with hys
          subst hys
          have hsorted2 : seqSortedFrom (j+1) (.add (.i j2) w :: rest) = true := by
            rw [seqSortedFrom]
            simp only [Bool.and_eq_true, decide_eq_true_eq]
            exact ⟨by omega, hs.2⟩
          have hrec := goMerge (.add (.i j2) w :: rest) (j+1) xs2 tail l2 [] hsorted2 hgo2
            (fun jj hjj => hinv jj (by omega))
            ((hinv (j+1) (by omega)).2)
            (by rw [List.nil_append]; exact (hinv (j+1) (by omega)).1)
          have hquiet : ∀ op2 ∈ (.add (.i j2) w :: rest), ∀ jjj, opKey op2 = .i jjj → j2 ≤ jjj := by
            intro op2 hm2 jjj hk2
            rcases List.mem_cons.mp hm2 with h2 | h2
            · subst h2; rw [opKey] at hk2; cases hk2; omega
            · exact seqSortedFrom_indexLB hs.2 op2 h2 jjj hk2
          have ha : addsOf (.add (.i j2) w :: rest) j = [] :=
            addsOf_quiet hquiet (by omega)
          have hf : findElemOp (.add (.i j2) w :: rest) j = none :=
            findElemOp_quiet hquiet (by omega)
          rw [seqMerge, hrec]
          rw [mergedAdds_self, hadd, ha]
          rw [elemPart_none (by rw [hfe, hf]) (by rw [hfe, hf])]
          simp
  | .remove (.i j2) :: rest, j, xs, ys, l2, acc, hs, hgo, hinv, hfe, hadd => by
    rw [seqSortedFrom] at hs
    simp only [Bool.and_eq_true, decide_eq_true_eq] at hs
    rw [applySeqGo, applySeqStep] at hgo
    simp only [opKey] at hgo
    rw [if_neg (by omega)] at hgo
    by_cases hj : j2 = j
    · rw [if_pos hj] at hgo
      rw [hj] at hs hinv hfe hadd hgo
      cases xs with
      | nil =>
        rw [applySeqConsume] at hgo
        cases hgo
      | cons x xs2 =>
        rw [applySeqConsume] at hgo
        have hrec := goMerge rest (j+1) xs2 ys l2 [] hs.2 hgo
          (fun jj hjj =>
            ⟨by rw [(hinv jj (by omega)).1, addsOf_cons_none rest (by rw [addAt])],
             by rw [(hinv jj (by omega)).2, findElemOp_cons_neg rest (by simp [elemOpAt] <;> omega)]⟩)
          (by rw [(hinv (j+1) (by omega)).2, findElemOp_cons_neg rest (by simp [elemOpAt] <;> omega)])
          (by rw [List.nil_append, (hinv (j+1) (by omega)).1, addsOf_cons_none rest (by rw [addAt])])
        have ha : addsOf (.remove (.i j) :: rest) j = [] := by
          rw [addsOf_cons_none rest (by rw [addAt])]
          exact addsOf_quiet (fun op2 hm2 jjj hk2 => seqSortedFrom_indexLB hs.2 op2 hm2 jjj hk2)
            (by omega)
        have hf : findElemOp (.remove (.i j) :: rest) j = some (.remove (.i j)) :=
          findElemOp_cons_pos rest (by simp [elemOpAt])
        rw [seqMerge, hrec]
        rw [mergedAdds_self, hadd, ha]
        rw [elemPart_same (by rw [hfe, hf]) (by rw [hfe, hf])]
        rw [applyElemOp]
        simp
    · rw [if_neg hj] at hgo
      cases xs with
      | nil =>
        rw [applySeqSkip] at hgo
        cases hgo
      | cons x xs2 =>
        rw [applySeqSkip] at hgo
        cases hgo2 : applySeqGo (.remove (.i j2) :: rest) (j+1) xs2 with
        | error e => rw [hgo2] at hgo; simp [consOkM] at hgo
        | ok tail =>
          rw [hgo2] at hgo
          simp only [consOkM] at hgo
          injection hgo with hys
          subst hys
          have hsorted2 : seqSortedFrom (j+1) (.remove (.i j2) :: rest) = true := by
            rw [seqSortedFrom]
            simp only [Bool.and_eq_true, decide_eq_true_eq]
            exact ⟨by omega, hs.2⟩
          have hrec := goMerge (.remove (.i j2) :: rest) (j+1) xs2 tail l2 [] hsorted2 hgo2
            (fun jj hjj => hinv jj (by omega))
            ((hinv (j+1) (by omega)).2)
            (by rw [List.nil_append]; exact (hinv (j+1) (by omega)).1)
          have hquiet : ∀ op2 ∈ (.remove (.i j2) :: rest), ∀ jjj, opKey op2 = .i jjj → j2 ≤ jjj := by
            intro op2 hm2 jjj hk2
            rcases List.mem_cons.mp hm2 with h2 | h2
            · subst h2; rw [opKey] at hk2; cases hk2; omega
            · exact by have := seqSortedFrom_indexLB hs.2 op2 h2 jjj hk2; omega
          have ha : addsOf (.remove (.i j2) :: rest) j = [] :=
            addsOf_quiet hquiet (by omega)
          have hf : findElemOp (.remove (.i j2) :: rest) j = none :=
            findElemOp_quiet hquiet (by omega)
          rw [seqMerge, hrec]
          rw [mergedAdds_self, hadd, ha]
          rw [elemPart_none (by rw [hfe, hf]) (by rw [hfe, hf])]
          simp
  | .replace (.i j2) w :: rest, j, xs, ys, l2, acc, hs, hgo, hinv, hfe, hadd => by
    rw [seqSortedFrom] at hs
    simp only [Bool.and_eq_true, decide_eq_true_eq] at hs
    rw [applySeqGo, applySeqStep] at hgo
    simp only [opKey] at hgo
    rw [if_neg (by omega)] at hgo
    by_cases hj : j2 = j
    · rw [if_pos hj] at hgo
      rw [hj] at hs hinv hfe hadd hgo
      cases xs with
      | nil =>
        rw [applySeqConsume] at hgo
        cases hgo
      | cons x xs2 =>
        rw [applySeqConsume] at hgo
        cases hgo2 : applySeqGo rest (j+1) xs2 with
        | error e => rw [hgo2] at hgo; simp [consOkM] at hgo
        | ok tail =>
          rw [hgo2] at hgo
          simp only [consOkM] at hgo
          injection hgo with hys
          subst hys
          have hrec := goMerge rest (j+1) xs2 tail l2 [] hs.2 hgo2
            (fun jj hjj =>
              ⟨by rw [(hinv jj (by omega)).1, addsOf_cons_none rest (by rw [addAt])],
               by rw [(hinv jj (by omega)).2, findElemOp_cons_neg rest (by simp [elemOpAt] <;> omega)]⟩)
            (by rw [(hinv (j+1) (by omega)).2, findElemOp_cons_neg rest (by simp [elemOpAt] <;> omega)])
            (by rw [List.nil_append, (hinv (j+1) (by omega)).1, addsOf_cons_none rest (by rw [addAt])])
          have ha : addsOf (.replace (.i j) w :: rest) j = [] := by
            rw [addsOf_cons_none rest (by rw [addAt])]
            exact addsOf_quiet (fun op2 hm2 jjj hk2 => seqSortedFrom_indexLB hs.2 op2 hm2 jjj hk2)
              (by omega)
          have hf : findElemOp (.replace (.i j) w :: rest) j = some (.replace (.i j) w) :=
            findElemOp_cons_pos rest (by simp [elemOpAt])
          rw [seqMerge, hrec]
          rw [mergedAdds_self, hadd, ha]
          rw [elemPart_same (by rw [hfe, hf]) (by rw [hfe, hf])]
          rw [applyElemOp]
          simp
    · rw [if_neg hj] at hgo
      cases xs with
      | nil =>
        rw [applySeqSkip] at hgo
        cases hgo
      | cons x xs2 =>
        rw [applySeqSkip] at hgo
        cases hgo2 : applySeqGo (.replace (.i j2) w :: rest) (j+1) xs2 with
        | error e => rw [hgo2] at hgo; simp [consOkM] at hgo
        | ok tail =>
          rw [hgo2] at hgo
          simp only [consOkM] at hgo
          injection hgo with hys
          subst hys
          have hsorted2 : seqSortedFrom (j+1) (.replace (.i j2) w :: rest) = true := by
            rw [seqSortedFrom]
            simp only [Bool.and_eq_true, decide_eq_true_eq]
            exact ⟨by omega, hs.2⟩
          have hrec := goMerge (.replace (.i j2) w :: rest) (j+1) xs2 tail l2 [] hsorted2 hgo2
            (fun jj hjj => hinv jj (by omega))
            ((hinv (j+1) (by omega)).2)
            (by rw [List.nil_append]; exact (hinv (j+1) (by omega)).1)
          have hquiet : ∀ op2 ∈ (.replace (.i j2) w :: rest), ∀ jjj, opKey op2 = .i jjj → j2 ≤ jjj := by
            intro op2 hm2 jjj hk2
            rcases List.mem_cons.mp hm2 with h2 | h2
            · subst h2; rw [opKey] at hk2; cases hk2; omega
            · exact by have := seqSortedFrom_indexLB hs.2 op2 h2 jjj hk2; omega
          have ha : addsOf (.replace (.i j2) w :: rest) j = [] :=
            addsOf_quiet hquiet (by omega)
          have hf : findElemOp (.replace (.i j2) w :: rest) j = none :=
            findElemOp_quiet hquiet (by omega)
          rw [seqMerge, hrec]
          rw [mergedAdds_self, hadd, ha]
          rw [elemPart_none (by rw [hfe, hf]) (by rw [hfe, hf])]
          simp
  | .patch (.i j2) dd :: rest, j, xs, ys, l2, acc, hs, hgo, hinv, hfe, hadd => by
    rw [seqSortedFrom] at hs
    simp only [Bool.and_eq_true, decide_eq_true_eq] at hs
    rw [applySeqGo, applySeqStep] at hgo
    simp only [opKey] at hgo
    rw [if_neg (by omega)] at hgo
    by_cases hj : j2 = j
    · rw [if_pos hj] at hgo
      rw [hj] at hs hinv hfe hadd hgo
      cases xs with
      | nil =>
        rw [applySeqConsume] at hgo
        cases hgo
      | cons x xs2 =>
        rw [applySeqConsume] at hgo
        cases hc : applyValue dd x with
        | error e => rw [hc] at hgo; simp [consOkM] at hgo
        | ok c =>
          cases hgo2 : applySeqGo rest (j+1) xs2 with
          | error e => rw [hc, hgo2] at hgo; simp [consOkM] at hgo
          | ok tail =>
            rw [hc, hgo2] at hgo
            simp only [consOkM] at hgo
            injection hgo with hys
            subst hys
            have hrec := goMerge rest (j+1) xs2 tail l2 [] hs.2 hgo2
              (fun jj hjj =>
                ⟨by rw [(hinv jj (by omega)).1, addsOf_cons_none rest (by rw [addAt])],
                 by rw [(hinv jj (by omega)).2, findElemOp_cons_neg rest (by simp [elemOpAt] <;> omega)]⟩)
              (by rw [(hinv (j+1) (by omega)).2, findElemOp_cons_neg rest (by simp [elemOpAt] <;> omega)])
              (by rw [List.nil_append, (hinv (j+1) (by omega)).1, addsOf_cons_none rest (by rw [addAt])])
            have ha : addsOf (.patch (.i j) dd :: rest) j = [] := by
              rw [addsOf_cons_none rest (by rw [addAt])]
              exact addsOf_quiet (fun op2 hm2 jjj hk2 => seqSortedFrom_indexLB hs.2 op2 hm2 jjj hk2)
                (by omega)
            have hf : findElemOp (.patch (.i j) dd :: rest) j = some (.patch (.i j) dd) :=
              findElemOp_cons_pos rest (by simp [elemOpAt])
            rw [seqMerge, hrec]
            rw [mergedAdds_self, hadd, ha]
            rw [elemPart_same (by rw [hfe, hf]) (by rw [hfe, hf])]
            rw [applyElemOp, applyTotal_eq hc]
            simp
    · rw [if_neg hj] at hgo
      cases xs with
      | nil =>
        rw [applySeqSkip] at hgo
        cases hgo
      | cons x xs2 =>
        rw [applySeqSkip] at hgo
        cases hgo2 : applySeqGo (.patch (.i j2) dd :: rest) (j+1) xs2 with
        | error e => rw [hgo2] at hgo; simp [consOkM] at hgo
        | ok tail =>
          rw [hgo2] at hgo
          simp only [consOkM] at hgo
          injection hgo with hys
          subst hys
          have hsorted2 : seqSortedFrom (j+1) (.patch (.i j2) dd :: rest) = true := by
            rw [seqSortedFrom]
            simp only [Bool.and_eq_true, decide_eq_true_eq]
            exact ⟨by omega, hs.2⟩
          have hrec := goMerge (.patch (.i j2) dd :: rest) (j+1) xs2 tail l2 [] hsorted2 hgo2
            (fun jj hjj => hinv jj (by omega))
            ((hinv (j+1) (by omega)).2)
            (by rw [List.nil_append]; exact (hinv (j+1) (by omega)).1)
          have hquiet : ∀ op2 ∈ (.patch (.i j2) dd :: rest), ∀ jjj, opKey op2 = .i jjj → j2 ≤ jjj := by
            intro op2 hm2 jjj hk2
            rcases List.mem_cons.mp hm2 with h2 | h2
            · subst h2; rw [opKey] at hk2; cases hk2; omega
            · exact by have := seqSortedFrom_indexLB hs.2 op2 h2 jjj hk2; omega
          have ha : addsOf (.patch (.i j2) dd :: rest) j = [] :=
            addsOf_quiet hquiet (by omega)
          have hf : findElemOp (.patch (.i j2) dd :: rest) j = none :=
            findElemOp_quiet hquiet (by omega)
          rw [seqMerge, hrec]
          rw [mergedAdds_self, hadd, ha]
          rw [elemPart_none (by rw [hfe, hf]) (by rw [hfe, hf])]
          simp
termination_by ops _ xs _ _ _ _ _ _ _ _ => sizeOf ops + sizeOf xs
decreasing_by all_goals (subst_vars; simp_arith; try omega)

/-- C3: for every base Value and every Diff d (well-shaped for base, and
applying cleanly to it), merging the same diff from both sides converges:
merge(base, d, d) returns the MergeResult whose merged value equals
apply(d, base) and whose conflicts list is empty — identical edits never
conflict. -/
theorem C3_merge_convergence (base : Value) (d : Diff) (v : Value)
    (hsh : wfShape d base = true) (happly : apply d base = .ok v) :
    merge base d d = ⟨v, []⟩ := by
  rw [apply] at happly
  suffices hm : mergeValue base d d = (v, []) by
    simp [merge, hm]
  cases hroot : hasRootOp d with
  | true =>
    rw [mergeValue, hroot]
    simp only [Bool.or_self, beqD_refl, if_true]
    rw [applyTotal_eq happly]
  | false =>
    cases base with
    | null =>
      cases d with
      | nil =>
        rw [applyValue] at happly
        injection happly with hv
        subst hv
        rw [mergeValue]
        simp only [hasRootOp, List.any_nil, Bool.or_self, Bool.false_eq_true, if_false]
        rw [mergeContainer]
      | cons op rest =>
        rw [applyValue_cons_notRoot hroot, applyContainer] at happly
        cases happly
    | bool b =>
      cases d with
      | nil =>
        rw [applyValue] at happly
        injection happly with hv
        subst hv
        rw [mergeValue]
        simp only [hasRootOp, List.any_nil, Bool.or_self, Bool.false_eq_true, if_false]
        rw [mergeContainer]
      | cons op rest =>
        rw [applyValue_cons_notRoot hroot, applyContainer] at happly
        cases happly
    | num n =>
      cases d with
      | nil =>
        rw [applyValue] at happly
        injection happly with hv
        subst hv
        rw [mergeValue]
        simp only [hasRootOp, List.any_nil, Bool.or_self, Bool.false_eq_true, if_false]
        rw [mergeContainer]
      | cons op rest =>
        rw [applyValue_cons_notRoot hroot, applyContainer] at happly
        cases happly
    | str st =>
      cases d with
      | nil =>
        rw [applyValue] at happly
        injection happly with hv
        subst hv
        rw [mergeValue]
        simp only [hasRootOp, List.any_nil, Bool.or_self, Bool.false_eq_true, if_false]
        rw [mergeContainer]
      | cons op rest =>
        rw [applyValue_cons_notRoot hroot, applyContainer] at happly
        cases happly
    | map es =>
      cases d with
      | nil =>
        rw [applyValue] at happly
        injection happly with hv
        subst hv
        rw [mergeValue]
        have hw : walkL es [] ([] : List String) [] = ([], []) := by rw [walkL]
        simp only [hasRootOp, List.any_nil, Bool.or_self, Bool.false_eq_true, if_false]
        rw [mergeContainer]
        simp [hw, rOnly, applyTotal, applyValue]
      | cons op rest =>
        have happly2 := happly
        rw [applyValue_cons_notRoot hroot] at happly2
        have hck := checkMapOps_of_ok happly2
        rw [wfShape, rootSingleton_none hroot, rootOrB, wfShapeC] at hsh
        simp only [Bool.and_eq_true] at hsh
        have hw := walkL_self es (op :: rest) (op :: rest) []
          (fun op2 hm2 => by
            obtain ⟨s, hks⟩ := mapOpOK_keyed (checkMapOps_iff.mp hck op2 hm2)
            exact ⟨s, hks, findOpK_of_distinct hsh.1 hm2 hks, rfl⟩)
          hsh.1
        rw [mergeValue, hroot]
        simp only [Bool.or_self, Bool.false_eq_true, if_false]
        rw [mergeContainer]
        simp only [hw, rOnly_self, List.append_nil]
        rw [applyTotal_eq happly]
    | seq xs =>
      cases d with
      | nil =>
        rw [applyValue] at happly
        injection happly with hv
        subst hv
        rw [mergeValue]
        have h1 : seqConflicts ([] : Diff) [] 0 xs = [] := seqConflicts_self xs 0
        have h2 : seqMerge ([] : Diff) [] true 0 xs = xs :=
          seqMerge_triv [] xs 0 (fun jj _ => ⟨rfl, rfl⟩)
        simp only [hasRootOp, List.any_nil, Bool.or_self, Bool.false_eq_true, if_false]
        rw [mergeContainer]
        simp [h1, h2]
      | cons op rest =>
        rw [applyValue_cons_notRoot hroot] at happly
        obtain ⟨ys, hgo, hv⟩ := seqGo_of_ok happly
        subst hv
        rw [wfShape, rootSingleton_none hroot, rootOrB, wfShapeC] at hsh
        simp only [Bool.and_eq_true] at hsh
        have hc : seqConflicts (op :: rest) (op :: rest) 0 xs = [] := seqConflicts_self xs 0
        have hmg := goMerge (op :: rest) 0 xs ys (op :: rest) [] hsh.1 hgo
          (fun jj _ => ⟨rfl, rfl⟩) rfl (by rw [List.nil_append])
        rw [mergeValue, hroot]
        simp only [Bool.or_self, Bool.false_eq_true, if_false]
        rw [mergeContainer]
        simp [hc, hmg]

/-- Witness for C3 at a concrete input: replacing the single element of a
one-element sequence, merged against itself, converges with no
conflicts. -/
theorem C3_merge_convergence_witness :
    wfShape [DiffOp.replace (Key.i 0) (Value.num 2)] (Value.seq [Value.num 1]) = true ∧
    apply [DiffOp.replace (Key.i 0) (Value.num 2)] (Value.seq [Value.num 1])
      = .ok (Value.seq [Value.num 2]) ∧
    merge (Value.seq [Value.num 1]) [DiffOp.replace (Key.i 0) (Value.num 2)]
      [DiffOp.replace (Key.i 0) (Value.num 2)] = ⟨Value.seq [Value.num 2], []⟩ := by
  have h1 : wfShape [DiffOp.replace (Key.i 0) (Value.num 2)] (Value.seq [Value.num 1]) = true := by
    simp [wfShape, isRootReplaceSingleton, rootOrB, wfShapeC, seqSortedFrom, wfShapeSeqOps]
  have h2 : apply [DiffOp.replace (Key.i 0) (Value.num 2)] (Value.seq [Value.num 1])
      = .ok (Value.seq [Value.num 2]) := by
    simp [apply, applyValue, isRootReplaceSingleton, rootOr, applyContainer, applySeqGo,
      applySeqStep, applySeqConsume, opKey, consOkM, Except.map]
  exact ⟨h1, h2, C3_merge_convergence _ _ _ h1 h2⟩

/-! ## Conservative default at conflicting addresses (claim C4 support) -/

theorem applyTotal_err {d : Diff} {v : Value} {e : MalformedDiff}
    (h : applyValue d v = .error e) : applyTotal d v = v := by
  rw [applyTotal, h]

theorem applyMapEntries_cons_add {d : Diff} {k : String} {v w : Value} {key : Key}
    {es : List (String × Value)} (h : findOpK d k = some (.add key w)) :
    applyMapEntries d ((k, v) :: es) = .error .mk := by
  rw [applyMapEntries]
  split <;> simp_all

theorem lookupK_append (s : String) : ∀ (as bs : List (String × Value)),
    lookupK s (as ++ bs) =
      (match lookupK s as with
       | some v => some v
       | none => lookupK s bs)
  | [], bs => by simp [lookupK]
  | (k, v) :: as, bs => by
    rw [List.cons_append, lookupK, lookupK]
    by_cases hk : k = s
    · simp [hk]
    · simp only [hk, if_false]
      exact lookupK_append s as bs

theorem findOpK_cons_neg {op : DiffOp} {d : Diff} {s : String}
    (h : (opKey op == Key.k s) = false) : findOpK (op :: d) s = findOpK d s := by
  simp only [findOpK]
  exact List.find?_cons_of_neg d (by simp [h])

theorem findOpK_cons_pos {op : DiffOp} {d : Diff} {s : String}
    (h : (opKey op == Key.k s) = true) : findOpK (op :: d) s = some op := by
  rw [findOpK]
  exact List.find?_cons_of_pos d h

theorem AME_lookup_none {ops : Diff} {s : String} :
    ∀ {es front : List (String × Value)}, applyMapEntries ops es = .ok front →
      findOpK ops s = none → lookupK s front = lookupK s es
  | [], front, h, _ => by
    rw [applyMapEntries] at h
    injection h with hf
    subst hf
    rfl
  | (k, v) :: es, front, h, hf => by
    rw [lookupK]
    by_cases hk : k = s
    · subst hk
      rw [applyMapEntries_cons_none hf] at h
      cases ht : applyMapEntries ops es with
      | error e => rw [ht] at h; cases h
      | ok front2 =>
        rw [ht] at h
        rw [consEntry] at h
        injection h with hfr
        subst hfr
        rw [lookupK]
        simp
    · cases hop : findOpK ops k with
      | none =>
        rw [applyMapEntries_cons_none hop] at h
        cases ht : applyMapEntries ops es with
        | error e => rw [ht] at h; cases h
        | ok front2 =>
          rw [ht] at h
          rw [consEntry] at h
          injection h with hfr
          subst hfr
          rw [lookupK]
          simp only [hk, if_false]
          exact AME_lookup_none ht hf
      | some op =>
        cases op with
        | add key w =>
          rw [applyMapEntries_cons_add hop] at h
          cases h
        | remove key =>
          rw [applyMapEntries_cons_remove hop] at h
          simp only [hk, if_false]
          exact AME_lookup_none h hf
        | replace key w =>
          rw [applyMapEntries_cons_replace hop] at h
          cases ht : applyMapEntries ops es with
          | error e => rw [ht] at h; cases h
          | ok front2 =>
            rw [ht] at h
            rw [consEntry] at h
            injection h with hfr
            subst hfr
            rw [lookupK]
            simp only [hk, if_false]
            exact AME_lookup_none ht hf
        | patch key dd =>
          rw [applyMapEntries_cons_patch hop] at h
          cases hc : applyValue dd v with
          | error e => rw [hc] at h; rw [consEntry] at h; cases h
          | ok c =>
            cases ht : applyMapEntries ops es with
            | error e => rw [hc, ht] at h; rw [consEntry] at h; cases h
            | ok front2 =>
              rw [hc, ht] at h
              rw [consEntry] at h
              injection h with hfr
              subst hfr
              rw [lookupK]
              simp only [hk, if_false]
              exact AME_lookup_none ht hf

theorem collectAdds_lookup_none {s : String} : ∀ {ops : Diff},
    findOpK ops s = none → lookupK s (collectAdds ops) = none := by
  intro ops
  induction ops with
  | nil => intro _; rfl
  | cons op rest ih =>
    intro hf
    cases op with
    | add key w =>
      cases key with
      | k s2 =>
        by_cases hs : s2 = s
        · subst hs
          rw [findOpK_cons_pos (by simp [opKey])] at hf
          cases hf
        · rw [collectAdds, lookupK]
          simp only [hs, if_false]
          rw [findOpK_cons_neg (by simp [opKey, hs])] at hf
          exact ih hf
      | i n =>
        rw [collectAdds]
        rw [findOpK_cons_neg (by simp [opKey])] at hf
        exact ih hf
      | root =>
        rw [collectAdds]
        rw [findOpK_cons_neg (by simp [opKey])] at hf
        exact ih hf
    | remove key =>
      rw [collectAdds]
      by_cases hs : (opKey (DiffOp.remove key) == Key.k s) = true
      · rw [findOpK_cons_pos hs] at hf; cases hf
      · rw [findOpK_cons_neg (by simp_all)] at hf
        exact ih hf
    | replace key w =>
      rw [collectAdds]
      by_cases hs : (opKey (DiffOp.replace key w) == Key.k s) = true
      · rw [findOpK_cons_pos hs] at hf; cases hf
      · rw [findOpK_cons_neg (by simp_all)] at hf
        exact ih hf
    | patch key dd =>
      rw [collectAdds]
      by_cases hs : (opKey (DiffOp.patch key dd) == Key.k s) = true
      · rw [findOpK_cons_pos hs] at hf; cases hf
      · rw [findOpK_cons_neg (by simp_all)] at hf
        exact ih hf

theorem AME_lookup_replace {ops : Diff} {s : String} {key : Key} {w : Value} :
    ∀ {es front : List (String × Value)} {bc : Value},
      applyMapEntries ops es = .ok front →
      findOpK ops s = some (.replace key w) →
      lookupK s es = some bc →
      lookupK s front = some w
  | [], front, bc, h, _, hb => by
    rw [lookupK] at hb
    cases hb
  | (k, v) :: es, front, bc, h, hf, hb => by
    rw [lookupK] at hb
    by_cases hk : k = s
    · subst hk
      rw [applyMapEntries_cons_replace hf] at h
      cases ht : applyMapEntries ops es with
      | error e => rw [ht] at h; cases h
      | ok front2 =>
        rw [ht] at h
        rw [consEntry] at h
        injection h with hfr
        subst hfr
        rw [lookupK]
        simp
    · simp only [hk, if_false] at hb
      cases hop : findOpK ops k with
      | none =>
        rw [applyMapEntries_cons_none hop] at h
        cases ht : applyMapEntries ops es with
        | error e => rw [ht] at h; cases h
        | ok front2 =>
          rw [ht] at h
          rw [consEntry] at h
          injection h with hfr
          subst hfr
          rw [lookupK]
          simp only [hk, if_false]
          exact AME_lookup_replace ht hf hb
      | some op =>
        cases op with
        | add key2 w2 =>
          rw [applyMapEntries_cons_add hop] at h
          cases h
        | remove key2 =>
          rw [applyMapEntries_cons_remove hop] at h
          exact AME_lookup_replace h hf hb
        | replace key2 w2 =>
          rw [applyMapEntries_cons_replace hop] at h
          cases ht : applyMapEntries ops es with
          | error e => rw [ht] at h; cases h
          | ok front2 =>
            rw [ht] at h
            rw [consEntry] at h
            injection h with hfr
            subst hfr
            rw [lookupK]
            simp only [hk, if_false]
            exact AME_lookup_replace ht hf hb
        | patch key2 dd =>
          rw [applyMapEntries_cons_patch hop] at h
          cases hc : applyValue dd v with
          | error e => rw [hc] at h; rw [consEntry] at h; cases h
          | ok c =>
            cases ht : applyMapEntries ops es with
            | error e => rw [hc, ht] at h; rw [consEntry] at h; cases h
            | ok front2 =>
              rw [hc, ht] at h
              rw [consEntry] at h
              injection h with hfr
              subst hfr
              rw [lookupK]
              simp only [hk, if_false]
              exact AME_lookup_replace ht hf hb

theorem findOpK_append (s : String) : ∀ (as bs : Diff),
    findOpK (as ++ bs) s =
      (match findOpK as s with
       | some op => some op
       | none => findOpK bs s)
  | [], bs => by simp [findOpK]
  | op :: as, bs => by
    rw [List.cons_append]
    by_cases hk : (opKey op == Key.k s) = true
    · rw [findOpK_cons_pos hk, findOpK_cons_pos hk]
    · have hk2 : (opKey op == Key.k s) = false := by
        cases h2 : (opKey op == Key.k s) with
        | true => exact absurd h2 hk
        | false => rfl
      rw [findOpK_cons_neg hk2, findOpK_cons_neg hk2]
      exact findOpK_append s as bs

theorem rOnly_keyed {l r : Diff} {op : DiffOp} (hm : op ∈ rOnly l r) :
    ∃ s, opKeyStr op = some s ∧ hasOpK l s = false := by
  rw [rOnly] at hm
  obtain ⟨op0, hm0, hf⟩ := List.mem_filterMap.mp hm
  cases hk : opKeyStr op0 with
  | none => rw [hk] at hf; cases hf
  | some s =>
    rw [hk] at hf
    simp only at hf
    by_cases hh : hasOpK l s = true
    · rw [if_pos hh] at hf; cases hf
    · have hh2 : hasOpK l s = false := by
        cases h2 : hasOpK l s with
        | true => exact absurd h2 hh
        | false => rfl
      rw [if_neg hh] at hf
      injection hf with hop
      subst hop
      exact ⟨s, hk, hh2⟩

theorem rOnly_find_none {l r : Diff} {s : String} (h : hasOpK l s = true) :
    findOpK (rOnly l r) s = none := by
  rw [findOpK, List.find?_eq_none]
  intro op hm
  obtain ⟨s2, hk2, hh2⟩ := rOnly_keyed hm
  rw [opKeyStr_eq_some.mp hk2]
  intro hbeq
  rw [beq_iff_eq] at hbeq
  injection hbeq with hs
  subst hs
  rw [h] at hh2
  cases hh2

/-- The conflict characterization at a mapping key: either the key is
left untouched by the effective diff, or (nested Patch-vs-Patch) the
effective diff installs there the merged nested result whose conflicts
include the nested remainder. -/
def confAt (es : List (String × Value)) (r : Diff) (applied : Diff) (lops : Diff)
    (c : Conflict) (s : String) : Prop :=
  (c.path = [Key.k s] ∧ findOpK applied s = none ∧ ∃ op1 ∈ lops, opKeyStr op1 = some s)
  ∨ (∃ bc d1 d2 c2,
       lookupK s es = some bc ∧
       DiffOp.patch (Key.k s) d1 ∈ lops ∧
       findOpK r s = some (DiffOp.patch (Key.k s) d2) ∧
       findOpK applied s = some (DiffOp.replace (Key.k s) (mergeValue bc d1 d2).1) ∧
       c2 ∈ (mergeValue bc d1 d2).2 ∧
       c = nestConflict (Key.k s) c2)

theorem confAt_mem_lift {es : List (String × Value)} {r applied lops : Diff}
    {c : Conflict} {s : String} (op0 : DiffOp)
    (h : confAt es r applied lops c s) : confAt es r applied (op0 :: lops) c s := by
  rcases h with ⟨h1, h2, op1, hm, hk⟩ | ⟨bc, d1, d2, c2, h1, h2, h3, h4, h5, h6⟩
  · exact Or.inl ⟨h1, h2, op1, List.mem_cons_of_mem _ hm, hk⟩
  · exact Or.inr ⟨bc, d1, d2, c2, h1, List.mem_cons_of_mem _ h2, h3, h4, h5, h6⟩

theorem confAt_cons_lift {es : List (String × Value)} {r applied lops : Diff}
    {c : Conflict} {s : String} (a0 l0 : DiffOp)
    (hne : (opKey a0 == Key.k s) = false)
    (h : confAt es r applied lops c s) : confAt es r (a0 :: applied) (l0 :: lops) c s := by
  rcases h with ⟨h1, h2, op1, hm, hk⟩ | ⟨bc, d1, d2, c2, h1, h2, h3, h4, h5, h6⟩
  · exact Or.inl ⟨h1, by rw [findOpK_cons_neg hne]; exact h2,
      op1, List.mem_cons_of_mem _ hm, hk⟩
  · exact Or.inr ⟨bc, d1, d2, c2, h1, List.mem_cons_of_mem _ h2, h3,
      by rw [findOpK_cons_neg hne]; exact h4, h5, h6⟩

set_option maxHeartbeats 2000000 in
theorem walkL_out_none :
    ∀ (es : List (String × Value)) (r : Diff) (lops : Diff) (seen : List String) (s : String),
      seen.contains s = true →
      findOpK (walkL es r seen lops).1 s = none
  | es, r, [], seen, s, _ => by rw [walkL]; rfl
  | es, r, op :: rest, seen, s, hcont => by
    rw [walkL]
    cases hks : opKeyStr op with
    | none =>
      exact walkL_out_none es r rest seen s hcont
    | some s2 =>
      simp only
      cases hseen : seen.contains s2 with
      | true =>
        rw [if_pos rfl]
        exact walkL_out_none es r rest seen s hcont
      | false =>
        simp only [Bool.false_eq_true, if_false]
        have hs2 : s2 ≠ s := by
          intro he
          subst he
          rw [hseen] at hcont
          cases hcont
        have hne : (opKey op == Key.k s) = false := by
          rw [opKeyStr_eq_some.mp hks]
          simp [hs2]
        have htail := walkL_out_none es r rest (s2 :: seen) s
          (by rw [List.contains_cons, hcont]; simp)
        split
        · rw [findOpK_cons_neg hne]
          exact htail
        · split
          · rw [findOpK_cons_neg hne]
            exact htail
          · split
            · split
              · rw [findOpK_cons_neg (by rw [opKey]; simp [hs2])]
                exact htail
              · exact htail
            · exact htail
termination_by _ _ lops _ _ _ => sizeOf lops
decreasing_by all_goals simp_arith

set_option maxHeartbeats 2000000 in
theorem walkL_fst_keyed :
    ∀ (es : List (String × Value)) (r : Diff) (lops : Diff) (seen : List String) (op2 : DiffOp),
      op2 ∈ (walkL es r seen lops).1 → ∃ s, opKeyStr op2 = some s
  | es, r, [], seen, op2, h => by rw [walkL] at h; cases h
  | es, r, op :: rest, seen, op2, h => by
    rw [walkL] at h
    revert h
    cases hks : opKeyStr op with
    | none =>
      intro h
      exact walkL_fst_keyed es r rest seen op2 h
    | some s2 =>
      simp only
      cases hseen : seen.contains s2 with
      | true =>
        rw [if_pos rfl]
        intro h
        exact walkL_fst_keyed es r rest seen op2 h
      | false =>
        simp only [Bool.false_eq_true, if_false]
        split
        · intro h
          rcases List.mem_cons.mp h with h2 | h2
          · subst h2; exact ⟨s2, hks⟩
          · exact walkL_fst_keyed es r rest (s2 :: seen) op2 h2
        · split
          · intro h
            rcases List.mem_cons.mp h with h2 | h2
            · subst h2; exact ⟨s2, hks⟩
            · exact walkL_fst_keyed es r rest (s2 :: seen) op2 h2
          · split
            · split
              · intro h
                rcases List.mem_cons.mp h with h2 | h2
                · subst h2
                  exact ⟨s2, by rw [opKeyStr, opKey]⟩
                · exact walkL_fst_keyed es r rest (s2 :: seen) op2 h2
              · intro h
                exact walkL_fst_keyed es r rest (s2 :: seen) op2 h
            · intro h
              exact walkL_fst_keyed es r rest (s2 :: seen) op2 h
termination_by _ _ lops _ _ _ => sizeOf lops
decreasing_by all_goals simp_arith

set_option maxHeartbeats 2000000 in
theorem walkL_cons_nokey {es : List (String × Value)} {r : Diff} {op : DiffOp}
    {rest : Diff} {seen : List String} (hks : opKeyStr op = none) :
    walkL es r seen (op :: rest) = walkL es r seen rest := by
  rw [walkL, hks]

set_option maxHeartbeats 2000000 in
theorem walkL_cons_seen {es : List (String × Value)} {r : Diff} {op : DiffOp}
    {rest : Diff} {seen : List String} {s2 : String}
    (hks : opKeyStr op = some s2) (hseen : seen.contains s2 = true) :
    walkL es r seen (op :: rest) = walkL es r seen rest := by
  rw [walkL, hks]
  simp only [hseen, if_true]

set_option maxHeartbeats 2000000 in
theorem walkL_cons_nofind {es : List (String × Value)} {r : Diff} {op : DiffOp}
    {rest : Diff} {seen : List String} {s2 : String}
    (hks : opKeyStr op = some s2) (hseen : seen.contains s2 = false)
    (hfr : findOpK r s2 = none) :
    walkL es r seen (op :: rest) =
      (op :: (walkL es r (s2 :: seen) rest).1, (walkL es r (s2 :: seen) rest).2) := by
  rw [walkL, hks]
  simp only [hseen, Bool.false_eq_true, if_false]
  split
  · rfl
  · rename_i o2 heq
    rw [hfr] at heq
    cases heq

set_option maxHeartbeats 2000000 in
theorem walkL_cons_same {es : List (String × Value)} {r : Diff} {op o2 : DiffOp}
    {rest : Diff} {seen : List String} {s2 : String}
    (hks : opKeyStr op = some s2) (hseen : seen.contains s2 = false)
    (hfr : findOpK r s2 = some o2) (hbeq : beqOp op o2 = true) :
    walkL es r seen (op :: rest) =
      (op :: (walkL es r (s2 :: seen) rest).1, (walkL es r (s2 :: seen) rest).2) := by
  rw [walkL, hks]
  simp only [hseen, Bool.false_eq_true, if_false]
  split
  · rename_i heq
    exact absurd heq (by rw [hfr]; simp)
  · rename_i o3 heq
    rw [hfr] at heq
    injection heq with ho
    subst ho
    simp [hbeq]

set_option maxHeartbeats 2000000 in
theorem walkL_cons_pp_some {es : List (String × Value)} {r : Diff} {d1 d2 : Diff}
    {k2 : Key} {rest : Diff} {seen : List String} {s2 : String} {bc : Value}
    (hseen : seen.contains s2 = false)
    (hfr : findOpK r s2 = some (.patch k2 d2))
    (hbeq : beqOp (.patch (.k s2) d1) (.patch k2 d2) = false)
    (hb : lookupK s2 es = some bc) :
    walkL es r seen (.patch (.k s2) d1 :: rest) =
      (.replace (.k s2) (mergeValue bc d1 d2).1 :: (walkL es r (s2 :: seen) rest).1,
       ((mergeValue bc d1 d2).2).map (nestConflict (.k s2)) ++ (walkL es r (s2 :: seen) rest).2) := by
  have hks : opKeyStr (DiffOp.patch (Key.k s2) d1) = some s2 := by
    rw [opKeyStr, opKey]
  rw [walkL, hks]
  simp only [hseen, Bool.false_eq_true, if_false]
  split
  · rename_i heq
    exact absurd heq (by rw [hfr]; simp)
  · rename_i o3 heq
    rw [hfr] at heq
    injection heq with ho
    subst ho
    simp only [hbeq, Bool.false_eq_true, if_false]
    split
    · rename_i bc2 heq2
      rw [hb] at heq2
      injection heq2 with hbc
      subst hbc
      rfl
    · rename_i heq2
      rw [hb] at heq2
      cases heq2

set_option maxHeartbeats 2000000 in
theorem walkL_cons_pp_none {es : List (String × Value)} {r : Diff} {d1 d2 : Diff}
    {k2 : Key} {rest : Diff} {seen : List String} {s2 : String}
    (hseen : seen.contains s2 = false)
    (hfr : findOpK r s2 = some (.patch k2 d2))
    (hbeq : beqOp (.patch (.k s2) d1) (.patch k2 d2) = false)
    (hb : lookupK s2 es = none) :
    walkL es r seen (.patch (.k s2) d1 :: rest) =
      ((walkL es r (s2 :: seen) rest).1,
       ⟨[Key.k s2], some (.patch (.k s2) d1), some (.patch k2 d2), .unresolved⟩
         :: (walkL es r (s2 :: seen) rest).2) := by
  have hks : opKeyStr (DiffOp.patch (Key.k s2) d1) = some s2 := by
    rw [opKeyStr, opKey]
  rw [walkL, hks]
  simp only [hseen, Bool.false_eq_true, if_false]
  split
  · rename_i heq
    exact absurd heq (by rw [hfr]; simp)
  · rename_i o3 heq
    rw [hfr] at heq
    injection heq with ho
    subst ho
    simp only [hbeq, Bool.false_eq_true, if_false]
    split
    · rename_i bc2 heq2
      rw [hb] at heq2
      cases heq2
    · rfl

set_option maxHeartbeats 2000000 in
theorem walkL_cons_flat {es : List (String × Value)} {r : Diff} {op o2 : DiffOp}
    {rest : Diff} {seen : List String} {s2 : String}
    (hks : opKeyStr op = some s2) (hseen : seen.contains s2 = false)
    (hfr : findOpK r s2 = some o2) (hbeq : beqOp op o2 = false)
    (hnp : ∀ k1 dd1 k2 dd2, op = .patch k1 dd1 → o2 = .patch k2 dd2 → False) :
    walkL es r seen (op :: rest) =
      ((walkL es r (s2 :: seen) rest).1,
       ⟨[Key.k s2], some op, some o2, .unresolved⟩ :: (walkL es r (s2 :: seen) rest).2) := by
  rw [walkL, hks]
  simp only [hseen, Bool.false_eq_true, if_false]
  split
  · rename_i heq
    exact absurd heq (by rw [hfr]; simp)
  · rename_i o3 heq
    rw [hfr] at heq
    injection heq with ho
    subst ho
    simp only [hbeq, Bool.false_eq_true, if_false]
    split
    · rename_i dd1 dd2
      exact absurd rfl (fun h2 => hnp _ _ _ _ h2 rfl)
    · rfl

set_option maxHeartbeats 2000000 in
theorem walkL_conf :
    ∀ (es : List (String × Value)) (r : Diff) (lops : Diff) (seen : List String) (c : Conflict),
      c ∈ (walkL es r seen lops).2 →
      ∃ s, seen.contains s = false ∧ confAt es r (walkL es r seen lops).1 lops c s
  | es, r, [], seen, c, h => by
    rw [walkL] at h
    cases h
  | es, r, op :: rest, seen, c, h => by
    cases hks : opKeyStr op with
    | none =>
      rw [walkL_cons_nokey hks] at h ⊢
      obtain ⟨s, hcont, hconf⟩ := walkL_conf es r rest seen c h
      exact ⟨s, hcont, confAt_mem_lift _ hconf⟩
    | some s2 =>
      cases hseen : seen.contains s2 with
      | true =>
        rw [walkL_cons_seen hks hseen] at h ⊢
        obtain ⟨s, hcont, hconf⟩ := walkL_conf es r rest seen c h
        exact ⟨s, hcont, confAt_mem_lift _ hconf⟩
      | false =>
        cases hfr : findOpK r s2 with
        | none =>
          rw [walkL_cons_nofind hks hseen hfr] at h ⊢
          obtain ⟨s, hcont, hconf⟩ := walkL_conf es r rest (s2 :: seen) c h
          have h3 := hcont
          rw [List.contains_cons, Bool.or_eq_false_iff] at h3
          have hne2 : (opKey op == Key.k s) = false := by
            rw [opKeyStr_eq_some.mp hks]
            have hss : s2 ≠ s := fun he => by subst he; simp at h3
            simp [hss]
          exact ⟨s, h3.2, confAt_cons_lift _ _ hne2 hconf⟩
        | some o2 =>
          cases hbeq : beqOp op o2 with
          | true =>
            rw [walkL_cons_same hks hseen hfr hbeq] at h ⊢
            obtain ⟨s, hcont, hconf⟩ := walkL_conf es r rest (s2 :: seen) c h
            have h3 := hcont
            rw [List.contains_cons, Bool.or_eq_false_iff] at h3
            have hne2 : (opKey op == Key.k s) = false := by
              rw [opKeyStr_eq_some.mp hks]
              have hss : s2 ≠ s := fun he => by subst he; simp at h3
              simp [hss]
            exact ⟨s, h3.2, confAt_cons_lift _ _ hne2 hconf⟩
          | false =>
            cases op with
            | add key1 w1 =>
              rw [walkL_cons_flat hks hseen hfr hbeq (fun _ _ _ _ hop _ => DiffOp.noConfusion hop)] at h ⊢
              rcases List.mem_cons.mp h with hceq | h2
              · subst hceq
                refine ⟨s2, hseen, Or.inl ⟨rfl, ?_, DiffOp.add key1 w1, List.mem_cons_self _ _, hks⟩⟩
                exact walkL_out_none es r rest (s2 :: seen) s2
                  (by rw [List.contains_cons]; simp)
              · obtain ⟨s, hcont, hconf⟩ := walkL_conf es r rest (s2 :: seen) c h2
                have h3 := hcont
                rw [List.contains_cons, Bool.or_eq_false_iff] at h3
                exact ⟨s, h3.2, confAt_mem_lift _ hconf⟩
            | remove key1 =>
              rw [walkL_cons_flat hks hseen hfr hbeq (fun _ _ _ _ hop _ => DiffOp.noConfusion hop)] at h ⊢
              rcases List.mem_cons.mp h with hceq | h2
              · subst hceq
                refine ⟨s2, hseen, Or.inl ⟨rfl, ?_, DiffOp.remove key1, List.mem_cons_self _ _, hks⟩⟩
                exact walkL_out_none es r rest (s2 :: seen) s2
                  (by rw [List.contains_cons]; simp)
              · obtain ⟨s, hcont, hconf⟩ := walkL_conf es r rest (s2 :: seen) c h2
                have h3 := hcont
                rw [List.contains_cons, Bool.or_eq_false_iff] at h3
                exact ⟨s, h3.2, confAt_mem_lift _ hconf⟩
            | replace key1 w1 =>
              rw [walkL_cons_flat hks hseen hfr hbeq (fun _ _ _ _ hop _ => DiffOp.noConfusion hop)] at h ⊢
              rcases List.mem_cons.mp h with hceq | h2
              · subst hceq
                refine ⟨s2, hseen, Or.inl ⟨rfl, ?_, DiffOp.replace key1 w1, List.mem_cons_self _ _, hks⟩⟩
                exact walkL_out_none es r rest (s2 :: seen) s2
                  (by rw [List.contains_cons]; simp)
              · obtain ⟨s, hcont, hconf⟩ := walkL_conf es r rest (s2 :: seen) c h2
                have h3 := hcont
                rw [List.contains_cons, Bool.or_eq_false_iff] at h3
                exact ⟨s, h3.2, confAt_mem_lift _ hconf⟩
            | patch k1 d1 =>
              cases o2 with
              | add key2 w2 =>
              rw [walkL_cons_flat hks hseen hfr hbeq (fun _ _ _ _ _ ho2 => DiffOp.noConfusion ho2)] at h ⊢
              rcases List.mem_cons.mp h with hceq | h2
              · subst hceq
                refine ⟨s2, hseen, Or.inl ⟨rfl, ?_, DiffOp.patch k1 d1, List.mem_cons_self _ _, hks⟩⟩
                exact walkL_out_none es r rest (s2 :: seen) s2
                  (by rw [List.contains_cons]; simp)
              · obtain ⟨s, hcont, hconf⟩ := walkL_conf es r rest (s2 :: seen) c h2
                have h3 := hcont
                rw [List.contains_cons, Bool.or_eq_false_iff] at h3
                exact ⟨s, h3.2, confAt_mem_lift _ hconf⟩
              | remove key2 =>
              rw [walkL_cons_flat hks hseen hfr hbeq (fun _ _ _ _ _ ho2 => DiffOp.noConfusion ho2)] at h ⊢
              rcases List.mem_cons.mp h with hceq | h2
              · subst hceq
                refine ⟨s2, hseen, Or.inl ⟨rfl, ?_, DiffOp.patch k1 d1, List.mem_cons_self _ _, hks⟩⟩
                exact walkL_out_none es r rest (s2 :: seen) s2
                  (by rw [List.contains_cons]; simp)
              · obtain ⟨s, hcont, hconf⟩ := walkL_conf es r rest (s2 :: seen) c h2
                have h3 := hcont
                rw [List.contains_cons, Bool.or_eq_false_iff] at h3
                exact ⟨s, h3.2, confAt_mem_lift _ hconf⟩
              | replace key2 w2 =>
              rw [walkL_cons_flat hks hseen hfr hbeq (fun _ _ _ _ _ ho2 => DiffOp.noConfusion ho2)] at h ⊢
              rcases List.mem_cons.mp h with hceq | h2
              · subst hceq
                refine ⟨s2, hseen, Or.inl ⟨rfl, ?_, DiffOp.patch k1 d1, List.mem_cons_self _ _, hks⟩⟩
                exact walkL_out_none es r rest (s2 :: seen) s2
                  (by rw [List.contains_cons]; simp)
              · obtain ⟨s, hcont, hconf⟩ := walkL_conf es r rest (s2 :: seen) c h2
                have h3 := hcont
                rw [List.contains_cons, Bool.or_eq_false_iff] at h3
                exact ⟨s, h3.2, confAt_mem_lift _ hconf⟩
              | patch k2 d2 =>
                have hk1 : k1 = Key.k s2 := by
                  rw [opKeyStr, opKey] at hks
                  cases k1 with
                  | k s3 =>
                    simp only at hks
                    injection hks with hs3
                    rw [hs3]
                  | i n => cases hks
                  | root => cases hks
                subst hk1
                cases hb : lookupK s2 es with
                | some bc =>
                  rw [walkL_cons_pp_some hseen hfr hbeq hb] at h ⊢
                  rcases List.mem_append.mp h with h2 | h2
                  · obtain ⟨c2, hc2, hceq⟩ := List.mem_map.mp h2
                    refine ⟨s2, hseen, Or.inr ⟨bc, d1, d2, c2, hb,
                      List.mem_cons_self _ _, ?_, ?_, hc2, hceq.symm⟩⟩
                    · have hk2 : opKey (DiffOp.patch k2 d2) = Key.k s2 := (findOpK_mem hfr).2
                      rw [opKey] at hk2
                      rw [hk2] at hfr
                      exact hfr
                    · exact findOpK_cons_pos (by rw [opKey]; simp)
                  · obtain ⟨s, hcont, hconf⟩ := walkL_conf es r rest (s2 :: seen) c h2
                    have h3 := hcont
                    rw [List.contains_cons, Bool.or_eq_false_iff] at h3
                    have hss : s2 ≠ s := fun he => by subst he; simp at h3
                    refine ⟨s, h3.2, confAt_cons_lift _ _ ?_ hconf⟩
                    rw [opKey]
                    simp [hss]
                | none =>
                  rw [walkL_cons_pp_none hseen hfr hbeq hb] at h ⊢
                  rcases List.mem_cons.mp h with hceq | h2
                  · subst hceq
                    refine ⟨s2, hseen, Or.inl ⟨rfl, ?_, DiffOp.patch (Key.k s2) d1,
                      List.mem_cons_self _ _, by rw [opKeyStr, opKey]⟩⟩
                    exact walkL_out_none es r rest (s2 :: seen) s2
                      (by rw [List.contains_cons]; simp)
                  · obtain ⟨s, hcont, hconf⟩ := walkL_conf es r rest (s2 :: seen) c h2
                    have h3 := hcont
                    rw [List.contains_cons, Bool.or_eq_false_iff] at h3
                    exact ⟨s, h3.2, confAt_mem_lift _ hconf⟩
termination_by _ _ lops _ _ _ => sizeOf lops
decreasing_by all_goals simp_arith

theorem elemPart_pp {l r : Diff} {j : Nat} {x : Value} {sh : Bool}
    {k1 k2 : Key} {d1 d2 : Diff}
    (hfl : findElemOp l j = some (.patch k1 d1))
    (hfr2 : findElemOp r j = some (.patch k2 d2))
    (hbeq : beqOp (.patch k1 d1) (.patch k2 d2) = false) :
    elemPart l r sh j x = [(mergeValue x d1 d2).1] := by
  rw [elemPart]
  split
  · rename_i heq1 heq2
    exact absurd heq1 (by rw [hfl]; simp)
  · rename_i o heq1 heq2
    exact absurd heq2 (by rw [hfr2]; simp)
  · rename_i o heq1 heq2
    exact absurd heq1 (by rw [hfl]; simp)
  · rename_i o1 o2 heq1 heq2
    rw [hfl] at heq1
    rw [hfr2] at heq2
    injection heq1 with h1
    injection heq2 with h2
    subst h1
    subst h2
    simp [hbeq]

theorem elemPart_flat {l r : Diff} {j : Nat} {x : Value} {sh : Bool} {o1 o2 : DiffOp}
    (hfl : findElemOp l j = some o1)
    (hfr2 : findElemOp r j = some o2)
    (hbeq : beqOp o1 o2 = false)
    (hnp : ∀ kk1 dd1 kk2 dd2, o1 = .patch kk1 dd1 → o2 = .patch kk2 dd2 → False) :
    elemPart l r sh j x = [x] := by
  rw [elemPart]
  split
  · rename_i heq1 heq2
    exact absurd heq1 (by rw [hfl]; simp)
  · rename_i o heq1 heq2
    exact absurd heq2 (by rw [hfr2]; simp)
  · rename_i o heq1 heq2
    exact absurd heq1 (by rw [hfl]; simp)
  · rename_i o3 o4 heq1 heq2
    rw [hfl] at heq1
    rw [hfr2] at heq2
    injection heq1 with h1
    injection heq2 with h2
    subst h1
    subst h2
    simp only [hbeq, Bool.false_eq_true, if_false]
    split
    · rename_i dd1 dd2
      exact absurd rfl (fun hh => hnp _ _ _ _ hh rfl)
    · rfl

theorem applyElemOp_false_single (x : Value) (o : DiffOp) :
    ∃ e, applyElemOp x o false = [e] := by
  cases o with
  | add key w => exact ⟨x, by rw [applyElemOp]⟩
  | remove key => exact ⟨x, by rw [applyElemOp]; simp⟩
  | replace key w => exact ⟨w, by rw [applyElemOp]⟩
  | patch key dd => exact ⟨applyTotal dd x, by rw [applyElemOp]⟩

theorem elemPart_single (l r : Diff) (j : Nat) (x : Value) :
    ∃ e, elemPart l r false j x = [e] := by
  rw [elemPart]
  split
  · exact ⟨x, rfl⟩
  · rename_i o heq1 heq2
    exact applyElemOp_false_single x o
  · rename_i o heq1 heq2
    exact applyElemOp_false_single x o
  · rename_i o1 o2 heq1 heq2
    cases hbeq : beqOp o1 o2 with
    | true =>
      simp only [hbeq, if_true]
      exact applyElemOp_false_single x o1
    | false =>
      simp only [hbeq, Bool.false_eq_true, if_false]
      split
      · exact ⟨_, rfl⟩
      · exact ⟨x, rfl⟩

theorem seqMergeF_get (l r : Diff) : ∀ (xs : List Value) (j k : Nat) (x e : Value),
    xs.get? k = some x → elemPart l r false (j + k) x = [e] →
    (seqMerge l r false j xs).get? k = some e
  | [], j, k, x, e, hg, _ => by simp at hg
  | y :: ys, j, 0, x, e, hg, he => by
    simp only [List.get?] at hg
    injection hg with hy
    subst hy
    rw [seqMerge]
    simp only [Bool.false_eq_true, if_false, List.nil_append]
    have he2 : elemPart l r false j y = [e] := he
    rw [he2]
    simp
  | y :: ys, j, k+1, x, e, hg, he => by
    simp only [List.get?] at hg
    rw [seqMerge]
    simp only [Bool.false_eq_true, if_false, List.nil_append]
    obtain ⟨e1, he1⟩ := elemPart_single l r j y
    rw [he1]
    rw [List.singleton_append, List.get?_cons_succ]
    exact seqMergeF_get l r ys (j+1) k x e hg
      (by rw [show j + 1 + k = j + (k+1) from by omega]; exact he)
termination_by xs _ k _ _ _ _ => sizeOf xs
decreasing_by all_goals simp_arith

set_option maxHeartbeats 2000000 in
theorem seqConflicts_conf (l r : Diff) : ∀ (xs : List Value) (j : Nat) (c : Conflict),
    c ∈ seqConflicts l r j xs →
    ∃ jj x, j ≤ jj ∧ xs.get? (jj - j) = some x ∧
      ( (c.path = [Key.i jj] ∧ elemPart l r false jj x = [x])
      ∨ (∃ k1 d1 k2 d2 c2,
           findElemOp l jj = some (.patch k1 d1) ∧
           findElemOp r jj = some (.patch k2 d2) ∧
           elemPart l r false jj x = [(mergeValue x d1 d2).1] ∧
           c2 ∈ (mergeValue x d1 d2).2 ∧
           c = nestConflict (Key.i jj) c2) )
  | [], j, c, h => by rw [seqConflicts] at h; cases h
  | y :: ys, j, c, h => by
    rw [seqConflicts] at h
    rcases List.mem_append.mp h with h2 | h2
    · revert h2
      split
      · rename_i o1 o2 heq1 heq2
        cases hbeq : beqOp o1 o2 with
        | true =>
          simp only [hbeq, if_true]
          intro h2
          cases h2
        | false =>
          simp only [hbeq, Bool.false_eq_true, if_false]
          cases o1 with
          | add key1 w1 =>
            intro h2
            have hceq := List.mem_singleton.mp h2
            subst hceq
            refine ⟨j, y, le_rfl, by simp, Or.inl ⟨rfl, ?_⟩⟩
            exact elemPart_flat heq1 heq2 hbeq (fun _ _ _ _ hh1 _ => DiffOp.noConfusion hh1)
          | remove key1 =>
            intro h2
            have hceq := List.mem_singleton.mp h2
            subst hceq
            refine ⟨j, y, le_rfl, by simp, Or.inl ⟨rfl, ?_⟩⟩
            exact elemPart_flat heq1 heq2 hbeq (fun _ _ _ _ hh1 _ => DiffOp.noConfusion hh1)
          | replace key1 w1 =>
            intro h2
            have hceq := List.mem_singleton.mp h2
            subst hceq
            refine ⟨j, y, le_rfl, by simp, Or.inl ⟨rfl, ?_⟩⟩
            exact elemPart_flat heq1 heq2 hbeq (fun _ _ _ _ hh1 _ => DiffOp.noConfusion hh1)
          | patch k1 d1 =>
            cases o2 with
            | add key2 w2 =>
              intro h2
              have hceq := List.mem_singleton.mp h2
              subst hceq
              refine ⟨j, y, le_rfl, by simp, Or.inl ⟨rfl, ?_⟩⟩
              exact elemPart_flat heq1 heq2 hbeq (fun _ _ _ _ _ hh2 => DiffOp.noConfusion hh2)
            | remove key2 =>
              intro h2
              have hceq := List.mem_singleton.mp h2
              subst hceq
              refine ⟨j, y, le_rfl, by simp, Or.inl ⟨rfl, ?_⟩⟩
              exact elemPart_flat heq1 heq2 hbeq (fun _ _ _ _ _ hh2 => DiffOp.noConfusion hh2)
            | replace key2 w2 =>
              intro h2
              have hceq := List.mem_singleton.mp h2
              subst hceq
              refine ⟨j, y, le_rfl, by simp, Or.inl ⟨rfl, ?_⟩⟩
              exact elemPart_flat heq1 heq2 hbeq (fun _ _ _ _ _ hh2 => DiffOp.noConfusion hh2)
            | patch k2 d2 =>
              intro h2
              obtain ⟨c2, hc2, hceq⟩ := List.mem_map.mp h2
              refine ⟨j, y, le_rfl, by simp, Or.inr ⟨k1, d1, k2, d2, c2,
                heq1, heq2, ?_, hc2, hceq.symm⟩⟩
              exact elemPart_pp heq1 heq2 hbeq
      · intro h2
        cases h2
    · obtain ⟨jj, x, hle, hg, hdisj⟩ := seqConflicts_conf l r ys (j+1) c h2
      refine ⟨jj, x, by omega, ?_, hdisj⟩
      rw [show jj - j = (jj - (j+1)) + 1 from by omega]
      simpa using hg
termination_by xs _ _ _ => sizeOf xs
decreasing_by all_goals simp_arith

theorem applyOk_map_front {applied : Diff} {es : List (String × Value)} {wv : Value}
    (hroot2 : isRootReplaceSingleton applied = none)
    (h : applyValue applied (.map es) = .ok wv) :
    (applied = [] ∧ wv = .map es) ∨
    ∃ front, applyMapEntries applied es = .ok front ∧
      wv = .map (front ++ collectAdds applied) := by
  cases applied with
  | nil =>
    rw [applyValue] at h
    injection h with hv
    exact Or.inl ⟨rfl, hv.symm⟩
  | cons op rest =>
    rw [applyValue, hroot2, rootOr, applyContainer] at h
    by_cases hck : checkMapOps es (op :: rest) = true
    · rw [if_pos hck] at h
      cases hame : applyMapEntries (op :: rest) es with
      | error e => rw [hame] at h; simp [Except.map] at h
      | ok front =>
        rw [hame] at h
        simp only [Except.map] at h
        injection h with hv
        exact Or.inr ⟨front, rfl, hv.symm⟩
    · rw [if_neg hck] at h
      cases h

theorem hasRootOp_false_of_keyed {d : Diff}
    (h : ∀ op ∈ d, ∃ s, opKeyStr op = some s) : hasRootOp d = false := by
  rw [hasRootOp]
  rw [List.any_eq_false]
  intro op hm
  obtain ⟨s3, h3⟩ := h op hm
  rw [isRootOp, opKeyStr_eq_some.mp h3]
  simp

set_option maxHeartbeats 2000000 in
theorem C4core : ∀ (v : Value) (l r : Diff) (c : Conflict), c ∈ (mergeValue v l r).2 →
    getPath (mergeValue v l r).1 c.path = getPath v c.path
  | .null, l, r, c, hc => by
    rw [mergeValue] at hc ⊢
    by_cases hroot : (hasRootOp l || hasRootOp r) = true
    · rw [if_pos hroot] at hc ⊢
      by_cases hbd : beqD l r = true
      · rw [if_pos hbd] at hc
        simp at hc
      · rw [if_neg hbd] at hc ⊢
        by_cases hle : l.isEmpty = true
        · rw [if_pos hle] at hc
          simp at hc
        · rw [if_neg hle] at hc ⊢
          by_cases hre : r.isEmpty = true
          · rw [if_pos hre] at hc
            simp at hc
          · rw [if_neg hre] at hc ⊢
            try rfl
            try (have hceq := List.mem_singleton.mp hc; subst hceq; rfl)
    · rw [if_neg hroot] at hc ⊢
      rw [mergeContainer] at hc
      simp at hc
  | .bool b, l, r, c, hc => by
    rw [mergeValue] at hc ⊢
    by_cases hroot : (hasRootOp l || hasRootOp r) = true
    · rw [if_pos hroot] at hc ⊢
      by_cases hbd : beqD l r = true
      · rw [if_pos hbd] at hc
        simp at hc
      · rw [if_neg hbd] at hc ⊢
        by_cases hle : l.isEmpty = true
        · rw [if_pos hle] at hc
          simp at hc
        · rw [if_neg hle] at hc ⊢
          by_cases hre : r.isEmpty = true
          · rw [if_pos hre] at hc
            simp at hc
          · rw [if_neg hre] at hc ⊢
            try rfl
            try (have hceq := List.mem_singleton.mp hc; subst hceq; rfl)
    · rw [if_neg hroot] at hc ⊢
      rw [mergeContainer] at hc
      simp at hc
  | .num n, l, r, c, hc => by
    rw [mergeValue] at hc ⊢
    by_cases hroot : (hasRootOp l || hasRootOp r) = true
    · rw [if_pos hroot] at hc ⊢
      by_cases hbd : beqD l r = true
      · rw [if_pos hbd] at hc
        simp at hc
      · rw [if_neg hbd] at hc ⊢
        by_cases hle : l.isEmpty = true
        · rw [if_pos hle] at hc
          simp at hc
        · rw [if_neg hle] at hc ⊢
          by_cases hre : r.isEmpty = true
          · rw [if_pos hre] at hc
            simp at hc
          · rw [if_neg hre] at hc ⊢
            try rfl
            try (have hceq := List.mem_singleton.mp hc; subst hceq; rfl)
    · rw [if_neg hroot] at hc ⊢
      rw [mergeContainer] at hc
      simp at hc
  | .str st, l, r, c, hc => by
    rw [mergeValue] at hc ⊢
    by_cases hroot : (hasRootOp l || hasRootOp r) = true
    · rw [if_pos hroot] at hc ⊢
      by_cases hbd : beqD l r = true
      · rw [if_pos hbd] at hc
        simp at hc
      · rw [if_neg hbd] at hc ⊢
        by_cases hle : l.isEmpty = true
        · rw [if_pos hle] at hc
          simp at hc
        · rw [if_neg hle] at hc ⊢
          by_cases hre : r.isEmpty = true
          · rw [if_pos hre] at hc
            simp at hc
          · rw [if_neg hre] at hc ⊢
            try rfl
            try (have hceq := List.mem_singleton.mp hc; subst hceq; rfl)
    · rw [if_neg hroot] at hc ⊢
      rw [mergeContainer] at hc
      simp at hc
  | .map es, l, r, c, hc => by
    rw [mergeValue] at hc ⊢
    by_cases hroot : (hasRootOp l || hasRootOp r) = true
    · rw [if_pos hroot] at hc ⊢
      by_cases hbd : beqD l r = true
      · rw [if_pos hbd] at hc
        simp at hc
      · rw [if_neg hbd] at hc ⊢
        by_cases hle : l.isEmpty = true
        · rw [if_pos hle] at hc
          simp at hc
        · rw [if_neg hle] at hc ⊢
          by_cases hre : r.isEmpty = true
          · rw [if_pos hre] at hc
            simp at hc
          · rw [if_neg hre] at hc ⊢
            try rfl
            try (have hceq := List.mem_singleton.mp hc; subst hceq; rfl)
    · rw [if_neg hroot] at hc ⊢
      rw [mergeContainer] at hc ⊢
      have hc2 : c ∈ (walkL es r [] l).2 := hc
      obtain ⟨s, _, hconf⟩ := walkL_conf es r l [] c hc2
      show getPath (applyTotal ((walkL es r [] l).1 ++ rOnly l r) (.map es)) c.path
        = getPath (.map es) c.path
      cases happly : applyValue ((walkL es r [] l).1 ++ rOnly l r) (.map es) with
      | error e => rw [applyTotal_err happly]
      | ok wv =>
        rw [applyTotal_eq happly]
        have hkeys : ∀ op2 ∈ (walkL es r [] l).1 ++ rOnly l r,
            ∃ s3, opKeyStr op2 = some s3 := by
          intro op2 hm2
          rcases List.mem_append.mp hm2 with hm3 | hm3
          · exact walkL_fst_keyed es r l [] op2 hm3
          · obtain ⟨s3, h3, _⟩ := rOnly_keyed hm3
            exact ⟨s3, h3⟩
        have hroot2 : isRootReplaceSingleton ((walkL es r [] l).1 ++ rOnly l r) = none :=
          rootSingleton_none (hasRootOp_false_of_keyed hkeys)
        rcases hconf with ⟨hpath, hfind, op1, hop1mem, hop1key⟩ |
          ⟨bc, d1, d2, c2, hb, hd1mem, hfr, hfind, hc3, hceq⟩
        · have hfind2 : findOpK ((walkL es r [] l).1 ++ rOnly l r) s = none := by
            rw [findOpK_append, hfind]
            exact rOnly_find_none (hasOpK_of_mem hop1mem (opKeyStr_eq_some.mp hop1key))
          rcases applyOk_map_front hroot2 happly with ⟨hnil, hwv⟩ | ⟨front, hame, hwv⟩
          · subst hwv
            rfl
          · subst hwv
            rw [hpath]
            rw [getPath, getPath]
            have hlook : lookupK s
                (front ++ collectAdds ((walkL es r [] l).1 ++ rOnly l r)) = lookupK s es := by
              rw [lookupK_append]
              rw [AME_lookup_none hame hfind2]
              rw [collectAdds_lookup_none hfind2]
              cases hl2 : lookupK s es <;> rfl
            rw [hlook]
        · have hfind2 : findOpK ((walkL es r [] l).1 ++ rOnly l r) s
              = some (DiffOp.replace (Key.k s) (mergeValue bc d1 d2).1) := by
            rw [findOpK_append, hfind]
          rcases applyOk_map_front hroot2 happly with ⟨hnil, hwv⟩ | ⟨front, hame, hwv⟩
          · subst hwv
            rfl
          · subst hwv
            subst hceq
            have hlookf : lookupK s
                (front ++ collectAdds ((walkL es r [] l).1 ++ rOnly l r))
                = some (mergeValue bc d1 d2).1 := by
              rw [lookupK_append]
              rw [AME_lookup_replace hame hfind2 hb]
            simp only [nestConflict]
            rw [getPath, getPath]
            rw [hlookf, hb]
            have hsz1 : sizeOf bc < sizeOf es := lookupK_sizeOf hb
            have hsz2 : sizeOf d1 < sizeOf l := by
              have h2 := List.sizeOf_lt_of_mem hd1mem
              simp_arith at h2
              omega
            have hsz3 : sizeOf d2 < sizeOf r := by
              have h2 := sizeOf_find? hfr
              simp_arith at h2
              omega
            exact C4core bc d1 d2 c2 hc3
  | .seq xs, l, r, c, hc => by
    rw [mergeValue] at hc ⊢
    by_cases hroot : (hasRootOp l || hasRootOp r) = true
    · rw [if_pos hroot] at hc ⊢
      by_cases hbd : beqD l r = true
      · rw [if_pos hbd] at hc
        simp at hc
      · rw [if_neg hbd] at hc ⊢
        by_cases hle : l.isEmpty = true
        · rw [if_pos hle] at hc
          simp at hc
        · rw [if_neg hle] at hc ⊢
          by_cases hre : r.isEmpty = true
          · rw [if_pos hre] at hc
            simp at hc
          · rw [if_neg hre] at hc ⊢
            try rfl
            try (have hceq := List.mem_singleton.mp hc; subst hceq; rfl)
    · rw [if_neg hroot] at hc ⊢
      rw [mergeContainer] at hc ⊢
      have hc2 : c ∈ seqConflicts l r 0 xs := hc
      have hne2 : (seqConflicts l r 0 xs).isEmpty = false := by
        cases hcs : seqConflicts l r 0 xs with
        | nil => rw [hcs] at hc2; cases hc2
        | cons a as => rfl
      show getPath (.seq (seqMerge l r (seqConflicts l r 0 xs).isEmpty 0 xs)) c.path
        = getPath (.seq xs) c.path
      rw [hne2]
      obtain ⟨jj, x, _, hg, hdisj⟩ := seqConflicts_conf l r xs 0 c hc2
      rw [Nat.sub_zero] at hg
      rcases hdisj with ⟨hpath, hsingle⟩ |
        ⟨k1, d1, k2, d2, c2, hfl, hfr, hsingle, hc3, hceq⟩
      · rw [hpath]
        rw [getPath, getPath]
        have hmg := seqMergeF_get l r xs 0 jj x x hg
          (by rw [show 0 + jj = jj from by omega]; exact hsingle)
        rw [hmg, hg]
      · subst hceq
        simp only [nestConflict]
        rw [getPath, getPath]
        have hmg := seqMergeF_get l r xs 0 jj x ((mergeValue x d1 d2).1) hg
          (by rw [show 0 + jj = jj from by omega]; exact hsingle)
        rw [hmg, hg]
        have hsz1 : sizeOf x < sizeOf xs := sizeOf_get? hg
        have hsz2 : sizeOf d1 < sizeOf l := by
          have h2 := sizeOf_find? hfl
          simp_arith at h2
          have h3 := sizeOf_key_pos k1
          omega
        have hsz3 : sizeOf d2 < sizeOf r := by
          have h2 := sizeOf_find? hfr
          simp_arith at h2
          have h3 := sizeOf_key_pos k2
          omega
        exact C4core x d1 d2 c2 hc3
termination_by v l r _ _ => sizeOf v + sizeOf l + sizeOf r
decreasing_by all_goals (simp_arith; omega)

/-- C4: for every base Value and diffs d1, d2, at every Path present in
merge(base, d1, d2).conflicts the merged Value equals the base Value at
that Path (conservative default).  merge is a total Lean function, so it
never raises a hard failure on any input. -/
theorem C4_conservative_default (base : Value) (d1 d2 : Diff) :
    ∀ c ∈ (merge base d1 d2).conflicts,
      getPath (merge base d1 d2).merged c.path = getPath base c.path := by
  intro c hc
  exact C4core base d1 d2 c hc

/-- Witness for C4 at a concrete input: two different root replacements
conflict, and the merged value keeps the base at the conflicting (root)
path. -/
theorem C4_conservative_default_witness :
    (⟨[], some (DiffOp.replace Key.root (Value.num 2)),
       some (DiffOp.replace Key.root (Value.num 3)), ConflictState.unresolved⟩ : Conflict)
      ∈ (merge (Value.num 1) [DiffOp.replace Key.root (Value.num 2)]
          [DiffOp.replace Key.root (Value.num 3)]).conflicts ∧
    getPath (merge (Value.num 1) [DiffOp.replace Key.root (Value.num 2)]
          [DiffOp.replace Key.root (Value.num 3)]).merged []
      = getPath (Value.num 1) [] := by
  have hmem : (⟨[], some (DiffOp.replace Key.root (Value.num 2)),
       some (DiffOp.replace Key.root (Value.num 3)), ConflictState.unresolved⟩ : Conflict)
      ∈ (merge (Value.num 1) [DiffOp.replace Key.root (Value.num 2)]
          [DiffOp.replace Key.root (Value.num 3)]).conflicts := by
    simp [merge, mergeValue, hasRootOp, isRootOp, opKey, beqD, beqOp, beqV, List.head?]
  exact ⟨hmem, C4_conservative_default (Value.num 1)
    [DiffOp.replace Key.root (Value.num 2)] [DiffOp.replace Key.root (Value.num 3)]
    ⟨[], some (DiffOp.replace Key.root (Value.num 2)),
       some (DiffOp.replace Key.root (Value.num 3)), ConflictState.unresolved⟩ hmem⟩

/-! ## Round-trip law (claim C2 support) -/

theorem rootRoundtrip {a b : Value} (hwb : wfV b = true) :
    ∃ c, applyValue [.replace .root b] a = .ok c ∧ eqv c b = true := by
  refine ⟨b, ?_, eqv_refl b hwb⟩
  rw [applyValue]
  rfl

theorem eqvAt_of_pointwise {G : List (String × Value)} : ∀ {fs2 : List (String × Value)},
    (∀ k w, (k, w) ∈ fs2 → ∃ c, lookupK k G = some c ∧ eqv c w = true) →
    eqvAt G fs2 = true := by
  intro fs2
  induction fs2 with
  | nil => intro _; rw [eqvAt]
  | cons e fs2 ih =>
    obtain ⟨k, w⟩ := e
    intro h
    obtain ⟨c, hl, he⟩ := h k w (List.mem_cons_self _ _)
    rw [eqvAt, hl]
    simp only
    rw [he, ih (fun k2 w2 hm => h k2 w2 (List.mem_cons_of_mem _ hm))]
    rfl

theorem subKeysChk_of {G fs : List (String × Value)}
    (h : ∀ e ∈ G, hasKeyK e.1 fs = true) : subKeysChk G fs = true := by
  rw [subKeysChk, List.all_eq_true]
  exact h

theorem seqDiffRec_keys : ∀ (xs ys : List Value) (i : Nat) (op : DiffOp),
    op ∈ seqDiffRec i xs ys → ∃ j, opKey op = .i j ∧ i ≤ j
  | [], [], i, op, h => by rw [seqDiffRec] at h; cases h
  | [], y :: ys, i, op, h => by
    rw [seqDiffRec] at h
    rcases List.mem_cons.mp h with h2 | h2
    · subst h2; exact ⟨i, by rw [opKey], le_rfl⟩
    · exact seqDiffRec_keys [] ys i op h2
  | x :: xs, [], i, op, h => by
    rw [seqDiffRec] at h
    rcases List.mem_cons.mp h with h2 | h2
    · subst h2; exact ⟨i, by rw [opKey], le_rfl⟩
    · obtain ⟨j, hk, hle⟩ := seqDiffRec_keys xs [] (i+1) op h2
      exact ⟨j, hk, by omega⟩
  | x :: xs, y :: ys, i, op, h => by
    rw [seqDiffRec] at h
    by_cases he : eqv x y = true
    · rw [if_pos he] at h
      obtain ⟨j, hk, hle⟩ := seqDiffRec_keys xs ys (i+1) op h
      exact ⟨j, hk, by omega⟩
    · rw [if_neg he] at h
      by_cases hs : similar x y = true
      · rw [if_pos hs] at h
        rcases List.mem_cons.mp h with h2 | h2
        · subst h2; exact ⟨i, by rw [opKey], le_rfl⟩
        · obtain ⟨j, hk, hle⟩ := seqDiffRec_keys xs ys (i+1) op h2
          exact ⟨j, hk, by omega⟩
      · rw [if_neg hs] at h
        have h9 : op ∈ (if (seqDiffRec (i+1) xs (y :: ys)).length
            ≤ (seqDiffRec i (x :: xs) ys).length
          then DiffOp.remove (.i i) :: seqDiffRec (i+1) xs (y :: ys)
          else DiffOp.add (.i i) y :: seqDiffRec i (x :: xs) ys) := h
        by_cases hlen : (seqDiffRec (i+1) xs (y :: ys)).length
            ≤ (seqDiffRec i (x :: xs) ys).length
        · rw [if_pos hlen] at h9
          rcases List.mem_cons.mp h9 with h2 | h2
          · subst h2; exact ⟨i, by rw [opKey], le_rfl⟩
          · obtain ⟨j, hk, hle⟩ := seqDiffRec_keys xs (y :: ys) (i+1) op h2
            exact ⟨j, hk, by omega⟩
        · rw [if_neg hlen] at h9
          rcases List.mem_cons.mp h9 with h2 | h2
          · subst h2; exact ⟨i, by rw [opKey], le_rfl⟩
          · exact seqDiffRec_keys (x :: xs) ys i op h2
termination_by xs ys i op h => sizeOf xs + sizeOf ys
decreasing_by all_goals simp_arith

theorem applySeqGo_skip1 {d : Diff} {i : Nat} {x : Value} {xs : List Value}
    (h : ∀ op ∈ d, ∃ j, opKey op = .i j ∧ i + 1 ≤ j) :
    applySeqGo d i (x :: xs) = consOkM (.ok x) (applySeqGo d (i+1) xs) := by
  cases d with
  | nil =>
    rw [applySeqGo, applySeqGo, consOkM]
  | cons op rest =>
    obtain ⟨j, hk, hle⟩ := h op (List.mem_cons_self _ _)
    rw [applySeqGo, applySeqStep, hk]
    simp only
    rw [if_neg (by omega), if_neg (by omega)]
    rw [applySeqSkip]

set_option maxHeartbeats 2000000 in
theorem seqRound : ∀ (xs ys : List Value) (i : Nat),
    (∀ x y, x ∈ xs → y ∈ ys → similar x y = true →
      ∃ c, applyValue (diff x y) x = .ok c ∧ eqv c y = true) →
    wfL xs = true → wfL ys = true →
    ∃ zs, applySeqGo (seqDiffRec i xs ys) i xs = .ok zs ∧ eqvList zs ys = true
  | [], [], i, _, _, _ => by
    rw [seqDiffRec, applySeqGo]
    exact ⟨[], rfl, by rw [eqvList]⟩
  | [], y :: ys, i, hIH, hwx, hwy => by
    rw [seqDiffRec]
    rw [wfL] at hwy
    simp only [Bool.and_eq_true] at hwy
    obtain ⟨zs, hgo, hevl⟩ := seqRound [] ys i
      (fun x y hx _ _ => absurd hx (List.not_mem_nil x)) hwx hwy.2
    rw [applySeqGo, applySeqStep]
    simp only [opKey]
    rw [if_neg (by omega)]
    simp only [if_true]
    rw [applySeqConsume, hgo, consOkM]
    exact ⟨y :: zs, rfl, by rw [eqvList, eqv_refl y hwy.1, hevl]; rfl⟩
  | x :: xs, [], i, hIH, hwx, hwy => by
    rw [seqDiffRec]
    rw [wfL] at hwx
    simp only [Bool.and_eq_true] at hwx
    obtain ⟨zs, hgo, hevl⟩ := seqRound xs [] (i+1)
      (fun x2 y hx hy _ => absurd hy (List.not_mem_nil y)) hwx.2 hwy
    rw [applySeqGo, applySeqStep]
    simp only [opKey]
    rw [if_neg (by omega)]
    simp only [if_true]
    rw [applySeqConsume, hgo]
    exact ⟨zs, rfl, hevl⟩
  | x :: xs, y :: ys, i, hIH, hwx, hwy => by
    rw [seqDiffRec]
    rw [wfL] at hwx hwy
    simp only [Bool.and_eq_true] at hwx hwy
    by_cases he : eqv x y = true
    · rw [if_pos he]
      obtain ⟨zs, hgo, hevl⟩ := seqRound xs ys (i+1)
        (fun x2 y2 hx hy hs =>
          hIH x2 y2 (List.mem_cons_of_mem _ hx) (List.mem_cons_of_mem _ hy) hs)
        hwx.2 hwy.2
      rw [applySeqGo_skip1 (fun op hm => seqDiffRec_keys xs ys (i+1) op hm)]
      rw [hgo, consOkM]
      exact ⟨x :: zs, rfl, by rw [eqvList, he, hevl]; rfl⟩
    · rw [if_neg he]
      by_cases hs : similar x y = true
      · rw [if_pos hs]
        obtain ⟨c, happ, hec⟩ := hIH x y (List.mem_cons_self _ _) (List.mem_cons_self _ _) hs
        obtain ⟨zs, hgo, hevl⟩ := seqRound xs ys (i+1)
          (fun x2 y2 hx hy hs2 =>
            hIH x2 y2 (List.mem_cons_of_mem _ hx) (List.mem_cons_of_mem _ hy) hs2)
          hwx.2 hwy.2
        rw [applySeqGo, applySeqStep]
        simp only [opKey]
        rw [if_neg (by omega)]
        simp only [if_true]
        rw [applySeqConsume, happ, hgo, consOkM]
        exact ⟨c :: zs, rfl, by rw [eqvList, hec, hevl]; rfl⟩
      · rw [if_neg hs]
        show ∃ zs, applySeqGo (if (seqDiffRec (i+1) xs (y :: ys)).length
            ≤ (seqDiffRec i (x :: xs) ys).length
          then DiffOp.remove (.i i) :: seqDiffRec (i+1) xs (y :: ys)
          else DiffOp.add (.i i) y :: seqDiffRec i (x :: xs) ys) i (x :: xs) = .ok zs
          ∧ eqvList zs (y :: ys) = true
        by_cases hlen : (seqDiffRec (i+1) xs (y :: ys)).length
            ≤ (seqDiffRec i (x :: xs) ys).length
        · rw [if_pos hlen]
          obtain ⟨zs, hgo, hevl⟩ := seqRound xs (y :: ys) (i+1)
            (fun x2 y2 hx hy hs2 =>
              hIH x2 y2 (List.mem_cons_of_mem _ hx) hy hs2)
            hwx.2 (by rw [wfL]; simp [hwy.1, hwy.2])
          rw [applySeqGo, applySeqStep]
          simp only [opKey]
          rw [if_neg (by omega)]
          simp only [if_true]
          rw [applySeqConsume, hgo]
          exact ⟨zs, rfl, hevl⟩
        · rw [if_neg hlen]
          obtain ⟨zs, hgo, hevl⟩ := seqRound (x :: xs) ys i
            (fun x2 y2 hx hy hs2 =>
              hIH x2 y2 hx (List.mem_cons_of_mem _ hy) hs2)
            (by rw [wfL]; simp [hwx.1, hwx.2]) hwy.2
          rw [applySeqGo, applySeqStep]
          simp only [opKey]
          rw [if_neg (by omega)]
          simp only [if_true]
          rw [applySeqConsume, hgo, consOkM]
          exact ⟨y :: zs, rfl, by rw [eqvList, eqv_refl y hwy.1, hevl]; rfl⟩
termination_by xs ys i _ _ _ => sizeOf xs + sizeOf ys
decreasing_by all_goals simp_arith

theorem hasKeyK_cons {k2 k1 : String} {v : Value} {es : List (String × Value)} :
    hasKeyK k2 ((k1, v) :: es) = (if k1 = k2 then true else hasKeyK k2 es) := by
  rw [hasKeyK, lookupK]
  by_cases h : k1 = k2
  · simp [h]
  · simp [h, hasKeyK]

theorem mapDiffOp1_none {fs : List (String × Value)} {k : String} {v : Value}
    (h : lookupK k fs = none) : mapDiffOp1 fs k v = [.remove (.k k)] := by
  rw [mapDiffOp1]
  split
  · rfl
  · rename_i w heq
    exact absurd heq (by rw [h]; simp)

theorem mapDiffOp1_some {fs : List (String × Value)} {k : String} {v w : Value}
    (h : lookupK k fs = some w) :
    mapDiffOp1 fs k v =
      (if eqv v w then [] else if similar v w then [.patch (.k k) (diff v w)]
       else [.replace (.k k) w]) := by
  rw [mapDiffOp1]
  split
  · rename_i heq
    exact absurd heq (by rw [h]; simp)
  · rename_i w2 heq
    rw [h] at heq
    injection heq with hw
    subst hw
    rfl

theorem mapDiffOp1_keys {fs : List (String × Value)} {k : String} {v : Value} :
    ∀ op ∈ mapDiffOp1 fs k v, opKey op = .k k := by
  intro op hm
  cases hl : lookupK k fs with
  | none =>
    rw [mapDiffOp1_none hl] at hm
    have := List.mem_singleton.mp hm
    subst this
    rw [opKey]
  | some w =>
    rw [mapDiffOp1_some hl] at hm
    by_cases he : eqv v w = true
    · rw [if_pos he] at hm
      cases hm
    · rw [if_neg he] at hm
      by_cases hs : similar v w = true
      · rw [if_pos hs] at hm
        have := List.mem_singleton.mp hm
        subst this
        rw [opKey]
      · rw [if_neg hs] at hm
        have := List.mem_singleton.mp hm
        subst this
        rw [opKey]

theorem findOpK_none_of_keys {g : Diff} {k2 k : String}
    (hg : ∀ op ∈ g, opKey op = .k k2) (hne : k2 ≠ k) : findOpK g k = none := by
  rw [findOpK, List.find?_eq_none]
  intro op hm
  rw [hg op hm]
  simp [hne]

theorem findOpK_mapDiffOps_none {fs : List (String × Value)} {k : String} :
    ∀ {es : List (String × Value)}, hasKeyK k es = false →
      findOpK (mapDiffOps fs es) k = none := by
  intro es
  induction es with
  | nil => intro _; rw [mapDiffOps]; rfl
  | cons e es ih =>
    obtain ⟨k2, v2⟩ := e
    intro hk
    rw [hasKeyK_cons] at hk
    by_cases h12 : k2 = k
    · rw [if_pos h12] at hk
      cases hk
    · rw [if_neg h12] at hk
      rw [mapDiffOps, findOpK_append]
      rw [findOpK_none_of_keys mapDiffOp1_keys h12]
      exact ih hk

theorem findOpK_mapDiffAdds_none {fs : List (String × Value)} {k : String}
    {es : List (String × Value)} (hk : hasKeyK k es = true) :
    findOpK (mapDiffAdds es fs) k = none := by
  induction fs with
  | nil => rw [mapDiffAdds]; rfl
  | cons e fs ih =>
    obtain ⟨k2, w⟩ := e
    rw [mapDiffAdds]
    cases h2 : hasKeyK k2 es with
    | true =>
      simp only [h2, if_true, List.nil_append]
      exact ih
    | false =>
      simp only [h2, Bool.false_eq_true, if_false, List.singleton_append]
      have hne : k2 ≠ k := by
        intro he
        subst he
        rw [hk] at h2
        cases h2
      rw [findOpK_cons_neg (by rw [opKey]; simp [hne])]
      exact ih

theorem findOpK_mapDiffOps_self {fs : List (String × Value)} {k : String} {v : Value} :
    ∀ {es : List (String × Value)}, uniqKeys es = true → (k, v) ∈ es →
      findOpK (mapDiffOps fs es) k = findOpK (mapDiffOp1 fs k v) k := by
  intro es
  induction es with
  | nil => intro _ hm; cases hm
  | cons e es ih =>
    obtain ⟨k2, v2⟩ := e
    intro hu hm
    rw [uniqKeys] at hu
    simp only [Bool.and_eq_true, Bool.not_eq_true'] at hu
    rw [mapDiffOps, findOpK_append]
    by_cases h12 : k2 = k
    · subst h12
      have hv : v = v2 := by
        rcases List.mem_cons.mp hm with h2 | h2
        · exact congrArg Prod.snd h2
        · exact absurd (hasKeyK_of_mem h2) (by simp [hu.1])
      subst hv
      cases hfg : findOpK (mapDiffOp1 fs k2 v) k2 with
      | some op => rfl
      | none =>
        show findOpK (mapDiffOps fs es) k2 = none
        exact findOpK_mapDiffOps_none hu.1
    · rw [findOpK_none_of_keys mapDiffOp1_keys h12]
      rcases List.mem_cons.mp hm with h2 | h2
      · injection h2 with hk2
        exact absurd hk2.symm h12
      · exact ih hu.2 h2

theorem collectAdds_append : ∀ (d1 d2 : Diff),
    collectAdds (d1 ++ d2) = collectAdds d1 ++ collectAdds d2
  | [], d2 => by rw [collectAdds]; rfl
  | op :: d1, d2 => by
    rw [List.cons_append]
    cases op with
    | add key w =>
      cases key with
      | k s => rw [collectAdds, collectAdds, collectAdds_append d1 d2]; rfl
      | i n => rw [collectAdds, collectAdds, collectAdds_append d1 d2]
      | root => rw [collectAdds, collectAdds, collectAdds_append d1 d2]
    | remove key => rw [collectAdds, collectAdds, collectAdds_append d1 d2]
    | replace key w => rw [collectAdds, collectAdds, collectAdds_append d1 d2]
    | patch key dd => rw [collectAdds, collectAdds, collectAdds_append d1 d2]

theorem collectAdds_mapDiffOp1 {fs : List (String × Value)} {k : String} {v : Value} :
    collectAdds (mapDiffOp1 fs k v) = [] := by
  cases hl : lookupK k fs with
  | none => rw [mapDiffOp1_none hl, collectAdds, collectAdds]
  | some w =>
    rw [mapDiffOp1_some hl]
    by_cases he : eqv v w = true
    · rw [if_pos he, collectAdds]
    · rw [if_neg he]
      by_cases hs : similar v w = true
      · rw [if_pos hs, collectAdds, collectAdds]
      · rw [if_neg hs, collectAdds, collectAdds]

theorem collectAdds_mapDiffOps {fs : List (String × Value)} :
    ∀ {es : List (String × Value)}, collectAdds (mapDiffOps fs es) = [] := by
  intro es
  induction es with
  | nil => rw [mapDiffOps, collectAdds]
  | cons e es ih =>
    obtain ⟨k2, v2⟩ := e
    rw [mapDiffOps, collectAdds_append, collectAdds_mapDiffOp1, ih]
    rfl

theorem lookup_adds {es : List (String × Value)} {k : String}
    (hk : hasKeyK k es = false) : ∀ {fs : List (String × Value)},
    lookupK k (collectAdds (mapDiffAdds es fs)) = lookupK k fs := by
  intro fs
  induction fs with
  | nil => rw [mapDiffAdds]; rfl
  | cons e fs ih =>
    obtain ⟨k2, w⟩ := e
    rw [mapDiffAdds, collectAdds_append]
    cases h2 : hasKeyK k2 es with
    | true =>
      simp only [h2, if_true]
      have hne : k2 ≠ k := by
        intro he
        subst he
        rw [h2] at hk
        cases hk
      rw [collectAdds]
      simp only [List.nil_append]
      rw [ih, lookupK]
      simp [hne]
    | false =>
      simp only [h2, Bool.false_eq_true, if_false]
      rw [collectAdds, collectAdds]
      simp only [List.singleton_append]
      rw [lookupK, lookupK]
      by_cases h12 : k2 = k
      · simp [h12]
      · simp only [h12, if_false]
        exact ih

theorem adds_keys_in_fs {es : List (String × Value)} :
    ∀ {fs : List (String × Value)}, ∀ e ∈ collectAdds (mapDiffAdds es fs),
      hasKeyK e.1 fs = true := by
  intro fs
  induction fs with
  | nil => intro e he; rw [mapDiffAdds] at he; cases he
  | cons e0 fs ih =>
    obtain ⟨k2, w⟩ := e0
    intro e he
    rw [mapDiffAdds, collectAdds_append] at he
    rw [hasKeyK_cons]
    cases h2 : hasKeyK k2 es with
    | true =>
      simp only [h2, if_true] at he
      rw [collectAdds] at he
      simp only [List.nil_append] at he
      by_cases h12 : k2 = e.1
      · simp [h12]
      · rw [if_neg h12]
        exact ih e he
    | false =>
      simp only [h2, Bool.false_eq_true, if_false] at he
      rw [collectAdds, collectAdds] at he
      simp only [List.singleton_append] at he
      rcases List.mem_cons.mp he with h3 | h3
      · subst h3
        simp
      · by_cases h12 : k2 = e.1
        · simp [h12]
        · rw [if_neg h12]
          exact ih e h3

theorem checkMapOps_append {es : List (String × Value)} : ∀ (d1 d2 : Diff),
    checkMapOps es (d1 ++ d2) = (checkMapOps es d1 && checkMapOps es d2)
  | [], d2 => by rw [checkMapOps]; rfl
  | op :: d1, d2 => by
    rw [List.cons_append, checkMapOps, checkMapOps, checkMapOps_append d1 d2]
    rw [Bool.and_assoc]

theorem checkMapOps_mapDiffOp1 {es fs : List (String × Value)} {k : String} {v : Value}
    (hk : hasKeyK k es = true) : checkMapOps es (mapDiffOp1 fs k v) = true := by
  cases hl : lookupK k fs with
  | none =>
    rw [mapDiffOp1_none hl, checkMapOps, checkMapOps, mapOpOK, hk]
    rfl
  | some w =>
    rw [mapDiffOp1_some hl]
    by_cases he : eqv v w = true
    · rw [if_pos he, checkMapOps]
    · rw [if_neg he]
      by_cases hs : similar v w = true
      · rw [if_pos hs, checkMapOps, checkMapOps, mapOpOK, hk]
        rfl
      · rw [if_neg hs, checkMapOps, checkMapOps, mapOpOK, hk]
        rfl

theorem checkMapOps_mapDiffOps {es fs : List (String × Value)} :
    ∀ {es2 : List (String × Value)}, (∀ e ∈ es2, hasKeyK e.1 es = true) →
      checkMapOps es (mapDiffOps fs es2) = true := by
  intro es2
  induction es2 with
  | nil => intro _; rw [mapDiffOps, checkMapOps]
  | cons e es2 ih =>
    obtain ⟨k2, v2⟩ := e
    intro h
    rw [mapDiffOps, checkMapOps_append]
    rw [checkMapOps_mapDiffOp1 (h (k2, v2) (List.mem_cons_self _ _))]
    rw [ih (fun e2 he2 => h e2 (List.mem_cons_of_mem _ he2))]
    rfl

theorem checkMapOps_mapDiffAdds {es : List (String × Value)} :
    ∀ {fs : List (String × Value)}, checkMapOps es (mapDiffAdds es fs) = true := by
  intro fs
  induction fs with
  | nil => rw [mapDiffAdds, checkMapOps]
  | cons e fs ih =>
    obtain ⟨k2, w⟩ := e
    rw [mapDiffAdds, checkMapOps_append]
    cases h2 : hasKeyK k2 es with
    | true =>
      simp only [h2, if_true]
      rw [checkMapOps, ih]
      rfl
    | false =>
      simp only [h2, Bool.false_eq_true, if_false]
      rw [checkMapOps, checkMapOps, mapOpOK, h2, ih]
      rfl

theorem applyMapEntries_nilD : ∀ (es : List (String × Value)),
    applyMapEntries [] es = .ok es
  | [] => by rw [applyMapEntries]
  | (k, v) :: es => by
    rw [applyMapEntries_cons_none (by rw [findOpK]; rfl)]
    rw [applyMapEntries_nilD es, consEntry]

theorem mapDiffAdds_nil_keys {es : List (String × Value)} :
    ∀ {fs : List (String × Value)}, mapDiffAdds es fs = [] →
      ∀ e ∈ fs, hasKeyK e.1 es = true := by
  intro fs
  induction fs with
  | nil => intro _ e he; cases he
  | cons e0 fs ih =>
    obtain ⟨k2, w⟩ := e0
    intro h e he
    rw [mapDiffAdds] at h
    cases h2 : hasKeyK k2 es with
    | true =>
      simp only [h2, if_true, List.nil_append] at h
      rcases List.mem_cons.mp he with h3 | h3
      · subst h3
        exact h2
      · exact ih h e h3
    | false =>
      simp only [h2, Bool.false_eq_true, if_false, List.singleton_append] at h
      cases h

/-- The shape of the op a mapping diff assigns to a base entry (k, v):
Remove when the key is gone, nothing when the values are equal, a Patch
applying cleanly to an equivalent of the target when similar, and a
Replace carrying the target value otherwise. -/
abbrev opSpec (fs : List (String × Value)) (k : String) (v : Value)
    (o : Option DiffOp) : Prop :=
  (lookupK k fs = none ∧ o = some (.remove (.k k)))
  ∨ (∃ w, lookupK k fs = some w ∧
      ((o = none ∧ eqv v w = true)
       ∨ (∃ dd c, o = some (.patch (.k k) dd) ∧ applyValue dd v = .ok c ∧ eqv c w = true)
       ∨ o = some (.replace (.k k) w)))

set_option maxHeartbeats 2000000 in
theorem AME_general {D : Diff} {fs : List (String × Value)} :
    ∀ (es : List (String × Value)),
    (∀ k v, (k, v) ∈ es → opSpec fs k v (findOpK D k)) →
    (∀ k w, lookupK k fs = some w → wfV w = true) →
    ∃ front, applyMapEntries D es = .ok front ∧
      (∀ k w, hasKeyK k es = true → lookupK k fs = some w →
        ∃ c, lookupK k front = some c ∧ eqv c w = true) ∧
      (∀ k, hasKeyK k es = false → lookupK k front = none) ∧
      (∀ e ∈ front, hasKeyK e.1 fs = true) := by
  intro es
  induction es with
  | nil =>
    intro _ _
    refine ⟨[], by rw [applyMapEntries], ?_, ?_, ?_⟩
    · intro k w hk _
      simp [hasKeyK, lookupK] at hk
    · intro k _
      rw [lookupK]
    · intro e he
      cases he
  | cons e es ih =>
    obtain ⟨k, v⟩ := e
    intro hspec hwfs
    obtain ⟨front, hame, hA, hB, hC⟩ :=
      ih (fun k2 v2 hm => hspec k2 v2 (List.mem_cons_of_mem _ hm)) hwfs
    rcases hspec k v (List.mem_cons_self _ _) with ⟨hnone, ho⟩ |
      ⟨w, hlw, ⟨honone, heqv⟩ | ⟨dd, c0, ho, happ, heqc⟩ | ho⟩
    · refine ⟨front, ?_, ?_, ?_, hC⟩
      · rw [applyMapEntries_cons_remove ho, hame]
      · intro k2 w2 hk2 hlw2
        rw [hasKeyK_cons] at hk2
        by_cases h12 : k = k2
        · subst h12
          rw [hlw2] at hnone
          cases hnone
        · rw [if_neg h12] at hk2
          exact hA k2 w2 hk2 hlw2
      · intro k2 hk2
        rw [hasKeyK_cons] at hk2
        by_cases h12 : k = k2
        · rw [if_pos h12] at hk2
          cases hk2
        · rw [if_neg h12] at hk2
          exact hB k2 hk2
    · refine ⟨(k, v) :: front, ?_, ?_, ?_, ?_⟩
      · rw [applyMapEntries_cons_none honone, hame, consEntry]
      · intro k2 w2 hk2 hlw2
        by_cases h12 : k = k2
        · subst h12
          refine ⟨v, by rw [lookupK]; simp, ?_⟩
          rw [hlw] at hlw2
          injection hlw2 with hw2
          rw [← hw2]
          exact heqv
        · rw [hasKeyK_cons, if_neg h12] at hk2
          obtain ⟨c, hlc, hec⟩ := hA k2 w2 hk2 hlw2
          refine ⟨c, ?_, hec⟩
          rw [lookupK, if_neg h12]
          exact hlc
      · intro k2 hk2
        rw [hasKeyK_cons] at hk2
        by_cases h12 : k = k2
        · rw [if_pos h12] at hk2
          cases hk2
        · rw [if_neg h12] at hk2
          rw [lookupK, if_neg h12]
          exact hB k2 hk2
      · intro e2 he2
        rcases List.mem_cons.mp he2 with h2 | h2
        · subst h2
          show hasKeyK k fs = true
          rw [hasKeyK, hlw]
          rfl
        · exact hC e2 h2
    · refine ⟨(k, c0) :: front, ?_, ?_, ?_, ?_⟩
      · rw [applyMapEntries_cons_patch ho, happ, hame, consEntry]
      · intro k2 w2 hk2 hlw2
        by_cases h12 : k = k2
        · subst h12
          refine ⟨c0, by rw [lookupK]; simp, ?_⟩
          rw [hlw] at hlw2
          injection hlw2 with hw2
          rw [← hw2]
          exact heqc
        · rw [hasKeyK_cons, if_neg h12] at hk2
          obtain ⟨c, hlc, hec⟩ := hA k2 w2 hk2 hlw2
          refine ⟨c, ?_, hec⟩
          rw [lookupK, if_neg h12]
          exact hlc
      · intro k2 hk2
        rw [hasKeyK_cons] at hk2
        by_cases h12 : k = k2
        · rw [if_pos h12] at hk2
          cases hk2
        · rw [if_neg h12] at hk2
          rw [lookupK, if_neg h12]
          exact hB k2 hk2
      · intro e2 he2
        rcases List.mem_cons.mp he2 with h2 | h2
        · subst h2
          show hasKeyK k fs = true
          rw [hasKeyK, hlw]
          rfl
        · exact hC e2 h2
    · refine ⟨(k, w) :: front, ?_, ?_, ?_, ?_⟩
      · rw [applyMapEntries_cons_replace ho, hame, consEntry]
      · intro k2 w2 hk2 hlw2
        by_cases h12 : k = k2
        · subst h12
          refine ⟨w, by rw [lookupK]; simp, ?_⟩
          rw [hlw] at hlw2
          injection hlw2 with hw2
          rw [← hw2]
          exact eqv_refl w (hwfs k w hlw)
        · rw [hasKeyK_cons, if_neg h12] at hk2
          obtain ⟨c, hlc, hec⟩ := hA k2 w2 hk2 hlw2
          refine ⟨c, ?_, hec⟩
          rw [lookupK, if_neg h12]
          exact hlc
      · intro k2 hk2
        rw [hasKeyK_cons] at hk2
        by_cases h12 : k = k2
        · rw [if_pos h12] at hk2
          cases hk2
        · rw [if_neg h12] at hk2
          rw [lookupK, if_neg h12]
          exact hB k2 hk2
      · intro e2 he2
        rcases List.mem_cons.mp he2 with h2 | h2
        · subst h2
          show hasKeyK k fs = true
          rw [hasKeyK, hlw]
          rfl
        · exact hC e2 h2

theorem mapDiffOps_keys {fs : List (String × Value)} : ∀ {es2 : List (String × Value)},
    ∀ op ∈ mapDiffOps fs es2, ∃ k0, opKeyStr op = some k0 := by
  intro es2
  induction es2 with
  | nil => intro op h; rw [mapDiffOps] at h; cases h
  | cons e es2 ih =>
    obtain ⟨k2, v2⟩ := e
    intro op h
    rw [mapDiffOps] at h
    rcases List.mem_append.mp h with h2 | h2
    · exact ⟨k2, opKeyStr_eq_some.mpr (mapDiffOp1_keys op h2)⟩
    · exact ih op h2

theorem mapDiffAdds_keys {es : List (String × Value)} : ∀ {fs : List (String × Value)},
    ∀ op ∈ mapDiffAdds es fs, ∃ k0, opKeyStr op = some k0 := by
  intro fs
  induction fs with
  | nil => intro op h; rw [mapDiffAdds] at h; cases h
  | cons e fs ih =>
    obtain ⟨k2, w⟩ := e
    intro op h
    rw [mapDiffAdds] at h
    cases h2 : hasKeyK k2 es with
    | true =>
      simp only [h2, if_true, List.nil_append] at h
      exact ih op h
    | false =>
      simp only [h2, Bool.false_eq_true, if_false, List.singleton_append] at h
      rcases List.mem_cons.mp h with h3 | h3
      · subst h3
        exact ⟨k2, by rw [opKeyStr, opKey]⟩
      · exact ih op h3

theorem mapAssemble {G fs : List (String × Value)}
    (hsub : ∀ e ∈ G, hasKeyK e.1 fs = true)
    (hpt : ∀ k w, (k, w) ∈ fs → ∃ c, lookupK k G = some c ∧ eqv c w = true) :
    eqv (.map G) (.map fs) = true := by
  rw [eqv, subKeysChk_of hsub, eqvAt_of_pointwise hpt]
  rfl

set_option maxHeartbeats 2000000 in
theorem mapRound {es fs : List (String × Value)}
    (hIH : ∀ v w k1 k2, (k1, v) ∈ es → (k2, w) ∈ fs → similar v w = true →
       ∃ c, applyValue (diff v w) v = .ok c ∧ eqv c w = true)
    (hwa : wfV (.map es) = true) (hwb : wfV (.map fs) = true) :
    ∃ c, applyValue (mapDiffOps fs es ++ mapDiffAdds es fs) (.map es) = .ok c ∧
      eqv c (.map fs) = true := by
  rw [wfV] at hwa hwb
  simp only [Bool.and_eq_true] at hwa hwb
  have hspec : ∀ k v, (k, v) ∈ es →
      opSpec fs k v (findOpK (mapDiffOps fs es ++ mapDiffAdds es fs) k) := by
    intro k v hm
    rw [findOpK_append]
    rw [findOpK_mapDiffOps_self hwa.1 hm]
    cases hl : lookupK k fs with
    | none =>
      rw [mapDiffOp1_none hl]
      rw [findOpK_cons_pos (by rw [opKey]; simp)]
      exact Or.inl ⟨hl, rfl⟩
    | some w =>
      rw [mapDiffOp1_some hl]
      by_cases he : eqv v w = true
      · rw [if_pos he]
        have hk : hasKeyK k es = true := hasKeyK_of_mem hm
        rw [findOpK_mapDiffAdds_none hk]
        exact Or.inr ⟨w, hl, Or.inl ⟨rfl, he⟩⟩
      · rw [if_neg he]
        by_cases hsim : similar v w = true
        · rw [if_pos hsim]
          rw [findOpK_cons_pos (by rw [opKey]; simp)]
          obtain ⟨c, happ, hec⟩ := hIH v w k k hm (mem_of_lookupK hl) hsim
          exact Or.inr ⟨w, hl, Or.inr (Or.inl ⟨diff v w, c, rfl, happ, hec⟩)⟩
        · rw [if_neg hsim]
          rw [findOpK_cons_pos (by rw [opKey]; simp)]
          exact Or.inr ⟨w, hl, Or.inr (Or.inr rfl)⟩
  have hwfs : ∀ k w, lookupK k fs = some w → wfV w = true :=
    fun k w hl => wfE_mem hwb.2 (mem_of_lookupK hl)
  obtain ⟨front, hame, hA, hB, hC⟩ := AME_general es hspec hwfs
  cases hD : mapDiffOps fs es ++ mapDiffAdds es fs with
  | nil =>
    have hparts := List.append_eq_nil.mp hD
    rw [hD] at hame
    rw [applyMapEntries_nilD] at hame
    injection hame with hfront
    refine ⟨.map es, by rw [applyValue], ?_⟩
    apply mapAssemble
    · intro e he
      exact hC e (by rw [← hfront]; exact he)
    · intro k w hm
      have hlw : lookupK k fs = some w := lookupK_self hm hwb.1
      have hk : hasKeyK k es = true := mapDiffAdds_nil_keys hparts.2 (k, w) hm
      obtain ⟨c, hlc, hec⟩ := hA k w hk hlw
      rw [← hfront] at hlc
      exact ⟨c, hlc, hec⟩
  | cons op rest =>
    have hkeys : ∀ op2 ∈ (op :: rest), ∃ s, opKeyStr op2 = some s := by
      rw [← hD]
      intro op2 hm2
      rcases List.mem_append.mp hm2 with h3 | h3
      · exact mapDiffOps_keys op2 h3
      · exact mapDiffAdds_keys op2 h3
    have hroot2 : isRootReplaceSingleton (op :: rest) = none :=
      rootSingleton_none (hasRootOp_false_of_keyed hkeys)
    have hck : checkMapOps es (op :: rest) = true := by
      rw [← hD, checkMapOps_append]
      rw [checkMapOps_mapDiffOps
        (fun e2 he2 => by obtain ⟨k0, v0⟩ := e2; exact hasKeyK_of_mem he2)]
      rw [checkMapOps_mapDiffAdds]
      rfl
    rw [hD] at hame
    rw [applyValue, hroot2, rootOr, applyContainer, if_pos hck, hame]
    refine ⟨.map (front ++ collectAdds (op :: rest)), by simp [Except.map], ?_⟩
    rw [← hD, collectAdds_append, collectAdds_mapDiffOps, List.nil_append]
    apply mapAssemble
    · intro e he
      rcases List.mem_append.mp he with h3 | h3
      · exact hC e h3
      · exact adds_keys_in_fs e h3
    · intro k w hm
      have hlw : lookupK k fs = some w := lookupK_self hm hwb.1
      cases hk : hasKeyK k es with
      | true =>
        obtain ⟨c, hlc, hec⟩ := hA k w hk hlw
        refine ⟨c, ?_, hec⟩
        rw [lookupK_append, hlc]
      | false =>
        refine ⟨w, ?_, eqv_refl w (hwfs k w hlw)⟩
        rw [lookupK_append, hB k hk]
        show lookupK k (collectAdds (mapDiffAdds es fs)) = some w
        rw [lookup_adds hk]
        exact hlw

theorem hasRootOp_false_of_idx {d : Diff}
    (h : ∀ op ∈ d, ∃ j, opKey op = .i j) : hasRootOp d = false := by
  rw [hasRootOp]
  rw [List.any_eq_false]
  intro op hm
  obtain ⟨j, hj⟩ := h op hm
  rw [isRootOp, hj]
  simp

set_option maxHeartbeats 2000000 in
theorem C2core : ∀ (a b : Value), wfV a = true → wfV b = true →
    ∃ c, applyValue (diff a b) a = .ok c ∧ eqv c b = true
  | .map es, .map fs, hwa, hwb => by
    rw [diff]
    by_cases he : eqv (Value.map es) (Value.map fs) = true
    · rw [if_pos he]
      exact ⟨Value.map es, by rw [applyValue], he⟩
    · rw [if_neg he, diffC]
      have hwa2 := hwa
      have hwb2 := hwb
      rw [wfV] at hwa2 hwb2
      simp only [Bool.and_eq_true] at hwa2 hwb2
      refine mapRound ?_ hwa hwb
      intro v w k1 k2 hmv hmw hsim
      have hszv : sizeOf v < sizeOf es := by
        have h1 := List.sizeOf_lt_of_mem hmv
        simp_arith at h1
        omega
      have hszw : sizeOf w < sizeOf fs := by
        have h1 := List.sizeOf_lt_of_mem hmw
        simp_arith at h1
        omega
      exact C2core v w (wfE_mem hwa2.2 hmv) (wfE_mem hwb2.2 hmw)
  | .seq xs, .seq ys, hwa, hwb => by
    rw [diff]
    by_cases he : eqv (Value.seq xs) (Value.seq ys) = true
    · rw [if_pos he]
      exact ⟨Value.seq xs, by rw [applyValue], he⟩
    · rw [if_neg he, diffC]
      have hwa2 := hwa
      have hwb2 := hwb
      rw [wfV] at hwa2 hwb2
      obtain ⟨zs, hgo, hevl⟩ := seqRound xs ys 0
        (fun x y hx hy hs => by
          have h1 := List.sizeOf_lt_of_mem hx
          have h2 := List.sizeOf_lt_of_mem hy
          exact C2core x y (wfL_mem hwa2 hx) (wfL_mem hwb2 hy))
        hwa2 hwb2
      cases hd : seqDiffRec 0 xs ys with
      | nil =>
        rw [hd] at hgo
        rw [applySeqGo] at hgo
        injection hgo with hzs
        refine ⟨Value.seq xs, by rw [applyValue], ?_⟩
        rw [eqv]
        rw [← hzs] at hevl
        exact hevl
      | cons op rest =>
        have hroot2 : isRootReplaceSingleton (op :: rest) = none := by
          apply rootSingleton_none
          apply hasRootOp_false_of_idx
          rw [← hd]
          intro op2 hm2
          obtain ⟨j, hk, _⟩ := seqDiffRec_keys xs ys 0 op2 hm2
          exact ⟨j, hk⟩
        rw [hd] at hgo
        refine ⟨Value.seq zs, ?_, ?_⟩
        · rw [applyValue, hroot2, rootOr, applyContainer, hgo]
          rfl
        · rw [eqv]
          exact hevl
  | .map es, .null, hwa, hwb => by
    rw [diff]
    by_cases he : eqv (Value.map es) (Value.null) = true
    · rw [if_pos he]
      exact ⟨Value.map es, by rw [applyValue], he⟩
    · rw [if_neg he, diffC]
      exact rootRoundtrip hwb
  | .map es, .bool b2, hwa, hwb => by
    rw [diff]
    by_cases he : eqv (Value.map es) (Value.bool b2) = true
    · rw [if_pos he]
      exact ⟨Value.map es, by rw [applyValue], he⟩
    · rw [if_neg he, diffC]
      exact rootRoundtrip hwb
  | .map es, .num n2, hwa, hwb => by
    rw [diff]
    by_cases he : eqv (Value.map es) (Value.num n2) = true
    · rw [if_pos he]
      exact ⟨Value.map es, by rw [applyValue], he⟩
    · rw [if_neg he, diffC]
      exact rootRoundtrip hwb
  | .map es, .str s2, hwa, hwb => by
    rw [diff]
    by_cases he : eqv (Value.map es) (Value.str s2) = true
    · rw [if_pos he]
      exact ⟨Value.map es, by rw [applyValue], he⟩
    · rw [if_neg he, diffC]
      exact rootRoundtrip hwb
  | .map es, .seq ys, hwa, hwb => by
    rw [diff]
    by_cases he : eqv (Value.map es) (Value.seq ys) = true
    · rw [if_pos he]
      exact ⟨Value.map es, by rw [applyValue], he⟩
    · rw [if_neg he, diffC]
      exact rootRoundtrip hwb
  | .seq xs, .null, hwa, hwb => by
    rw [diff]
    by_cases he : eqv (Value.seq xs) (Value.null) = true
    · rw [if_pos he]
      exact ⟨Value.seq xs, by rw [applyValue], he⟩
    · rw [if_neg he, diffC]
      exact rootRoundtrip hwb
  | .seq xs, .bool b2, hwa, hwb => by
    rw [diff]
    by_cases he : eqv (Value.seq xs) (Value.bool b2) = true
    · rw [if_pos he]
      exact ⟨Value.seq xs, by rw [applyValue], he⟩
    · rw [if_neg he, diffC]
      exact rootRoundtrip hwb
  | .seq xs, .num n2, hwa, hwb => by
    rw [diff]
    by_cases he : eqv (Value.seq xs) (Value.num n2) = true
    · rw [if_pos he]
      exact ⟨Value.seq xs, by rw [applyValue], he⟩
    · rw [if_neg he, diffC]
      exact rootRoundtrip hwb
  | .seq xs, .str s2, hwa, hwb => by
    rw [diff]
    by_cases he : eqv (Value.seq xs) (Value.str s2) = true
    · rw [if_pos he]
      exact ⟨Value.seq xs, by rw [applyValue], he⟩
    · rw [if_neg he, diffC]
      exact rootRoundtrip hwb
  | .seq xs, .map fs, hwa, hwb => by
    rw [diff]
    by_cases he : eqv (Value.seq xs) (Value.map fs) = true
    · rw [if_pos he]
      exact ⟨Value.seq xs, by rw [applyValue], he⟩
    · rw [if_neg he, diffC]
      exact rootRoundtrip hwb
  | .null, b, hwa, hwb => by
    rw [diff]
    by_cases he : eqv (Value.null) (b) = true
    · rw [if_pos he]
      exact ⟨Value.null, by rw [applyValue], he⟩
    · rw [if_neg he, diffC]
      exact rootRoundtrip hwb
  | .bool b1, b, hwa, hwb => by
    rw [diff]
    by_cases he : eqv (Value.bool b1) (b) = true
    · rw [if_pos he]
      exact ⟨Value.bool b1, by rw [applyValue], he⟩
    · rw [if_neg he, diffC]
      exact rootRoundtrip hwb
  | .num n1, b, hwa, hwb => by
    rw [diff]
    by_cases he : eqv (Value.num n1) (b) = true
    · rw [if_pos he]
      exact ⟨Value.num n1, by rw [applyValue], he⟩
    · rw [if_neg he, diffC]
      exact rootRoundtrip hwb
  | .str s1, b, hwa, hwb => by
    rw [diff]
    by_cases he : eqv (Value.str s1) (b) = true
    · rw [if_pos he]
      exact ⟨Value.str s1, by rw [applyValue], he⟩
    · rw [if_neg he, diffC]
      exact rootRoundtrip hwb
termination_by a b _ _ => sizeOf a + sizeOf b
decreasing_by all_goals (simp_arith; omega)

/-- C2: for every pair of well-formed Values a and b, applying the diff
produced by diff(a, b) to a succeeds and yields exactly b, where equality
of Values is the structural equality of the spec (order-insensitive for
mappings): apply(diff(a, b), a) == b. -/
theorem C2_roundtrip (a b : Value) (hwa : wfV a = true) (hwb : wfV b = true) :
    ∃ c, apply (diff a b) a = .ok c ∧ eqv c b = true := by
  rw [apply]
  exact C2core a b hwa hwb

/-- Witness for C2 at a concrete input: diffing one mapping against
another with a removed and an added key, the round trip restores the
target exactly. -/
theorem C2_roundtrip_witness :
    wfV (Value.map [("a", Value.num 1)]) = true ∧
    wfV (Value.map [("b", Value.num 2)]) = true ∧
    ∃ c, apply (diff (Value.map [("a", Value.num 1)]) (Value.map [("b", Value.num 2)]))
          (Value.map [("a", Value.num 1)]) = .ok c ∧
        eqv c (Value.map [("b", Value.num 2)]) = true := by
  have h1 : wfV (Value.map [("a", Value.num 1)]) = true := by
    simp [wfV, uniqKeys, wfE, hasKeyK, lookupK]
  have h2 : wfV (Value.map [("b", Value.num 2)]) = true := by
    simp [wfV, uniqKeys, wfE, hasKeyK, lookupK]
  exact ⟨h1, h2, C2_roundtrip _ _ h1 h2⟩
